import Mathlib

/-!
Asset registry chaincode (`chaincode/mychaincode.go`).

A shallow embedding of the asset smart contract: the `Asset` record, its JSON
codec, the transaction-scoped key-value store it runs against, and the seven
contract operations `InitLedger`, `GetAllAssets`, `CreateAsset`, `ReadAsset`,
`AssetExists`, `DeleteAsset` and `DeleteAllAssets`, followed by the properties
proved about them.

A Go `string` is a sequence of bytes that need not be valid UTF-8. The `name` that a
caller passes to `CreateAsset`, and with it the field `Name`, is modelled as such a
sequence (`GoString`). The keys of the world state, hence the ids and the field `ID`
(§3: a printable string), the field `Timestamp` (§3: RFC-3339 text) and the JSON text
stored under a key are valid UTF-8 and are modelled by `String`. Go's `error` is the
`String` holding its message.
-/

namespace Chaincode

/-! ## Data model -/

/-- A finite `float64` (§3: 64-bit binary floating-point), given by its sign bit and the
63 bits after it read as one number: the biased exponent times `2^52` plus the
fraction. The exponent field of a finite number is at most 2046, so the number is below
`2047 * 2^52 = 9218868437227405312`. NaN and the infinities, which `json.Marshal`
rejects, which no JSON text denotes and which no operation of the contract produces,
are left out. -/
structure Float64 where
  neg : Bool
  bits : Fin 9218868437227405312
  deriving DecidableEq, Repr

/-- The Go zero value `0` of a `float64`. -/
def Float64.zero : Float64 := ⟨false, 0⟩

/-- A byte. -/
abbrev Byte := Fin 256

/-- A Go `string`: a sequence of bytes, which need not be valid UTF-8. -/
abbrev GoString := List Byte

/-- The record `Asset` of the source (lines 15-20). `ID` holds a key of the world state
and `Timestamp` an RFC-3339 text, both valid UTF-8; `Name` holds whatever bytes the
caller of `CreateAsset` passes. -/
structure Asset where
  ID : String
  Name : GoString
  Temperature : Float64
  Timestamp : String
  deriving DecidableEq, Repr

/-- The Go zero value of `Asset`, what `var asset Asset` declares. -/
def Asset.zeroValue : Asset := ⟨"", [], Float64.zero, ""⟩

/-! ## AssetCodec: the JSON wire encoding -/

/-- One lower-case hexadecimal digit. -/
def hexDigit (n : Nat) : Char :=
  if n < 10 then Char.ofNat (48 + n) else Char.ofNat (87 + n)

/-- Modelled from the spec: the text of one character inside a JSON string, as the
runtime's standard encoder writes it (§4.2, §6): the quote and the backslash
take a backslash, line feed, carriage return and tab their short escape, the other
control characters and `<`, `>`, `&` the form `\u00XX`, the line and paragraph
separators U+2028 and U+2029 their `\u` form; every other character stands for
itself. -/
def escapeChar (c : Char) : List Char :=
  if c = '"' then ['\\', '"']
  else if c = '\\' then ['\\', '\\']
  else if c = '\n' then ['\\', 'n']
  else if c = '\r' then ['\\', 'r']
  else if c = '\t' then ['\\', 't']
  else if c.toNat < 32 ∨ c = '<' ∨ c = '>' ∨ c = '&' then
    ['\\', 'u', '0', '0', hexDigit (c.toNat / 16), hexDigit (c.toNat % 16)]
  else if c = Char.ofNat 8232 then ['\\', 'u', '2', '0', '2', '8']
  else if c = Char.ofNat 8233 then ['\\', 'u', '2', '0', '2', '9']
  else [c]

/-- The body of a JSON string: every character escaped. -/
def escapeChars : List Char → List Char
  | [] => []
  | c :: cs => escapeChar c ++ escapeChars cs

/-- A JSON string literal, quotes included. -/
def quote (s : String) : List Char :=
  '"' :: (escapeChars s.data ++ ['"'])

/-- The byte with the given value. -/
def byteOf (n : Nat) : Byte := Fin.ofNat n

/-- The UTF-8 encoding of a character. -/
def encodeRune (c : Char) : GoString :=
  if c.toNat < 128 then [byteOf c.toNat]
  else if c.toNat < 2048 then [byteOf (192 + c.toNat / 64), byteOf (128 + c.toNat % 64)]
  else if c.toNat < 65536 then
    [byteOf (224 + c.toNat / 4096), byteOf (128 + c.toNat / 64 % 64), byteOf (128 + c.toNat % 64)]
  else
    [byteOf (240 + c.toNat / 262144), byteOf (128 + c.toNat / 4096 % 64),
      byteOf (128 + c.toNat / 64 % 64), byteOf (128 + c.toNat % 64)]

/-- The bytes of a text: the UTF-8 encoding of its characters. -/
def GoString.ofChars (s : List Char) : GoString := s.flatMap encodeRune

/-- The Go string of a text. -/
def GoString.ofString (s : String) : GoString := GoString.ofChars s.data

instance : Coe String GoString := ⟨GoString.ofString⟩

/-- The least second byte that may follow the first byte `b0` of a sequence. -/
def acceptLo (b0 : Byte) : Nat :=
  if b0.val = 224 then 160 else if b0.val = 240 then 144 else 128

/-- The greatest second byte that may follow the first byte `b0` of a sequence. -/
def acceptHi (b0 : Byte) : Nat :=
  if b0.val = 237 then 159 else if b0.val = 244 then 143 else 191

/-- A continuation byte, `0x80` to `0xBF`. -/
def isCont (b : Byte) : Bool := decide (128 ≤ b.val) && decide (b.val ≤ 191)

/-- Whether `b1` may follow the first byte `b0` of a sequence of several bytes. -/
def accepts (b0 b1 : Byte) : Bool := decide (acceptLo b0 ≤ b1.val) && decide (b1.val ≤ acceptHi b0)

/-- The rune of a sequence of two bytes whose first byte is `b0`, read from the bytes
after `b0`. -/
def decodeRune2 (b0 : Byte) : GoString → Option Char × GoString
  | b1 :: r1 =>
    if accepts b0 b1 then (some (Char.ofNat (b0.val % 32 * 64 + b1.val % 64)), r1)
    else (none, b1 :: r1)
  | rest => (none, rest)

/-- The rune of a sequence of three bytes whose first byte is `b0`. -/
def decodeRune3 (b0 : Byte) : GoString → Option Char × GoString
  | b1 :: b2 :: r2 =>
    if accepts b0 b1 && isCont b2 then
      (some (Char.ofNat (b0.val % 16 * 4096 + b1.val % 64 * 64 + b2.val % 64)), r2)
    else (none, b1 :: b2 :: r2)
  | rest => (none, rest)

/-- The rune of a sequence of four bytes whose first byte is `b0`. -/
def decodeRune4 (b0 : Byte) : GoString → Option Char × GoString
  | b1 :: b2 :: b3 :: r3 =>
    if accepts b0 b1 && isCont b2 && isCont b3 then
      (some (Char.ofNat
        (b0.val % 8 * 262144 + b1.val % 64 * 4096 + b2.val % 64 * 64 + b3.val % 64)), r3)
    else (none, b1 :: b2 :: b3 :: r3)
  | rest => (none, rest)

/-- The first rune of a non-empty Go string and the bytes after it, as `utf8.DecodeRune`
finds them: `some c` for the character of a well-formed sequence of one to four bytes,
`none` (Go's `RuneError` of width 1) for a byte that starts no well-formed sequence,
which alone is used up. The first byte gives the length of the sequence: `0x00-0x7F`
one byte, `0xC2-0xDF` two, `0xE0-0xEF` three, `0xF0-0xF4` four; any other first byte
is invalid. -/
def decodeRune : GoString → Option (Option Char × GoString)
  | [] => none
  | b0 :: rest =>
    if b0.val < 128 then some (some (Char.ofNat b0.val), rest)
    else if b0.val < 194 ∨ 244 < b0.val then some (none, rest)
    else if b0.val < 224 then some (decodeRune2 b0 rest)
    else if b0.val < 240 then some (decodeRune3 b0 rest)
    else some (decodeRune4 b0 rest)

/-- The runes of a Go string, read in at most `fuel` steps. -/
def runesFuel : Nat → GoString → List (Option Char)
  | 0, _ => []
  | fuel + 1, p =>
    match decodeRune p with
    | none => []
    | some (r, rest) => r :: runesFuel fuel rest

/-- The runes of a Go string, as a `for range` loop over it yields them; every step uses
up a byte, so the length is fuel enough. -/
def runes (p : GoString) : List (Option Char) := runesFuel p.length p

/-- The character that stands for a rune: U+FFFD for an invalid byte. -/
def runeChar (r : Option Char) : Char := r.getD (Char.ofNat 65533)

/-- Whether a Go string is valid UTF-8. -/
def GoString.valid (p : GoString) : Bool := (runes p).all Option.isSome

/-- The text that a Go string is read as: every invalid byte replaced by U+FFFD. -/
def GoString.toChars (p : GoString) : List Char := (runes p).map runeChar

/-- The Go string with every invalid byte replaced by the encoding of U+FFFD. -/
def GoString.coerced (p : GoString) : GoString := GoString.ofChars p.toChars

/-- Modelled from the spec: the text of one rune of a Go string inside a JSON string, as
the runtime's standard encoder writes it (§4.2, §6): a byte that is not part of a valid
UTF-8 sequence is written as the escape of U+FFFD (a backslash, `u` and the digits
`fffd`), a character as `escapeChar` writes it. -/
def escapeRune (r : Option Char) : List Char :=
  match r with
  | none => ['\\', 'u', 'f', 'f', 'f', 'd']
  | some c => escapeChar c

/-- The body of the JSON string of a list of runes. -/
def escapeRunes : List (Option Char) → List Char
  | [] => []
  | r :: rs => escapeRune r ++ escapeRunes rs

/-- The JSON string literal of a Go string, quotes included. -/
def quoteGo (p : GoString) : List Char :=
  '"' :: (escapeRunes (runes p) ++ ['"'])

/-- The decimal digits of a natural number, most significant first; `fuel` bounds
the number of digits. -/
def natDigits : Nat → Nat → List Char
  | 0, _ => []
  | fuel + 1, n =>
    if n < 10 then [Char.ofNat (48 + n)]
    else natDigits fuel (n / 10) ++ [Char.ofNat (48 + n % 10)]

/-- The decimal text of a natural number. -/
def natText (n : Nat) : List Char := natDigits (n + 1) n

/-- A decimal number `(-1)^neg * mant * 10^exp`, as a JSON number text denotes it. The
canonical form has no trailing zero in `mant`, and `exp = 0` when `mant = 0`. -/
structure Decimal where
  neg : Bool
  mant : Nat
  exp : Int
  deriving DecidableEq, Repr

/-- Modelled from the spec: the number text of a decimal number under the runtime's
standard encoder (§4.2 "identical float→text rule", §6): plain decimal notation
when `1e-6 ≤ |x| < 1e21` or `x = 0`, otherwise scientific notation with one digit
before the point and an exponent of at least two digits, a leading zero dropped
from a negative two-digit exponent. -/
def formatDecimal (x : Decimal) : List Char :=
  let sign : List Char := if x.neg then ['-'] else []
  if x.mant = 0 then sign ++ ['0']
  else
    let ds := natText x.mant
    let n : Int := ds.length
    let point : Int := n + x.exp
    if point - 1 < -6 ∨ 21 ≤ point - 1 then
      let e := point - 1
      let frac := if ds.length > 1 then '.' :: ds.drop 1 else []
      let es := natText e.natAbs
      let etext :=
        if e < 0 then '-' :: es
        else '+' :: (if es.length < 2 then '0' :: es else es)
      sign ++ ds.take 1 ++ frac ++ ('e' :: etext)
    else if point ≤ 0 then
      sign ++ ['0', '.'] ++ List.replicate (-point).toNat '0' ++ ds
    else if n ≤ point then
      sign ++ ds ++ List.replicate (point - n).toNat '0'
    else
      sign ++ ds.take point.toNat ++ ('.' :: ds.drop point.toNat)

/-- The magnitude of a `float64` as a multiple of `2^-1074`, the least positive
`float64`: the fraction itself for a subnormal number (exponent field 0), and
`(2^52 + fraction) * 2^(exponent field - 1)` otherwise. -/
def Float64.scaled (x : Float64) : Nat :=
  if x.bits.val < 4503599627370496 then x.bits.val
  else (4503599627370496 + x.bits.val % 4503599627370496)
    * 2 ^ (x.bits.val / 4503599627370496 - 1)

/-- Halves `q` until it is below `2^53`, counting the halvings from `sh`. -/
def halve : Nat → Nat → Nat → Nat × Nat
  | 0, q, sh => (sh, q)
  | fuel + 1, q, sh =>
    if q < 9007199254740992 then (sh, q) else halve fuel (q / 2) (sh + 1)

/-- The bits of the `float64` nearest to the positive ratio `a / b`, ties going to the
even fraction. With `s` the ratio in units of `2^-1074`, rounded down, `sh` the
halvings that bring `s` below `2^53` and `q` what is left of it, the `float64` just
below or at the ratio has the bits `sh * 2^52 + q`, and the ratio is compared with the
middle between that number and the next one. -/
def roundBits (a b : Nat) : Nat :=
  let s := a * 2 ^ 1074 / b
  let sh := (halve 2046 s 0).1
  let q := (halve 2046 s 0).2
  let k := sh * 4503599627370496 + q
  let lhs := a * 2 ^ 1075
  let rhs := b * 2 ^ sh * (2 * q + 1)
  if lhs < rhs then k else if rhs < lhs then k + 1 else k + k % 2

/-- The bits of the `float64` nearest to `a / b`, or `none` when the ratio is beyond the
range: when it rounds to `2^1024` or above. -/
def roundRatio (a b : Nat) : Option (Fin 9218868437227405312) :=
  if 2 ^ 2098 ≤ a * 2 ^ 1074 / b then none
  else if h : roundBits a b < 9218868437227405312 then some ⟨roundBits a b, h⟩
  else none

/-- The numerator of the decimal number as a ratio of natural numbers. -/
def Decimal.num (d : Decimal) : Nat :=
  if 0 ≤ d.exp then d.mant * 10 ^ d.exp.toNat else d.mant

/-- The denominator of the decimal number as a ratio of natural numbers. -/
def Decimal.den (d : Decimal) : Nat :=
  if 0 ≤ d.exp then 1 else 10 ^ (-d.exp).toNat

/-- Modelled from the spec: the `float64` that a decimal number denotes, as the runtime's
standard decoder reads it (§4.2 `Decode`, §6; `strconv.ParseFloat`): the nearest
`float64`, ties to even, a number too small becoming zero with its sign, and `none`
for a number beyond the range. -/
def Decimal.toFloat64 (d : Decimal) : Option Float64 :=
  if d.mant = 0 then some ⟨d.neg, 0⟩
  else
    match roundRatio d.num d.den with
    | none => none
    | some k => some ⟨d.neg, k⟩

/-- A coefficient without its trailing zeros, the exponent raised accordingly. -/
def stripZeros : Nat → Nat → Int → Nat × Int
  | 0, m, e => (m, e)
  | fuel + 1, m, e => if m % 10 = 0 then stripZeros fuel (m / 10) (e + 1) else (m, e)

/-- The canonical form of a decimal number. -/
def Decimal.canon (d : Decimal) : Decimal :=
  if d.mant = 0 then ⟨d.neg, 0, 0⟩
  else ⟨d.neg, (stripZeros d.mant d.mant d.exp).1, (stripZeros d.mant d.mant d.exp).2⟩

/-- The number of decimal digits of a natural number. -/
def decLen : Nat → Nat → Nat
  | 0, _ => 0
  | fuel + 1, n => if n = 0 then 0 else decLen fuel (n / 10) + 1

/-- The exact decimal value of a `float64`: `scaled * 2^-1074 = scaled * 5^1074 * 10^-1074`. -/
def Float64.exact (x : Float64) : Decimal := ⟨x.neg, x.scaled * 5 ^ 1074, -1074⟩

/-- Whether the decimal number reads as the `float64`. -/
def roundsTo (x : Float64) (d : Decimal) : Bool := decide (d.toFloat64 = some x)

/-- The search of `shortest`, where `D * 10^-1074` is the exact value of `x`: with `p`
digits of `D` still to drop, the candidates are `D` cut after its leading digits and
that number plus one unit of its last digit. If both read as `x` the nearer one is
taken (the even one in a tie), if one does that one, otherwise a digit more is kept;
with no digit left to drop the exact value is taken. -/
def shortestFrom (x : Float64) (D : Nat) : Nat → Decimal
  | 0 => (⟨x.neg, D, -1074⟩ : Decimal).canon
  | p + 1 =>
    let lo : Decimal := (⟨x.neg, D / 10 ^ p, (p : Int) - 1074⟩ : Decimal).canon
    let hi : Decimal := (⟨x.neg, D / 10 ^ p + 1, (p : Int) - 1074⟩ : Decimal).canon
    if roundsTo x lo && roundsTo x hi then
      (if 2 * (D % 10 ^ p) < 10 ^ p then lo
       else if 10 ^ p < 2 * (D % 10 ^ p) then hi
       else if (D / 10 ^ p) % 2 = 0 then lo else hi)
    else if roundsTo x lo then lo
    else if roundsTo x hi then hi
    else shortestFrom x D p

/-- Modelled from the spec: the decimal number that the runtime's standard encoder
writes for a `float64` (§4.2 "identical float→text rule", §6; `strconv` with
precision -1): the one with the fewest digits that reads as the same `float64`, and
among those the nearest to it. Zero keeps its sign. -/
def shortest (x : Float64) : Decimal :=
  if x.bits.val = 0 then ⟨x.neg, 0, 0⟩
  else shortestFrom x x.exact.mant (decLen (x.exact.mant + 1) x.exact.mant)

/-- Modelled from the spec: the number text of a `float64` under the runtime's standard
encoder (§4.2, §6): the text of its shortest decimal number. -/
def formatFloat (x : Float64) : List Char := formatDecimal (shortest x)

/-- The characters of `Encode`: the object with the members `ID`, `Name`,
`Temperature`, `Timestamp` in declared order and no white space. -/
def encodeChars (a : Asset) : List Char :=
  ['\x7b', '"', 'I', 'D', '"', ':'] ++ quote a.ID
    ++ [',', '"', 'N', 'a', 'm', 'e', '"', ':'] ++ quoteGo a.Name
    ++ [',', '"', 'T', 'e', 'm', 'p', 'e', 'r', 'a', 't', 'u', 'r', 'e', '"', ':']
    ++ formatFloat a.Temperature
    ++ [',', '"', 'T', 'i', 'm', 'e', 's', 't', 'a', 'm', 'p', '"', ':'] ++ quote a.Timestamp
    ++ ['\x7d']

/-- Modelled from the spec: `Encode(Asset) → bytes` of §4.2, the `json.Marshal` of the
source (Go's `encoding/json` is not part of the repository). -/
def Encode (a : Asset) : String := String.mk (encodeChars a)

/-- The value of a hexadecimal digit, in either case. -/
def hexVal (c : Char) : Option Nat :=
  if 48 ≤ c.toNat ∧ c.toNat ≤ 57 then some (c.toNat - 48)
  else if 97 ≤ c.toNat ∧ c.toNat ≤ 102 then some (c.toNat - 87)
  else if 65 ≤ c.toNat ∧ c.toNat ≤ 70 then some (c.toNat - 55)
  else none

/-- The code unit written by four hexadecimal digits. -/
def hex4 (a b c d : Char) : Option Nat :=
  match hexVal a, hexVal b, hexVal c, hexVal d with
  | some x, some y, some z, some w => some (((x * 16 + y) * 16 + z) * 16 + w)
  | _, _, _, _ => none

/-- The character a one-letter escape stands for. -/
def shortEscape (e : Char) : Option Char :=
  if e = '"' then some '"'
  else if e = '\\' then some '\\'
  else if e = '/' then some '/'
  else if e = 'b' then some (Char.ofNat 8)
  else if e = 'f' then some (Char.ofNat 12)
  else if e = 'n' then some '\n'
  else if e = 'r' then some '\r'
  else if e = 't' then some '\t'
  else none

/-- Puts a decoded character in front of the rest of a decoded string. -/
def consChar (c : Char) (r : Option (List Char × List Char)) : Option (List Char × List Char) :=
  match r with
  | some (s, rest) => some (c :: s, rest)
  | none => none

/-- The character of a `\u` escape whose code unit is `n`, where `low` is the code
unit of a `\u` escape that follows directly, if any; the flag tells whether that
second escape is used up (a surrogate pair). A surrogate without its partner
reads as U+FFFD. -/
def escapedChar (n : Nat) (low : Option Nat) : Char × Bool :=
  if 55296 ≤ n ∧ n < 56320 then
    match low with
    | some m =>
      if 56320 ≤ m ∧ m < 57344 then
        (Char.ofNat (65536 + (n - 55296) * 1024 + (m - 56320)), true)
      else (Char.ofNat 65533, false)
    | none => (Char.ofNat 65533, false)
  else if 56320 ≤ n ∧ n < 57344 then (Char.ofNat 65533, false)
  else (Char.ofNat n, false)

/-- The code unit of a `\u` escape at the head of the input, if one stands there. -/
def peekEscape : List Char → Option Nat
  | e :: u :: a :: b :: c :: d :: _ =>
    if e = '\\' ∧ u = 'u' then hex4 a b c d else none
  | _ => none

/-- The character of a `\u` escape, read after the `\u`: four hexadecimal digits, and
the `\u` escape of a low surrogate after them when they name a high one. -/
def readUnicode : List Char → Option (Char × List Char)
  | a :: b :: c :: d :: rest =>
    match hex4 a b c d with
    | none => none
    | some n =>
      if (escapedChar n (peekEscape rest)).2 then
        some ((escapedChar n (peekEscape rest)).1, rest.drop 6)
      else some ((escapedChar n (peekEscape rest)).1, rest)
  | _ => none

/-- The character of an escape, read after the backslash. -/
def readEscape : List Char → Option (Char × List Char)
  | [] => none
  | e :: rest =>
    if e = 'u' then readUnicode rest
    else
      match shortEscape e with
      | some ch => some (ch, rest)
      | none => none

/-- One step of reading the body of a JSON string: `some (none, rest)` at the closing
quote, `some (some c, rest)` for a character `c` of the text, `none` for an
unescaped control character, an unknown escape or the end of the input. -/
def readItem : List Char → Option (Option Char × List Char)
  | [] => none
  | c :: rest =>
    if c = '"' then some (none, rest)
    else if c = '\\' then
      match readEscape rest with
      | some (ch, rest1) => some (some ch, rest1)
      | none => none
    else if c.toNat < 32 then none
    else some (some c, rest)

/-- Reading the body of a JSON string in at most `fuel` steps. -/
def unquoteFuel : Nat → List Char → Option (List Char × List Char)
  | 0, _ => none
  | fuel + 1, cs =>
    match readItem cs with
    | none => none
    | some (none, rest) => some ([], rest)
    | some (some c, rest) => consChar c (unquoteFuel fuel rest)

/-- Modelled from the spec: reading a JSON string (§4.2 `Decode`, §6). The input
starts right after the opening quote; the result is the decoded text and the
input left after the closing quote. An unescaped control character, an unknown
escape or a missing closing quote is rejected. Every step uses up a character, so
the length of the input is fuel enough. -/
def unquote (cs : List Char) : Option (List Char × List Char) :=
  unquoteFuel cs.length cs

/-- JSON white space. -/
def isWS (c : Char) : Bool :=
  c = ' ' || c = '\t' || c = '\n' || c = '\r'

/-- The input without its leading white space. -/
def skipWS : List Char → List Char
  | [] => []
  | c :: cs => if isWS c then skipWS cs else c :: cs

/-- A decimal digit. -/
def isDigit (c : Char) : Bool :=
  decide (48 ≤ c.toNat) && decide (c.toNat ≤ 57)

/-- The longest prefix of digits, and the input after it. -/
def digitsPrefix : List Char → List Char × List Char
  | [] => ([], [])
  | c :: cs =>
    if isDigit c then ((c :: (digitsPrefix cs).1), (digitsPrefix cs).2)
    else ([], c :: cs)

/-- The number written by a list of decimal digits. -/
def digitsToNat (ds : List Char) : Nat :=
  ds.foldl (fun n c => 10 * n + (c.toNat - 48)) 0

/-- A list of digits without its trailing zeros. -/
def stripTrailingZeros (ds : List Char) : List Char :=
  (ds.reverse.dropWhile (fun c => c = '0')).reverse

/-- The canonical form of the decimal number `± ds * 10^e`. -/
def Decimal.ofDigits (sign : Bool) (ds : List Char) (e : Int) : Decimal :=
  if digitsToNat (stripTrailingZeros ds) = 0 then ⟨sign, 0, 0⟩
  else ⟨sign, digitsToNat (stripTrailingZeros ds),
    e + ((ds.length : Int) - ((stripTrailingZeros ds).length : Int))⟩

/-- The fraction part of a number: a point followed by at least one digit, or
nothing. -/
def parseFraction (cs : List Char) : Option (List Char × List Char) :=
  match cs with
  | [] => some ([], [])
  | c :: r =>
    if c = '.' then
      (if (digitsPrefix r).1 = [] then none else some (digitsPrefix r))
    else some ([], c :: r)

/-- The digits of an exponent, read as a number with the given sign. -/
def exponentDigits (minus : Bool) (cs : List Char) : Option (Int × List Char) :=
  if (digitsPrefix cs).1 = [] then none
  else if minus then some (-(digitsToNat (digitsPrefix cs).1 : Int), (digitsPrefix cs).2)
  else some ((digitsToNat (digitsPrefix cs).1 : Int), (digitsPrefix cs).2)

/-- The exponent part of a number: `e` or `E`, an optional sign and at least one
digit, or nothing. -/
def parseExponent (cs : List Char) : Option (Int × List Char) :=
  match cs with
  | [] => some (0, [])
  | c :: r =>
    if c = 'e' ∨ c = 'E' then
      match r with
      | [] => none
      | s :: r1 =>
        if s = '-' then exponentDigits true r1
        else if s = '+' then exponentDigits false r1
        else exponentDigits false (s :: r1)
    else some (0, c :: r)

/-- The digits, fraction and exponent of a number whose sign has been read. -/
def parseUnsigned (sign : Bool) (cs : List Char) : Option (Decimal × List Char) :=
  if (digitsPrefix cs).1 = [] ∨
      (1 < (digitsPrefix cs).1.length ∧ (digitsPrefix cs).1.head? = some '0') then none
  else
    match parseFraction (digitsPrefix cs).2 with
    | none => none
    | some (fp, cs2) =>
      match parseExponent cs2 with
      | none => none
      | some (e, cs3) =>
        some (Decimal.ofDigits sign ((digitsPrefix cs).1 ++ fp) (e - (fp.length : Int)), cs3)

/-- Modelled from the spec: reading a JSON number (§4.2 `Decode`, §6): an optional
minus sign, an integer part without a leading zero, an optional fraction and an
optional exponent. The result is the canonical decimal number and the input left. -/
def parseNumber (cs : List Char) : Option (Decimal × List Char) :=
  match cs with
  | [] => none
  | c :: r => if c = '-' then parseUnsigned true r else parseUnsigned false (c :: r)

/-- The kind of a JSON value, with the content of a string or a number; the members
of a nested array or object are checked and dropped. -/
inductive JVal where
  | null
  | bool (b : Bool)
  | num (x : Decimal)
  | str (s : List Char)
  | arr
  | obj
  deriving DecidableEq, Repr

/-- What the reader of JSON values expects next: one value, the elements of an array
after its opening bracket, or the members of an object after its opening brace. -/
inductive Expect where
  | value
  | elems
  | members
  deriving DecidableEq, Repr

/-- The input after the given word, if the input starts with it. -/
def dropWord : List Char → List Char → Option (List Char)
  | [], cs => some cs
  | _ :: _, [] => none
  | w :: ws, c :: cs => if w = c then dropWord ws cs else none

/-- Modelled from the spec: reading one JSON value (§4.2 `Decode` "valid object"): a
string, a number, `true`, `false`, `null`, an array or an object, white space
allowed between the tokens. `fuel` bounds the number of values, elements and
members read; the length of the input is enough. -/
def parseJSON : Nat → Expect → List Char → Option (JVal × List Char)
  | 0, _, _ => none
  | fuel + 1, Expect.value, cs =>
    match skipWS cs with
    | [] => none
    | c :: r =>
      if c = '"' then
        match unquote r with
        | some (s, r1) => some (JVal.str s, r1)
        | none => none
      else if c = '\x7b' then
        match skipWS r with
        | [] => none
        | c1 :: r1 =>
          if c1 = '\x7d' then some (JVal.obj, r1) else parseJSON fuel Expect.members (c1 :: r1)
      else if c = '[' then
        match skipWS r with
        | [] => none
        | c1 :: r1 =>
          if c1 = ']' then some (JVal.arr, r1) else parseJSON fuel Expect.elems (c1 :: r1)
      else if c = 't' then (dropWord ['r', 'u', 'e'] r).map (fun r1 => (JVal.bool true, r1))
      else if c = 'f' then
        (dropWord ['a', 'l', 's', 'e'] r).map (fun r1 => (JVal.bool false, r1))
      else if c = 'n' then (dropWord ['u', 'l', 'l'] r).map (fun r1 => (JVal.null, r1))
      else
        match parseNumber (c :: r) with
        | some (x, r1) => some (JVal.num x, r1)
        | none => none
  | fuel + 1, Expect.elems, cs =>
    match parseJSON fuel Expect.value cs with
    | none => none
    | some (_, r) =>
      match skipWS r with
      | [] => none
      | c :: r1 =>
        if c = ',' then parseJSON fuel Expect.elems r1
        else if c = ']' then some (JVal.arr, r1)
        else none
  | fuel + 1, Expect.members, cs =>
    match skipWS cs with
    | [] => none
    | c :: r =>
      if c = '"' then
        match unquote r with
        | none => none
        | some (_, r1) =>
          match skipWS r1 with
          | [] => none
          | c1 :: r2 =>
            if c1 = ':' then
              match parseJSON fuel Expect.value r2 with
              | none => none
              | some (_, r3) =>
                match skipWS r3 with
                | [] => none
                | c3 :: r4 =>
                  if c3 = ',' then parseJSON fuel Expect.members r4
                  else if c3 = '\x7d' then some (JVal.obj, r4)
                  else none
            else none
      else none

/-- Modelled from the spec: storing one decoded member into the record (§4.2
`Decode`): a member named `ID`, `Name` or `Timestamp` must be a string and
`Temperature` a number within the range of a `float64`, "fields [of] mismatched
kinds" being rejected; a member of any other name is ignored. The text of `Name` is
stored as its UTF-8 bytes. -/
def setField (a : Asset) (key : List Char) (v : JVal) : Except String Asset :=
  if key = ['I', 'D'] then
    match v with
    | JVal.str s => Except.ok { a with ID := String.mk s }
    | _ => Except.error "json: cannot unmarshal into Go struct field Asset.ID of type string"
  else if key = ['N', 'a', 'm', 'e'] then
    match v with
    | JVal.str s => Except.ok { a with Name := GoString.ofChars s }
    | _ => Except.error "json: cannot unmarshal into Go struct field Asset.Name of type string"
  else if key = ['T', 'e', 'm', 'p', 'e', 'r', 'a', 't', 'u', 'r', 'e'] then
    match v with
    | JVal.num d =>
      match d.toFloat64 with
      | none =>
        Except.error "json: cannot unmarshal number into Go struct field Asset.Temperature of type float64"
      | some x => Except.ok { a with Temperature := x }
    | _ =>
      Except.error "json: cannot unmarshal into Go struct field Asset.Temperature of type float64"
  else if key = ['T', 'i', 'm', 'e', 's', 't', 'a', 'm', 'p'] then
    match v with
    | JVal.str s => Except.ok { a with Timestamp := String.mk s }
    | _ =>
      Except.error "json: cannot unmarshal into Go struct field Asset.Timestamp of type string"
  else Except.ok a

/-- The message of a decode failure caused by text that is not valid JSON. -/
def syntaxError : String := "invalid character looking for beginning of value"

/-- Modelled from the spec: the members of the top-level object, read one by one into
the record (§4.2 `Decode`), up to the closing brace, after which only white space
may follow. `fuel` bounds the number of members, `vfuel` is the fuel of each
member's value. -/
def decodeMembers (vfuel : Nat) : Nat → Asset → List Char → Except String Asset
  | 0, _, _ => Except.error syntaxError
  | fuel + 1, a, cs =>
    match skipWS cs with
    | [] => Except.error syntaxError
    | c :: r =>
      if c = '"' then
        match unquote r with
        | none => Except.error syntaxError
        | some (key, r1) =>
          match skipWS r1 with
          | [] => Except.error syntaxError
          | c1 :: r2 =>
            if c1 = ':' then
              match parseJSON vfuel Expect.value r2 with
              | none => Except.error syntaxError
              | some (v, r3) =>
                match setField a key v with
                | Except.error e => Except.error e
                | Except.ok a1 =>
                  match skipWS r3 with
                  | [] => Except.error syntaxError
                  | c3 :: r4 =>
                    if c3 = ',' then decodeMembers vfuel fuel a1 r4
                    else if c3 = '\x7d' then
                      (if skipWS r4 = [] then Except.ok a1 else Except.error syntaxError)
                    else Except.error syntaxError
            else Except.error syntaxError
      else Except.error syntaxError

/-- The decoder on a list of characters: the input must be one JSON object. -/
def decodeChars (cs : List Char) : Except String Asset :=
  match skipWS cs with
  | [] => Except.error "unexpected end of JSON input"
  | c :: r =>
    if c = '\x7b' then
      match skipWS r with
      | [] => Except.error "unexpected end of JSON input"
      | c1 :: r1 =>
        if c1 = '\x7d' then
          (if skipWS r1 = [] then Except.ok Asset.zeroValue else Except.error syntaxError)
        else decodeMembers cs.length cs.length Asset.zeroValue (c1 :: r1)
    else Except.error "json: cannot unmarshal into Go value of type chaincode.Asset"

/-- Modelled from the spec: `Decode(bytes) → Asset | DecodeError` of §4.2, the
`json.Unmarshal` of the source into a fresh `Asset` (Go's `encoding/json` is not
part of the repository): "rejects input that is not a valid object or whose fields
have mismatched kinds; missing fields default to zero/empty". -/
def Decode (bytes : String) : Except String Asset := decodeChars bytes.data

/-- The character of a decimal digit. -/
def digitChar (d : Nat) : Char := Char.ofNat (48 + d)

/-- The canonical form of a decimal number: zero has exponent zero, and the coefficient
of another number has no trailing zero. -/
def Decimal.Canonical (x : Decimal) : Prop :=
  (x.mant = 0 → x.exp = 0) ∧ (x.mant ≠ 0 → x.mant % 10 ≠ 0)

instance (x : Decimal) : Decidable x.Canonical :=
  inferInstanceAs (Decidable ((x.mant = 0 → x.exp = 0) ∧ (x.mant ≠ 0 → x.mant % 10 ≠ 0)))

/-- The number text of a decimal number without its sign. -/
def magnitudeText (mant : Nat) (exp : Int) : List Char := formatDecimal ⟨false, mant, exp⟩

/-- The number text of `x` reads back as `x` when a comma follows it: the reader of JSON
values finds the shortest decimal number of `x`, and that number denotes `x`. -/
def Float64.ReadsBack (x : Float64) : Prop :=
  (shortest x).toFloat64 = some x ∧
    ∀ (fuel : Nat) (rest : List Char),
      parseJSON (fuel + 1) Expect.value (formatFloat x ++ ',' :: rest)
        = some (JVal.num (shortest x), ',' :: rest)

/-- What `decodeMembers` does once a member is stored, at the character `c` that
follows the member's value. -/
def afterMember (vfuel fuel : Nat) (a : Asset) (c : Char) (rest : List Char) :
    Except String Asset :=
  if c = ',' then decodeMembers vfuel fuel a rest
  else if c = '\x7d' then (if skipWS rest = [] then Except.ok a else Except.error syntaxError)
  else Except.error syntaxError

/-- The messages of the decoder's errors. -/
def decodeErrors : List String :=
  [ syntaxError,
    "unexpected end of JSON input",
    "json: cannot unmarshal into Go value of type chaincode.Asset",
    "json: cannot unmarshal into Go struct field Asset.ID of type string",
    "json: cannot unmarshal into Go struct field Asset.Name of type string",
    "json: cannot unmarshal number into Go struct field Asset.Temperature of type float64",
    "json: cannot unmarshal into Go struct field Asset.Temperature of type float64",
    "json: cannot unmarshal into Go struct field Asset.Timestamp of type string" ]

/-! ## StateStore: the world state and the stub of a transaction -/

/-- A key with the bytes stored under it. -/
abbrev KV := String × String

/-- Whether the first list of characters comes strictly before the second in
lexicographic order. -/
def ltChars : List Char → List Char → Bool
  | _, [] => false
  | [], _ :: _ => true
  | a :: as, b :: bs =>
    if a < b then true else if a = b then ltChars as bs else false

/-- Whether key `a` comes strictly before key `b` in lexicographic order (the order
`a < b` of strings, in a form that evaluates). -/
def keyLt (a b : String) : Bool := ltChars a.data b.data

/-- The keys of a list of entries ascend strictly in lexicographic order. -/
def KeysAscending (l : List KV) : Prop := l.Pairwise (fun a b => keyLt a.1 b.1 = true)

/-- Writes `value` under `key` in an ascending list of entries, replacing what the key
held. -/
def insertKV (key value : String) : List KV → List KV
  | [] => [(key, value)]
  | e :: rest =>
    if keyLt key e.1 then (key, value) :: e :: rest
    else if key = e.1 then (key, value) :: rest
    else e :: insertKV key value rest

/-- The bytes under `key`, or `none` when the key is absent. -/
def lookupKV (key : String) : List KV → Option String
  | [] => none
  | e :: rest => if key = e.1 then some e.2 else lookupKV key rest

/-- The entries without those of `key`. -/
def eraseKV (key : String) (l : List KV) : List KV :=
  l.filter (fun e => decide (e.1 ≠ key))

/-- The entries whose key lies in the half-open range from `startKey` to `endKey`, an
empty bound being no bound. -/
def rangeKV (startKey endKey : String) (l : List KV) : List KV :=
  l.filter (fun e =>
    (decide (startKey = "") || !keyLt e.1 startKey) &&
      (decide (endKey = "") || keyLt e.1 endKey))

theorem ltChars_iff (l₁ l₂ : List Char) : ltChars l₁ l₂ = true ↔ l₁ < l₂ := by
  induction l₁ generalizing l₂ with
  | nil =>
    cases l₂ with
    | nil => simp [ltChars]
    | cons b bs => simpa [ltChars] using List.Lex.nil
  | cons a as ih =>
    cases l₂ with
    | nil => simp [ltChars]
    | cons b bs =>
      simp only [ltChars]
      rcases lt_trichotomy a b with h | h | h
      · simpa [h] using (List.Lex.rel h : List.Lex (· < ·) (a :: as) (b :: bs))
      · subst h
        simp only [lt_self_iff_false, if_false, if_true, ih]
        exact (List.Lex.cons_iff (r := (· < ·))).symm
      · have h1 : ¬ a < b := not_lt_of_gt h
        have h2 : a ≠ b := ne_of_gt h
        simp only [h1, h2, if_false]
        constructor
        · intro hf; cases hf
        · intro hl
          exact absurd (List.head_le_of_lt hl) (not_le_of_gt h)

theorem keyLt_iff (a b : String) : keyLt a b = true ↔ a < b := by
  rw [String.lt_iff_toList_lt]
  exact ltChars_iff _ _

theorem mem_insertKV {key value : String} {l : List KV} {x : KV}
    (h : x ∈ insertKV key value l) : x = (key, value) ∨ x ∈ l := by
  induction l with
  | nil => simpa [insertKV] using h
  | cons e rest ih =>
    unfold insertKV at h
    split_ifs at h with h1 h2
    · rcases List.mem_cons.mp h with h | h
      · exact Or.inl h
      · exact Or.inr h
    · rcases List.mem_cons.mp h with h | h
      · exact Or.inl h
      · exact Or.inr (List.mem_cons_of_mem _ h)
    · rcases List.mem_cons.mp h with h | h
      · exact Or.inr (h ▸ List.mem_cons_self _ _)
      · rcases ih h with h | h
        · exact Or.inl h
        · exact Or.inr (List.mem_cons_of_mem _ h)

theorem keysAscending_insertKV (key value : String) {l : List KV}
    (hl : KeysAscending l) : KeysAscending (insertKV key value l) := by
  unfold KeysAscending at *
  induction l with
  | nil => simp [insertKV]
  | cons e rest ih =>
    have hrest := (List.pairwise_cons.mp hl).2
    have he := (List.pairwise_cons.mp hl).1
    unfold insertKV
    split_ifs with h1 h2
    · refine List.pairwise_cons.mpr ⟨?_, hl⟩
      intro x hx
      rcases List.mem_cons.mp hx with hx | hx
      · simpa [hx] using h1
      · exact (keyLt_iff _ _).mpr
          (lt_trans ((keyLt_iff _ _).mp h1) ((keyLt_iff _ _).mp (he x hx)))
    · refine List.pairwise_cons.mpr ⟨?_, hrest⟩
      intro x hx
      simpa [h2] using he x hx
    · refine List.pairwise_cons.mpr ⟨?_, ih hrest⟩
      intro x hx
      rcases mem_insertKV hx with hx | hx
      · have hlt : e.1 < key :=
          lt_of_le_of_ne (not_lt.mp (fun h => h1 ((keyLt_iff _ _).mpr h))) (fun h => h2 h.symm)
        simpa [hx] using (keyLt_iff _ _).mpr hlt
      · exact he x hx

theorem keysAscending_eraseKV (key : String) {l : List KV}
    (hl : KeysAscending l) : KeysAscending (eraseKV key l) :=
  List.Pairwise.filter _ hl

theorem keysAscending_rangeKV (startKey endKey : String) {l : List KV}
    (hl : KeysAscending l) : KeysAscending (rangeKV startKey endKey l) :=
  List.Pairwise.filter _ hl

/-- Modelled from the spec: the world state of §4.1, a finite map from keys to bytes
(the ledger is the host's, not part of the repository). It is kept as the list of
its entries in ascending key order, so that two stores with the same content are
equal and a range scan reads the list off. -/
structure Store where
  entries : List KV
  ascending : KeysAscending entries

/-- The store without any key. -/
def Store.empty : Store := ⟨[], List.Pairwise.nil⟩

/-- Modelled from the spec: `Get(key)` of §4.1 on the world state: the bytes, or `none`
for an absent key ("absent is distinct from empty bytes"). -/
def Store.get (s : Store) (key : String) : Option String := lookupKV key s.entries

/-- Modelled from the spec: `Put(key, bytes)` of §4.1 on the world state, an
unconditional write. -/
def Store.put (s : Store) (key value : String) : Store :=
  ⟨insertKV key value s.entries, keysAscending_insertKV key value s.ascending⟩

/-- Modelled from the spec: `Delete(key)` of §4.1 on the world state, an unconditional
remove. -/
def Store.delete (s : Store) (key : String) : Store :=
  ⟨eraseKV key s.entries, keysAscending_eraseKV key s.ascending⟩

/-- Modelled from the spec: the entries that `RangeScan(startKey, endKey)` of §4.1
yields, "in ascending key order". -/
def Store.range (s : Store) (startKey endKey : String) : List KV :=
  rangeKV startKey endKey s.entries

/-- Whether a key is present. -/
def Store.present (s : Store) (key : String) : Bool := (s.get key).isSome

/-- The keys present, in ascending order. -/
def Store.keys (s : Store) : List String := s.entries.map Prod.fst

/-- A call of the core into the store. -/
inductive Call where
  | GetState (key : String)
  | PutState (key value : String)
  | DelState (key : String)
  | GetStateByRange (startKey endKey : String)
  | Next
  deriving DecidableEq, Repr

/-- Modelled from the spec: the transaction context's stub (§4.1, §5), the handle of
one transaction on the store (`ctx.GetStub()` of the source; the host runtime's
shim is not part of the repository). `state` is the world state. `faults` plans
the outcome of the store calls to come, one entry per call: `some e` makes the call
fail with error `e` and without effect, `none` lets it go through, and calls past
the end of the plan go through. `log` lists the calls made so far, oldest first. -/
structure Stub where
  state : Store
  faults : List (Option String)
  log : List Call

/-- No store call to come is planned to fail. -/
def Stub.NoFaults (ctx : Stub) : Prop := ∀ f ∈ ctx.faults, f = none

instance (ctx : Stub) : Decidable ctx.NoFaults :=
  inferInstanceAs (Decidable (∀ f ∈ ctx.faults, f = none))

/-- A fresh transaction on a store: no call made, none planned to fail. -/
def Stub.fresh (s : Store) : Stub := ⟨s, [], []⟩

/-- Entering a store call: the call is logged and the plan's next entry is used up;
the result is that entry, the error of a failing call. -/
def Stub.enter (ctx : Stub) (c : Call) : Option String × Stub :=
  match ctx.faults with
  | [] => (none, { ctx with log := ctx.log ++ [c] })
  | f :: fs => (f, { ctx with faults := fs, log := ctx.log ++ [c] })

/-- Modelled from the spec: `Get(key) → (bytes | absent, error)` of §4.1, the stub's
`GetState`. -/
def GetState (ctx : Stub) (key : String) : Except String (Option String) × Stub :=
  match ctx.enter (Call.GetState key) with
  | (some err, ctx1) => (Except.error err, ctx1)
  | (none, ctx1) => (Except.ok (ctx1.state.get key), ctx1)

/-- Modelled from the spec: `Put(key, bytes) → error` of §4.1, the stub's `PutState`. -/
def PutState (ctx : Stub) (key value : String) : Except String Unit × Stub :=
  match ctx.enter (Call.PutState key value) with
  | (some err, ctx1) => (Except.error err, ctx1)
  | (none, ctx1) => (Except.ok (), { ctx1 with state := ctx1.state.put key value })

/-- Modelled from the spec: `Delete(key) → error` of §4.1, the stub's `DelState`;
"deleting an absent key is not required to fail". -/
def DelState (ctx : Stub) (key : String) : Except String Unit × Stub :=
  match ctx.enter (Call.DelState key) with
  | (some err, ctx1) => (Except.error err, ctx1)
  | (none, ctx1) => (Except.ok (), { ctx1 with state := ctx1.state.delete key })

/-- Modelled from the spec: the iterator of a range scan (§4.1): the entries still to be
yielded. It holds the snapshot taken when the scan started, so writes and deletes
of the transaction "do not affect the visible key sequence" (§4.3). -/
structure Iterator where
  pending : List KV

/-- Modelled from the spec: the iterator's `HasNext` (§4.1). -/
def Iterator.HasNext (it : Iterator) : Bool := !it.pending.isEmpty

/-- Modelled from the spec: `RangeScan(startKey, endKey) → Iterator` of §4.1, the stub's
`GetStateByRange`. -/
def GetStateByRange (ctx : Stub) (startKey endKey : String) : Except String Iterator × Stub :=
  match ctx.enter (Call.GetStateByRange startKey endKey) with
  | (some err, ctx1) => (Except.error err, ctx1)
  | (none, ctx1) => (Except.ok ⟨ctx1.state.range startKey endKey⟩, ctx1)

/-- Modelled from the spec: the iterator's `Next` (§4.1) when `queryResponse` is the
entry at the head of the iterator: a store call that yields that entry. -/
def Next (ctx : Stub) (queryResponse : KV) : Except String KV × Stub :=
  match ctx.enter Call.Next with
  | (some err, ctx1) => (Except.error err, ctx1)
  | (none, ctx1) => (Except.ok queryResponse, ctx1)

/-! ## AssetRegistry: the operations of the contract -/

/-- The `json.Marshal(asset)` of the source. On an `Asset` it fails only for a
`Temperature` that is NaN or infinite, which a `Float64` of the model never is. -/
def jsonMarshal (asset : Asset) : Except String String := Except.ok (Encode asset)

/-- The `json.Unmarshal(bytes, &asset)` of the source into a fresh `Asset`. -/
def jsonUnmarshal (bytes : String) : Except String Asset := Decode bytes

/-- The `float64` of a Go constant: the one nearest to the decimal number
`mant * 10^exp`. -/
def Float64.ofConst (mant : Nat) (exp : Int) : Float64 :=
  match (⟨false, mant, exp⟩ : Decimal).toFloat64 with
  | some x => x
  | none => Float64.zero

/-- The three sample assets of `InitLedger` (source lines 25-29); the temperatures
are 25.5, 28.0 and 24.8. -/
def seedAssets : List Asset :=
  [ ⟨"Sensor1", GoString.ofString "Sensor 1", Float64.ofConst 255 (-1), "2024-04-26T10:00:00Z"⟩,
    ⟨"Sensor2", GoString.ofString "Sensor 2", Float64.ofConst 28 0, "2024-04-26T10:01:00Z"⟩,
    ⟨"Sensor3", GoString.ofString "Sensor 3", Float64.ofConst 248 (-1), "2024-04-26T10:02:00Z"⟩ ]

/-- The loop of `InitLedger` (source lines 31-40) over the assets still to be
written. -/
def InitLedger.loop : List Asset → Stub → Except String Unit × Stub
  | [], ctx => (Except.ok (), ctx)
  | asset :: rest, ctx =>
    match jsonMarshal asset with
    | Except.error err => (Except.error err, ctx)
    | Except.ok assetJSON =>
      match PutState ctx asset.ID assetJSON with
      | (Except.error err, ctx1) =>
        (Except.error ("failed to put to world state. " ++ err), ctx1)
      | (Except.ok _, ctx1) => InitLedger.loop rest ctx1

/-- `InitLedger` (source lines 23-42): stores the sample assets. -/
def InitLedger (ctx : Stub) : Except String Unit × Stub :=
  InitLedger.loop seedAssets ctx

/-- The loop of `GetAllAssets` (source lines 52-63) over the entries the iterator
still holds; `assets` are the records decoded so far. The empty list is the case
where `HasNext()` is false, and each round calls `Next()` for the entry at the
head. -/
def GetAllAssets.loop : List KV → Stub → List Asset → Except String (List Asset) × Stub
  | [], ctx, assets => (Except.ok assets, ctx)
  | kv :: rest, ctx, assets =>
    match Next ctx kv with
    | (Except.error err, ctx1) => (Except.error err, ctx1)
    | (Except.ok queryResponse, ctx1) =>
      match jsonUnmarshal queryResponse.2 with
      | Except.error err => (Except.error err, ctx1)
      | Except.ok asset => GetAllAssets.loop rest ctx1 (assets ++ [asset])

/-- `GetAllAssets` (source lines 45-65): every asset of the world state. The deferred
`Close` of the iterator has no effect on the model's state. -/
def GetAllAssets (ctx : Stub) : Except String (List Asset) × Stub :=
  match GetStateByRange ctx "" "" with
  | (Except.error err, ctx1) => (Except.error err, ctx1)
  | (Except.ok resultsIterator, ctx1) => GetAllAssets.loop resultsIterator.pending ctx1 []

/-- `AssetExists` (source lines 109-115): whether the key holds a value. -/
def AssetExists (ctx : Stub) (id : String) : Except String Bool × Stub :=
  match GetState ctx id with
  | (Except.error err, ctx1) =>
    (Except.error ("failed to read from world state: " ++ err), ctx1)
  | (Except.ok assetJSON, ctx1) => (Except.ok assetJSON.isSome, ctx1)

/-- `CreateAsset` (source lines 68-89): a new asset with the given id and name. -/
def CreateAsset (ctx : Stub) (id : String) (name : GoString) : Except String Unit × Stub :=
  match AssetExists ctx id with
  | (Except.error err, ctx1) => (Except.error err, ctx1)
  | (Except.ok exists_, ctx1) =>
    if exists_ then (Except.error ("the asset " ++ id ++ " already exists"), ctx1)
    else
      match jsonMarshal { ID := id, Name := name, Temperature := Float64.zero, Timestamp := "" } with
      | Except.error err => (Except.error err, ctx1)
      | Except.ok assetJSON => PutState ctx1 id assetJSON

/-- `ReadAsset` (source lines 92-106): the asset stored under an id. -/
def ReadAsset (ctx : Stub) (id : String) : Except String Asset × Stub :=
  match GetState ctx id with
  | (Except.error err, ctx1) =>
    (Except.error ("failed to read from world state: " ++ err), ctx1)
  | (Except.ok none, ctx1) => (Except.error ("the asset " ++ id ++ " does not exist"), ctx1)
  | (Except.ok (some assetJSON), ctx1) =>
    match jsonUnmarshal assetJSON with
    | Except.error err => (Except.error err, ctx1)
    | Except.ok asset => (Except.ok asset, ctx1)

/-- `DeleteAsset` (source lines 118-130): removes the asset stored under an id. -/
def DeleteAsset (ctx : Stub) (id : String) : Except String Unit × Stub :=
  match AssetExists ctx id with
  | (Except.error err, ctx1) => (Except.error err, ctx1)
  | (Except.ok exists_, ctx1) =>
    if !exists_ then (Except.error ("the asset " ++ id ++ " does not exist"), ctx1)
    else DelState ctx1 id

/-- The loop of `DeleteAllAssets` (source lines 139-148) over the entries the iterator
still holds. The empty list is the case where `HasNext()` is false, and each round
calls `Next()` for the entry at the head and deletes its key. -/
def DeleteAllAssets.loop : List KV → Stub → Except String Unit × Stub
  | [], ctx => (Except.ok (), ctx)
  | kv :: rest, ctx =>
    match Next ctx kv with
    | (Except.error err, ctx1) => (Except.error err, ctx1)
    | (Except.ok queryResponse, ctx1) =>
      match DelState ctx1 queryResponse.1 with
      | (Except.error err, ctx2) => (Except.error err, ctx2)
      | (Except.ok _, ctx2) => DeleteAllAssets.loop rest ctx2

/-- `DeleteAllAssets` (source lines 133-150): removes every key of the world state. The
deferred `Close` of the iterator has no effect on the model's state. -/
def DeleteAllAssets (ctx : Stub) : Except String Unit × Stub :=
  match GetStateByRange ctx "" "" with
  | (Except.error err, ctx1) => (Except.error err, ctx1)
  | (Except.ok resultsIterator, ctx1) => DeleteAllAssets.loop resultsIterator.pending ctx1

/-- The calls the loop of `DeleteAllAssets` makes for a list of keys: a `Next` and the
delete of the key, key by key. -/
def deleteCallsOf (keys : List String) : List Call :=
  keys.flatMap (fun key => [Call.Next, Call.DelState key])

/-- The records that decoding the values of a list of entries gives, in order, or the
first decoding error. -/
def decodeEach : List KV → Except String (List Asset)
  | [] => Except.ok []
  | e :: rest =>
    match Decode e.2 with
    | Except.error err => Except.error err
    | Except.ok asset =>
      match decodeEach rest with
      | Except.error err => Except.error err
      | Except.ok assets => Except.ok (asset :: assets)

/-- The sequence that `GetAllAssets` is specified to return: `ReadAsset` applied to each
key of the list in turn, each in a transaction of its own in which no store call fails;
the first error ends it. -/
def readEach (s : Store) : List String → Except String (List Asset)
  | [] => Except.ok []
  | key :: rest =>
    match (ReadAsset (Stub.fresh s) key).1 with
    | Except.error err => Except.error err
    | Except.ok asset =>
      match readEach s rest with
      | Except.error err => Except.error err
      | Except.ok assets => Except.ok (asset :: assets)

/-! ## Invariant and reachable stores -/

/-- Invariant I1 of the spec (§3): the bytes under every present key decode into an
`Asset` whose `ID` is the key. -/
def I1 (s : Store) : Prop :=
  ∀ key bytes, s.get key = some bytes → ∃ a, Decode bytes = Except.ok a ∧ a.ID = key

/-- The stores reachable from the empty store by `InitLedger`, `CreateAsset`,
`DeleteAsset` and `DeleteAllAssets` calls during which no store call fails. -/
inductive Reachable : Store → Prop where
  | empty : Reachable Store.empty
  | initLedger (ctx : Stub) :
      Reachable ctx.state → ctx.NoFaults → Reachable (InitLedger ctx).2.state
  | createAsset (ctx : Stub) (id : String) (name : GoString) :
      Reachable ctx.state → ctx.NoFaults → Reachable (CreateAsset ctx id name).2.state
  | deleteAsset (ctx : Stub) (id : String) :
      Reachable ctx.state → ctx.NoFaults → Reachable (DeleteAsset ctx id).2.state
  | deleteAllAssets (ctx : Stub) :
      Reachable ctx.state → ctx.NoFaults → Reachable (DeleteAllAssets ctx).2.state

/-! ## Go strings and their runes -/

theorem toNat_ofNat_of_valid {n : Nat} (h : n.isValidChar) : (Char.ofNat n).toNat = n := by
  unfold Char.ofNat
  rw [dif_pos h]
  rfl

theorem val_byteOf {n : Nat} (h : n < 256) : (byteOf n).val = n := by
  simp [byteOf, Fin.ofNat, Nat.mod_eq_of_lt h]

theorem byteOf_eq {n : Nat} {b : Byte} (h : n = b.val) : byteOf n = b := by
  apply Fin.ext
  rw [val_byteOf (by omega), h]

theorem isCont_iff (b : Byte) : isCont b = true ↔ 128 ≤ b.val ∧ b.val ≤ 191 := by
  simp [isCont]

theorem accepts_iff (b0 b1 : Byte) :
    accepts b0 b1 = true ↔ acceptLo b0 ≤ b1.val ∧ b1.val ≤ acceptHi b0 := by
  simp [accepts]

theorem acceptLo_ge (b0 : Byte) : 128 ≤ acceptLo b0 := by
  unfold acceptLo; split_ifs <;> omega

theorem acceptHi_le (b0 : Byte) : acceptHi b0 ≤ 191 := by
  unfold acceptHi; split_ifs <;> omega

theorem decodeRune2_length (b0 : Byte) (p : GoString) : (decodeRune2 b0 p).2.length ≤ p.length := by
  unfold decodeRune2
  split
  · split_ifs <;> simp
  · simp

theorem decodeRune3_length (b0 : Byte) (p : GoString) : (decodeRune3 b0 p).2.length ≤ p.length := by
  unfold decodeRune3
  split
  · split_ifs <;> simp
    omega
  · simp

theorem decodeRune4_length (b0 : Byte) (p : GoString) : (decodeRune4 b0 p).2.length ≤ p.length := by
  unfold decodeRune4
  split
  · split_ifs <;> simp
    omega
  · simp

theorem decodeRune_length {p rest : GoString} {r : Option Char}
    (h : decodeRune p = some (r, rest)) : rest.length < p.length := by
  unfold decodeRune at h
  split at h
  · cases h
  · rename_i b0 t
    have h2 := decodeRune2_length b0 t
    have h3 := decodeRune3_length b0 t
    have h4 := decodeRune4_length b0 t
    split_ifs at h <;> simp only [Option.some.injEq] at h
    · cases h; simp
    · cases h; simp
    · rw [h] at h2; simp at h2 ⊢; omega
    · rw [h] at h3; simp at h3 ⊢; omega
    · rw [h] at h4; simp at h4 ⊢; omega

theorem decodeRune2_some {b0 : Byte} (h0 : 194 ≤ b0.val ∧ b0.val < 224) {p rest : GoString}
    {c : Char} (h : decodeRune2 b0 p = (some c, rest)) : encodeRune c ++ rest = b0 :: p := by
  unfold decodeRune2 at h
  split at h
  · rename_i b1 r1
    split_ifs at h with ha
    · cases h
      have hb1 := b1.isLt
      obtain ⟨a1, a2⟩ := (accepts_iff b0 b1).mp ha
      have hlo := acceptLo_ge b0
      have hhi := acceptHi_le b0
      have hv : (Char.ofNat (b0.val % 32 * 64 + b1.val % 64)).toNat
          = b0.val % 32 * 64 + b1.val % 64 :=
        toNat_ofNat_of_valid (Or.inl (by omega))
      have e1 : ¬ (b0.val % 32 * 64 + b1.val % 64 < 128) := by omega
      have e2 : b0.val % 32 * 64 + b1.val % 64 < 2048 := by omega
      simp only [encodeRune, hv, e1, e2, if_true, if_false, List.cons_append, List.nil_append]
      rw [byteOf_eq (b := b0) (by omega), byteOf_eq (b := b1) (by omega)]
    · cases h
  · cases h

theorem decodeRune3_some {b0 : Byte} (h0 : 224 ≤ b0.val ∧ b0.val < 240) {p rest : GoString}
    {c : Char} (h : decodeRune3 b0 p = (some c, rest)) : encodeRune c ++ rest = b0 :: p := by
  unfold decodeRune3 at h
  split at h
  · rename_i b1 b2 r2
    split_ifs at h with ha
    · cases h
      have hb1 := b1.isLt
      have hb2 := b2.isLt
      simp only [Bool.and_eq_true] at ha
      obtain ⟨a1, a2⟩ := (accepts_iff b0 b1).mp ha.1
      obtain ⟨c1, c2⟩ := (isCont_iff b2).mp ha.2
      have hlo := acceptLo_ge b0
      have hhi := acceptHi_le b0
      have hlo2 : b0.val = 224 → 160 ≤ acceptLo b0 := by
        intro e; unfold acceptLo; simp [e]
      have hhi2 : b0.val = 237 → acceptHi b0 ≤ 159 := by
        intro e; unfold acceptHi; simp [e]
      have hv : (Char.ofNat (b0.val % 16 * 4096 + b1.val % 64 * 64 + b2.val % 64)).toNat
          = b0.val % 16 * 4096 + b1.val % 64 * 64 + b2.val % 64 := by
        apply toNat_ofNat_of_valid
        by_cases hs : b0.val % 16 * 4096 + b1.val % 64 * 64 + b2.val % 64 < 55296
        · exact Or.inl hs
        · refine Or.inr ⟨?_, by omega⟩
          by_cases e : b0.val = 237
          · have := hhi2 e
            omega
          · omega
      have e2 : ¬ (b0.val % 16 * 4096 + b1.val % 64 * 64 + b2.val % 64 < 2048) := by
        by_cases e : b0.val = 224
        · have := hlo2 e
          omega
        · omega
      have e1 : ¬ (b0.val % 16 * 4096 + b1.val % 64 * 64 + b2.val % 64 < 128) := by omega
      have e3 : b0.val % 16 * 4096 + b1.val % 64 * 64 + b2.val % 64 < 65536 := by omega
      simp only [encodeRune, hv, e1, e2, e3, if_true, if_false, List.cons_append,
        List.nil_append]
      rw [byteOf_eq (b := b0) (by omega), byteOf_eq (b := b1) (by omega),
        byteOf_eq (b := b2) (by omega)]
    · cases h
  · cases h

theorem decodeRune4_some {b0 : Byte} (h0 : 240 ≤ b0.val ∧ b0.val ≤ 244) {p rest : GoString}
    {c : Char} (h : decodeRune4 b0 p = (some c, rest)) : encodeRune c ++ rest = b0 :: p := by
  unfold decodeRune4 at h
  split at h
  · rename_i b1 b2 b3 r3
    split_ifs at h with ha
    · cases h
      have hb1 := b1.isLt
      have hb2 := b2.isLt
      have hb3 := b3.isLt
      simp only [Bool.and_eq_true] at ha
      obtain ⟨a1, a2⟩ := (accepts_iff b0 b1).mp ha.1.1
      obtain ⟨c1, c2⟩ := (isCont_iff b2).mp ha.1.2
      obtain ⟨d1, d2⟩ := (isCont_iff b3).mp ha.2
      have hlo := acceptLo_ge b0
      have hhi := acceptHi_le b0
      have hlo2 : b0.val = 240 → 144 ≤ acceptLo b0 := by
        intro e; unfold acceptLo; simp [e]
      have hhi2 : b0.val = 244 → acceptHi b0 ≤ 143 := by
        intro e; unfold acceptHi; simp [e]
      have hge : 65536 ≤ b0.val % 8 * 262144 + b1.val % 64 * 4096 + b2.val % 64 * 64
          + b3.val % 64 := by
        by_cases e : b0.val = 240
        · have := hlo2 e
          omega
        · omega
      have hle : b0.val % 8 * 262144 + b1.val % 64 * 4096 + b2.val % 64 * 64
          + b3.val % 64 < 1114112 := by
        by_cases e : b0.val = 244
        · have := hhi2 e
          omega
        · omega
      have hv : (Char.ofNat (b0.val % 8 * 262144 + b1.val % 64 * 4096
          + b2.val % 64 * 64 + b3.val % 64)).toNat
          = b0.val % 8 * 262144 + b1.val % 64 * 4096 + b2.val % 64 * 64 + b3.val % 64 :=
        toNat_ofNat_of_valid (Or.inr ⟨by omega, hle⟩)
      have e1 : ¬ (b0.val % 8 * 262144 + b1.val % 64 * 4096 + b2.val % 64 * 64
          + b3.val % 64 < 128) := by omega
      have e2 : ¬ (b0.val % 8 * 262144 + b1.val % 64 * 4096 + b2.val % 64 * 64
          + b3.val % 64 < 2048) := by omega
      have e3 : ¬ (b0.val % 8 * 262144 + b1.val % 64 * 4096 + b2.val % 64 * 64
          + b3.val % 64 < 65536) := by omega
      simp only [encodeRune, hv, e1, e2, e3, if_false, List.cons_append, List.nil_append]
      rw [byteOf_eq (b := b0) (by omega), byteOf_eq (b := b1) (by omega),
        byteOf_eq (b := b2) (by omega), byteOf_eq (b := b3) (by omega)]
    · cases h
  · cases h

theorem decodeRune_some {p rest : GoString} {c : Char}
    (h : decodeRune p = some (some c, rest)) : encodeRune c ++ rest = p := by
  unfold decodeRune at h
  split at h
  · cases h
  · rename_i b0 t
    have hb0 := b0.isLt
    split_ifs at h with h1 h2 h3 h4 <;> simp only [Option.some.injEq] at h
    · cases h
      have hv : (Char.ofNat b0.val).toNat = b0.val :=
        toNat_ofNat_of_valid (Or.inl (by omega))
      simp only [encodeRune, hv, h1, if_true, List.singleton_append]
      rw [byteOf_eq rfl]
    · cases h
    · exact decodeRune2_some ⟨by omega, h3⟩ h
    · exact decodeRune3_some ⟨by omega, h4⟩ h
    · exact decodeRune4_some ⟨by omega, by omega⟩ h

theorem ofChars_runesFuel (fuel : Nat) :
    ∀ p : GoString, p.length ≤ fuel → (runesFuel fuel p).all Option.isSome = true →
      GoString.ofChars ((runesFuel fuel p).map runeChar) = p := by
  induction fuel with
  | zero =>
    intro p hp _
    have : p = [] := List.length_eq_zero.mp (by omega)
    subst this
    rfl
  | succ n ih =>
    intro p hp hall
    cases hd : decodeRune p with
    | none =>
      have : p = [] := by
        cases p with
        | nil => rfl
        | cons b t => simp only [decodeRune] at hd; split_ifs at hd
      subst this
      simp [runesFuel, decodeRune, GoString.ofChars]
    | some res =>
      obtain ⟨r, rest⟩ := res
      have hl := decodeRune_length hd
      simp only [runesFuel, hd, List.all_cons, Bool.and_eq_true] at hall ⊢
      cases r with
      | none => simp at hall
      | some c =>
        have key := ih rest (by omega) hall.2
        simp only [List.map_cons, GoString.ofChars, List.flatMap_cons, runeChar,
          Option.getD_some] at key ⊢
        rw [key]
        exact decodeRune_some hd

/-- A valid Go string is the encoding of the text it is read as. -/
theorem GoString.coerced_of_valid {p : GoString} (h : p.valid = true) : p.coerced = p :=
  ofChars_runesFuel p.length p (Nat.le_refl _) h

theorem accepts_of_bounds {b0 b1 : Byte} (h1 : acceptLo b0 ≤ b1.val) (h2 : b1.val ≤ acceptHi b0) :
    accepts b0 b1 = true :=
  (accepts_iff b0 b1).mpr ⟨h1, h2⟩

theorem decodeRune_encodeRune (c : Char) (rest : GoString) :
    decodeRune (encodeRune c ++ rest) = some (some c, rest) := by
  have hv : c.toNat < 55296 ∨ (57343 < c.toNat ∧ c.toNat < 1114112) := c.valid
  have hc : Char.ofNat c.toNat = c := Char.ofNat_toNat c
  unfold encodeRune
  by_cases h1 : c.toNat < 128
  · rw [if_pos h1]
    have v0 := val_byteOf (show c.toNat < 256 by omega)
    simp only [List.singleton_append, decodeRune, v0, h1, if_true, hc]
  rw [if_neg h1]
  by_cases h2 : c.toNat < 2048
  · rw [if_pos h2]
    have v0 := val_byteOf (show 192 + c.toNat / 64 < 256 by omega)
    have v1 := val_byteOf (show 128 + c.toNat % 64 < 256 by omega)
    have a0 : ¬ (192 + c.toNat / 64 < 128) := by omega
    have a1 : ¬ (192 + c.toNat / 64 < 194 ∨ 244 < 192 + c.toNat / 64) := by omega
    have a2 : 192 + c.toNat / 64 < 224 := by omega
    have hacc : accepts (byteOf (192 + c.toNat / 64)) (byteOf (128 + c.toNat % 64)) = true := by
      apply accepts_of_bounds
      · unfold acceptLo; rw [v0, v1]; split_ifs <;> omega
      · unfold acceptHi; rw [v0, v1]; split_ifs <;> omega
    have e : (192 + c.toNat / 64) % 32 * 64 + (128 + c.toNat % 64) % 64 = c.toNat := by omega
    simp only [List.cons_append, List.nil_append, decodeRune, decodeRune2, v0, v1, a0, a1, a2,
      hacc, if_true, if_false, e, hc]
  rw [if_neg h2]
  by_cases h3 : c.toNat < 65536
  · rw [if_pos h3]
    have v0 := val_byteOf (show 224 + c.toNat / 4096 < 256 by omega)
    have v1 := val_byteOf (show 128 + c.toNat / 64 % 64 < 256 by omega)
    have v2 := val_byteOf (show 128 + c.toNat % 64 < 256 by omega)
    have a0 : ¬ (224 + c.toNat / 4096 < 128) := by omega
    have a1 : ¬ (224 + c.toNat / 4096 < 194 ∨ 244 < 224 + c.toNat / 4096) := by omega
    have a2 : ¬ (224 + c.toNat / 4096 < 224) := by omega
    have a3 : 224 + c.toNat / 4096 < 240 := by omega
    have hacc : accepts (byteOf (224 + c.toNat / 4096)) (byteOf (128 + c.toNat / 64 % 64))
        = true := by
      apply accepts_of_bounds
      · unfold acceptLo; rw [v0, v1]; split_ifs <;> omega
      · unfold acceptHi; rw [v0, v1]; split_ifs <;> omega
    have hcont : isCont (byteOf (128 + c.toNat % 64)) = true :=
      (isCont_iff _).mpr (by rw [v2]; omega)
    have e : (224 + c.toNat / 4096) % 16 * 4096 + (128 + c.toNat / 64 % 64) % 64 * 64
        + (128 + c.toNat % 64) % 64 = c.toNat := by omega
    simp only [List.cons_append, List.nil_append, decodeRune, decodeRune3, v0, v1, v2, a0, a1,
      a2, a3, hacc, hcont, Bool.and_self, if_true, if_false, e, hc]
  rw [if_neg h3]
  have v0 := val_byteOf (show 240 + c.toNat / 262144 < 256 by omega)
  have v1 := val_byteOf (show 128 + c.toNat / 4096 % 64 < 256 by omega)
  have v2 := val_byteOf (show 128 + c.toNat / 64 % 64 < 256 by omega)
  have v3 := val_byteOf (show 128 + c.toNat % 64 < 256 by omega)
  have a0 : ¬ (240 + c.toNat / 262144 < 128) := by omega
  have a1 : ¬ (240 + c.toNat / 262144 < 194 ∨ 244 < 240 + c.toNat / 262144) := by omega
  have a2 : ¬ (240 + c.toNat / 262144 < 224) := by omega
  have a3 : ¬ (240 + c.toNat / 262144 < 240) := by omega
  have hacc : accepts (byteOf (240 + c.toNat / 262144)) (byteOf (128 + c.toNat / 4096 % 64))
      = true := by
    apply accepts_of_bounds
    · unfold acceptLo; rw [v0, v1]; split_ifs <;> omega
    · unfold acceptHi; rw [v0, v1]; split_ifs <;> omega
  have hc2 : isCont (byteOf (128 + c.toNat / 64 % 64)) = true :=
    (isCont_iff _).mpr (by rw [v2]; omega)
  have hc3 : isCont (byteOf (128 + c.toNat % 64)) = true :=
    (isCont_iff _).mpr (by rw [v3]; omega)
  have e : (240 + c.toNat / 262144) % 8 * 262144 + (128 + c.toNat / 4096 % 64) % 64 * 4096
      + (128 + c.toNat / 64 % 64) % 64 * 64 + (128 + c.toNat % 64) % 64 = c.toNat := by omega
  simp only [List.cons_append, List.nil_append, decodeRune, decodeRune4, v0, v1, v2, v3, a0, a1,
    a2, a3, hacc, hc2, hc3, Bool.and_self, if_true, if_false, e, hc]

theorem length_encodeRune_pos (c : Char) : 1 ≤ (encodeRune c).length := by
  unfold encodeRune
  split_ifs <;> simp

theorem runesFuel_ofChars (s : List Char) :
    ∀ fuel, (GoString.ofChars s).length ≤ fuel → runesFuel fuel (GoString.ofChars s) = s.map some := by
  induction s with
  | nil =>
    intro fuel _
    cases fuel <;> simp [runesFuel, GoString.ofChars, decodeRune]
  | cons c cs ih =>
    intro fuel hf
    have hl := length_encodeRune_pos c
    have hcons : GoString.ofChars (c :: cs) = encodeRune c ++ GoString.ofChars cs := by
      simp [GoString.ofChars]
    rw [hcons] at hf ⊢
    rw [List.length_append] at hf
    obtain ⟨n, rfl⟩ : ∃ n, fuel = n + 1 := ⟨fuel - 1, by omega⟩
    rw [runesFuel, decodeRune_encodeRune]
    simp only [List.map_cons]
    rw [ih n (by omega)]

/-- The bytes of a text are valid UTF-8, and they read as the text. -/
theorem GoString.valid_ofString (s : String) :
    (GoString.ofString s).valid = true ∧ (GoString.ofString s).toChars = s.data ∧
      (GoString.ofString s).coerced = GoString.ofString s := by
  have hr : runes (GoString.ofString s) = s.data.map some :=
    runesFuel_ofChars s.data _ (Nat.le_refl _)
  have hvalid : (GoString.ofString s).valid = true := by
    unfold GoString.valid
    rw [hr]
    simp
  refine ⟨hvalid, ?_, GoString.coerced_of_valid hvalid⟩
  unfold GoString.toChars
  rw [hr, List.map_map]
  simp [Function.comp_def, runeChar]

/-! ## The codec reads back what it writes -/

theorem readItem_control (c : Char) (h : c.toNat < 32) (rest : List Char) :
    readItem (escapeChar c ++ rest) = some (some c, rest) := by
  have hc : c = Char.ofNat c.toNat := (Char.ofNat_toNat c).symm
  generalize c.toNat = n at hc h
  subst hc
  interval_cases n <;> rfl

theorem readItem_escapeChar (c : Char) (rest : List Char) :
    readItem (escapeChar c ++ rest) = some (some c, rest) := by
  by_cases h : c.toNat < 32
  · exact readItem_control c h rest
  by_cases h1 : c = '"'
  · subst h1; rfl
  by_cases h2 : c = '\\'
  · subst h2; rfl
  by_cases h3 : c = '<'
  · subst h3; rfl
  by_cases h4 : c = '>'
  · subst h4; rfl
  by_cases h5 : c = '&'
  · subst h5; rfl
  by_cases h6 : c = Char.ofNat 8232
  · subst h6; rfl
  by_cases h7 : c = Char.ofNat 8233
  · subst h7; rfl
  have e1 : c ≠ '\n' := by rintro rfl; exact h (by decide)
  have e2 : c ≠ '\r' := by rintro rfl; exact h (by decide)
  have e3 : c ≠ '\t' := by rintro rfl; exact h (by decide)
  simp [escapeChar, readItem, h, h1, h2, h3, h4, h5, h6, h7, e1, e2, e3]

theorem length_escapeChar_pos (c : Char) : 1 ≤ (escapeChar c).length := by
  unfold escapeChar
  split_ifs <;> simp

theorem length_le_escapeChars (s : List Char) : s.length ≤ (escapeChars s).length := by
  induction s with
  | nil => simp [escapeChars]
  | cons c cs ih =>
    have := length_escapeChar_pos c
    simp [escapeChars]
    omega

theorem unquoteFuel_escapeChars (s rest : List Char) :
    ∀ fuel, s.length < fuel →
      unquoteFuel fuel (escapeChars s ++ '"' :: rest) = some (s, rest) := by
  induction s with
  | nil =>
    intro fuel h
    obtain ⟨n, rfl⟩ : ∃ n, fuel = n + 1 := ⟨fuel - 1, by simp at h; omega⟩
    simp [escapeChars, unquoteFuel, readItem]
  | cons c cs ih =>
    intro fuel h
    obtain ⟨n, rfl⟩ : ∃ n, fuel = n + 1 := ⟨fuel - 1, by simp at h; omega⟩
    have hn : cs.length < n := by simp at h; omega
    simp only [escapeChars, List.append_assoc, unquoteFuel, readItem_escapeChar]
    rw [ih n hn]
    rfl

theorem unquote_escapeChars (s rest : List Char) :
    unquote (escapeChars s ++ '"' :: rest) = some (s, rest) := by
  apply unquoteFuel_escapeChars
  have := length_le_escapeChars s
  simp
  omega

theorem readItem_escapeRune (r : Option Char) (rest : List Char) :
    readItem (escapeRune r ++ rest) = some (some (runeChar r), rest) := by
  cases r with
  | none => rfl
  | some c => exact readItem_escapeChar c rest

theorem length_escapeRune_pos (r : Option Char) : 1 ≤ (escapeRune r).length := by
  cases r with
  | none => simp [escapeRune]
  | some c => exact length_escapeChar_pos c

theorem length_le_escapeRunes (rs : List (Option Char)) :
    rs.length ≤ (escapeRunes rs).length := by
  induction rs with
  | nil => simp [escapeRunes]
  | cons r rs ih =>
    have := length_escapeRune_pos r
    simp [escapeRunes]
    omega

theorem unquoteFuel_escapeRunes (rs : List (Option Char)) (rest : List Char) :
    ∀ fuel, rs.length < fuel →
      unquoteFuel fuel (escapeRunes rs ++ '"' :: rest) = some (rs.map runeChar, rest) := by
  induction rs with
  | nil =>
    intro fuel h
    obtain ⟨n, rfl⟩ : ∃ n, fuel = n + 1 := ⟨fuel - 1, by simp at h; omega⟩
    simp [escapeRunes, unquoteFuel, readItem]
  | cons r rs ih =>
    intro fuel h
    obtain ⟨n, rfl⟩ : ∃ n, fuel = n + 1 := ⟨fuel - 1, by simp at h; omega⟩
    have hn : rs.length < n := by simp at h; omega
    simp only [escapeRunes, List.append_assoc, unquoteFuel, readItem_escapeRune]
    rw [ih n hn]
    rfl

theorem unquote_escapeRunes (rs : List (Option Char)) (rest : List Char) :
    unquote (escapeRunes rs ++ '"' :: rest) = some (rs.map runeChar, rest) := by
  apply unquoteFuel_escapeRunes
  have := length_le_escapeRunes rs
  simp
  omega

theorem skipWS_cons (c : Char) (r : List Char) (h : isWS c = false) :
    skipWS (c :: r) = c :: r := by
  simp [skipWS, h]

theorem parseJSON_string (fuel : Nat) (s rest : List Char) :
    parseJSON (fuel + 1) Expect.value ('"' :: (escapeChars s ++ '"' :: rest))
      = some (JVal.str s, rest) := by
  simp [parseJSON, skipWS_cons _ _ (show isWS '"' = false from rfl), unquote_escapeChars]

theorem parseJSON_goString (fuel : Nat) (p : GoString) (rest : List Char) :
    parseJSON (fuel + 1) Expect.value ('"' :: (escapeRunes (runes p) ++ '"' :: rest))
      = some (JVal.str p.toChars, rest) := by
  simp [parseJSON, skipWS_cons _ _ (show isWS '"' = false from rfl), unquote_escapeRunes,
    GoString.toChars]

theorem decodeMembers_member (vfuel fuel : Nat) (a a1 : Asset) (key value rest : List Char)
    (v : JVal) (c : Char) (hc : isWS c = false)
    (hv : parseJSON vfuel Expect.value value = some (v, c :: rest))
    (hs : setField a key v = Except.ok a1) :
    decodeMembers vfuel (fuel + 1) a ('"' :: (escapeChars key ++ '"' :: ':' :: value))
      = afterMember vfuel fuel a1 c rest := by
  simp [decodeMembers, skipWS_cons _ _ (show isWS '"' = false from rfl),
    skipWS_cons _ _ (show isWS ':' = false from rfl), skipWS_cons _ _ hc,
    unquote_escapeChars, hv, hs, afterMember]

/-! ## Numbers read back from their text -/

theorem digitChar_toNat {d : Nat} (h : d < 10) : (digitChar d).toNat = 48 + d := by
  unfold digitChar
  interval_cases d <;> rfl

theorem isDigit_digitChar {d : Nat} (h : d < 10) : isDigit (digitChar d) = true := by
  unfold digitChar
  interval_cases d <;> rfl

theorem digitChar_eq_zero_iff {d : Nat} (h : d < 10) : digitChar d = '0' ↔ d = 0 := by
  unfold digitChar
  interval_cases d <;> decide

theorem digitsToNat_append (a b : List Char) :
    digitsToNat (a ++ b) = b.foldl (fun n c => 10 * n + (c.toNat - 48)) (digitsToNat a) := by
  simp [digitsToNat, List.foldl_append]

theorem digitsToNat_snoc (a : List Char) (c : Char) :
    digitsToNat (a ++ [c]) = 10 * digitsToNat a + (c.toNat - 48) := by
  simp [digitsToNat_append]

theorem natDigits_spec : ∀ (fuel n : Nat), n < fuel →
    (∀ c ∈ natDigits fuel n, isDigit c = true) ∧
    natDigits fuel n ≠ [] ∧
    digitsToNat (natDigits fuel n) = n ∧
    (n ≠ 0 → (natDigits fuel n).head? ≠ some '0') ∧
    (natDigits fuel n).getLast? = some (digitChar (n % 10)) := by
  intro fuel
  induction fuel with
  | zero => intro n h; omega
  | succ fuel ih =>
    intro n hn
    unfold natDigits
    split_ifs with h10
    · have hd : n % 10 = n := Nat.mod_eq_of_lt h10
      refine ⟨?_, by simp, ?_, ?_, ?_⟩
      · intro c hc
        simp only [List.mem_singleton] at hc
        subst hc
        exact isDigit_digitChar h10
      · simp [digitsToNat, ← digitChar.eq_def, digitChar_toNat h10]
      · intro h0
        simp only [List.head?_cons, ne_eq, Option.some.injEq]
        intro hz
        exact h0 ((digitChar_eq_zero_iff h10).mp hz)
      · simp [hd, digitChar]
    · have hlt : n / 10 < fuel := by omega
      have hmod : n % 10 < 10 := Nat.mod_lt _ (by norm_num)
      obtain ⟨h1, h2, h3, h4, _⟩ := ih (n / 10) hlt
      refine ⟨?_, by simp, ?_, ?_, ?_⟩
      · intro c hc
        rcases List.mem_append.mp hc with hc | hc
        · exact h1 c hc
        · simp only [List.mem_singleton] at hc
          subst hc
          exact isDigit_digitChar hmod
      · rw [digitsToNat_snoc, h3, ← digitChar.eq_def, digitChar_toNat hmod]
        omega
      · intro _
        have hq : n / 10 ≠ 0 := by omega
        have := h4 hq
        cases hnd : natDigits fuel (n / 10) with
        | nil => exact absurd hnd h2
        | cons a as =>
          rw [hnd] at this
          simpa using this
      · simp [digitChar]

theorem natText_digits (n : Nat) : ∀ c ∈ natText n, isDigit c = true :=
  (natDigits_spec (n + 1) n (Nat.lt_succ_self n)).1

theorem natText_ne_nil (n : Nat) : natText n ≠ [] :=
  (natDigits_spec (n + 1) n (Nat.lt_succ_self n)).2.1

theorem digitsToNat_natText (n : Nat) : digitsToNat (natText n) = n :=
  (natDigits_spec (n + 1) n (Nat.lt_succ_self n)).2.2.1

theorem natText_head {n : Nat} (h : n ≠ 0) : (natText n).head? ≠ some '0' :=
  (natDigits_spec (n + 1) n (Nat.lt_succ_self n)).2.2.2.1 h

theorem natText_getLast {n : Nat} (h : n % 10 ≠ 0) : (natText n).getLast? ≠ some '0' := by
  unfold natText
  rw [(natDigits_spec (n + 1) n (Nat.lt_succ_self n)).2.2.2.2]
  simp only [ne_eq, Option.some.injEq]
  intro hz
  exact h ((digitChar_eq_zero_iff (Nat.mod_lt _ (by norm_num))).mp hz)

theorem digitsPrefix_append (ds : List Char) (c : Char) (rest : List Char)
    (hd : ∀ x ∈ ds, isDigit x = true) (hc : isDigit c = false) :
    digitsPrefix (ds ++ c :: rest) = (ds, c :: rest) := by
  induction ds with
  | nil => simp [digitsPrefix, hc]
  | cons d ds ih =>
    have h1 : isDigit d = true := hd d (List.mem_cons_self _ _)
    have h2 := ih (fun x hx => hd x (List.mem_cons_of_mem _ hx))
    simp [digitsPrefix, h1, h2]

theorem digitsToNat_zeros_append (k : Nat) (ds : List Char) :
    digitsToNat (List.replicate k '0' ++ ds) = digitsToNat ds := by
  induction k with
  | zero => simp
  | succ k ih =>
    rw [List.replicate_succ, List.cons_append]
    have : digitsToNat ('0' :: (List.replicate k '0' ++ ds))
        = digitsToNat (List.replicate k '0' ++ ds) := by
      simp [digitsToNat]
    rw [this, ih]

theorem digitsToNat_zero_cons (ds : List Char) : digitsToNat ('0' :: ds) = digitsToNat ds := by
  simp [digitsToNat]

theorem stripTrailingZeros_append_zeros (ds : List Char) (k : Nat)
    (hl : ds.getLast? ≠ some '0') :
    stripTrailingZeros (ds ++ List.replicate k '0') = ds := by
  unfold stripTrailingZeros
  rw [List.reverse_append, List.reverse_replicate]
  have hdrop : ∀ (j : Nat) (l : List Char),
      List.dropWhile (fun c => decide (c = '0')) (List.replicate j '0' ++ l)
        = List.dropWhile (fun c => decide (c = '0')) l := by
    intro j l
    induction j with
    | zero => simp
    | succ j ih => simp [List.replicate_succ, List.dropWhile_cons, ih]
  rw [hdrop]
  cases hr : ds.reverse with
  | nil =>
    have : ds = [] := by simpa using hr
    simp [this]
  | cons a as =>
    have ha : ds.getLast? = some a := by
      rw [List.getLast?_eq_head?_reverse, hr]; rfl
    have hne : a ≠ '0' := by
      intro h; apply hl; rw [ha, h]
    have : ds = (a :: as).reverse := by rw [← hr, List.reverse_reverse]
    simp [List.dropWhile_cons, hne, this]

theorem stripTrailingZeros_self (ds : List Char) (hl : ds.getLast? ≠ some '0') :
    stripTrailingZeros ds = ds := by
  simpa using stripTrailingZeros_append_zeros ds 0 hl

theorem Decimal.ofDigits_eq (sign : Bool) (lead ds : List Char) (k : Nat) (e : Int) (m : Nat)
    (hm : m ≠ 0) (hlead : ∀ c ∈ lead, c = '0') (hds : digitsToNat ds = m)
    (hl : ds.getLast? ≠ some '0') :
    Decimal.ofDigits sign (lead ++ ds ++ List.replicate k '0') e = ⟨sign, m, e + k⟩ := by
  have hne : ds ≠ [] := by
    rintro rfl; simp [digitsToNat] at hds; exact hm hds.symm
  have hl' : (lead ++ ds).getLast? ≠ some '0' := by
    rw [List.getLast?_append_of_ne_nil _ hne]; exact hl
  have hlead' : lead = List.replicate lead.length '0' :=
    (List.eq_replicate_of_mem hlead)
  have hval : digitsToNat (lead ++ ds) = m := by
    rw [hlead', digitsToNat_zeros_append, hds]
  unfold Decimal.ofDigits
  rw [stripTrailingZeros_append_zeros _ _ hl', hval]
  simp [hm]

theorem parseFraction_none (c : Char) (rest : List Char) (hc : c ≠ '.') :
    parseFraction (c :: rest) = some ([], c :: rest) := by
  simp [parseFraction, hc]

theorem parseFraction_some (fs : List Char) (c : Char) (rest : List Char)
    (hd : ∀ x ∈ fs, isDigit x = true) (hne : fs ≠ []) (hc : isDigit c = false) :
    parseFraction ('.' :: (fs ++ c :: rest)) = some (fs, c :: rest) := by
  simp [parseFraction, digitsPrefix_append fs c rest hd hc, hne]

theorem parseExponent_none (c : Char) (rest : List Char) (h1 : c ≠ 'e') (h2 : c ≠ 'E') :
    parseExponent (c :: rest) = some (0, c :: rest) := by
  simp [parseExponent, h1, h2]

theorem parseExponent_minus (es : List Char) (c : Char) (rest : List Char)
    (hd : ∀ x ∈ es, isDigit x = true) (hne : es ≠ []) (hc : isDigit c = false) :
    parseExponent ('e' :: '-' :: (es ++ c :: rest))
      = some (-(digitsToNat es : Int), c :: rest) := by
  simp [parseExponent, exponentDigits, digitsPrefix_append es c rest hd hc, hne]

theorem parseExponent_plus (es : List Char) (c : Char) (rest : List Char)
    (hd : ∀ x ∈ es, isDigit x = true) (hne : es ≠ []) (hc : isDigit c = false) :
    parseExponent ('e' :: '+' :: (es ++ c :: rest))
      = some ((digitsToNat es : Int), c :: rest) := by
  simp [parseExponent, exponentDigits, digitsPrefix_append es c rest hd hc, hne]

theorem parseUnsigned_eq (sign : Bool) (ip fp : List Char) (c : Char) (t cs2 cs3 : List Char)
    (e : Int) (hd : ∀ x ∈ ip, isDigit x = true) (hne : ip ≠ [])
    (hz : ¬ (1 < ip.length ∧ ip.head? = some '0')) (hc : isDigit c = false)
    (hf : parseFraction (c :: t) = some (fp, cs2)) (he : parseExponent cs2 = some (e, cs3)) :
    parseUnsigned sign (ip ++ c :: t)
      = some (Decimal.ofDigits sign (ip ++ fp) (e - (fp.length : Int)), cs3) := by
  unfold parseUnsigned
  rw [digitsPrefix_append ip c t hd hc]
  simp only [hne, hz, or_self, if_false, hf, he]

theorem digit_ne_of_not_digit {c d : Char} (hc : isDigit c = true) (hd : isDigit d = false) :
    c ≠ d := by
  rintro rfl
  rw [hc] at hd
  cases hd

theorem parseJSON_number (fuel : Nat) (sign : Bool) (c : Char) (t r : List Char) (v : Decimal)
    (hc : isDigit c = true) (hu : parseUnsigned sign (c :: t) = some (v, r)) :
    parseJSON (fuel + 1) Expect.value ((if sign then ['-'] else []) ++ c :: t)
      = some (JVal.num v, r) := by
  have n1 : c ≠ '"' := digit_ne_of_not_digit hc rfl
  have n2 : c ≠ '\x7b' := digit_ne_of_not_digit hc rfl
  have n3 : c ≠ '[' := digit_ne_of_not_digit hc rfl
  have n4 : c ≠ 't' := digit_ne_of_not_digit hc rfl
  have n5 : c ≠ 'f' := digit_ne_of_not_digit hc rfl
  have n6 : c ≠ 'n' := digit_ne_of_not_digit hc rfl
  have n7 : c ≠ '-' := digit_ne_of_not_digit hc rfl
  have w : isWS c = false := by
    have a1 : c ≠ ' ' := digit_ne_of_not_digit hc rfl
    have a2 : c ≠ '\t' := digit_ne_of_not_digit hc rfl
    have a3 : c ≠ '\n' := digit_ne_of_not_digit hc rfl
    have a4 : c ≠ '\r' := digit_ne_of_not_digit hc rfl
    simp [isWS, a1, a2, a3, a4]
  cases sign with
  | false =>
    simp only [Bool.false_eq_true, if_false, List.nil_append]
    simp [parseJSON, skipWS_cons _ _ w, n1, n2, n3, n4, n5, n6, n7, parseNumber, hu]
  | true =>
    simp only [if_true, List.singleton_append]
    simp [parseJSON, skipWS_cons _ _ (show isWS '-' = false from rfl), parseNumber, hu]

theorem formatDecimal_eq (x : Decimal) :
    formatDecimal x = (if x.neg then ['-'] else []) ++ magnitudeText x.mant x.exp := by
  unfold magnitudeText formatDecimal
  simp only [Bool.false_eq_true, if_false, List.nil_append]
  split_ifs <;> simp [List.append_assoc]

theorem magnitudeText_zero (exp : Int) : magnitudeText 0 exp = ['0'] := by
  simp [magnitudeText, formatDecimal]

theorem parseExponent_text (e : Int) (rest : List Char) :
    parseExponent ('e' :: ((if e < 0 then '-' :: natText e.natAbs
        else '+' :: (if (natText e.natAbs).length < 2 then '0' :: natText e.natAbs
          else natText e.natAbs)) ++ ',' :: rest))
      = some (e, ',' :: rest) := by
  have hd := natText_digits e.natAbs
  have hne := natText_ne_nil e.natAbs
  have hv := digitsToNat_natText e.natAbs
  have hcomma : isDigit ',' = false := rfl
  by_cases h : e < 0
  · simp only [h, if_true, List.cons_append]
    rw [parseExponent_minus _ ',' rest hd hne hcomma, hv]
    congr 2
    omega
  · simp only [h, if_false, List.cons_append]
    have he : (e.natAbs : Int) = e := by omega
    by_cases h2 : (natText e.natAbs).length < 2
    · simp only [h2, if_true]
      have key := parseExponent_plus ('0' :: natText e.natAbs) ',' rest
        (by
          intro x hx
          rcases List.mem_cons.mp hx with hx | hx
          · rw [hx]; rfl
          · exact hd x hx)
        (by simp) hcomma
      rw [digitsToNat_zero_cons, hv, he] at key
      simpa using key
    · simp only [h2, if_false]
      rw [parseExponent_plus _ ',' rest hd hne hcomma, hv, he]

theorem parseUnsigned_scientific (sign : Bool) (m : Nat) (hm : m ≠ 0) (d0 : Char)
    (tl : List Char) (hdig : ∀ c ∈ d0 :: tl, isDigit c = true)
    (hlast : (d0 :: tl).getLast? ≠ some '0') (hval : digitsToNat (d0 :: tl) = m)
    (e : Int) (rest : List Char) :
    parseUnsigned sign ([d0] ++ (if (d0 :: tl).length > 1 then '.' :: tl else [])
        ++ 'e' :: ((if e < 0 then '-' :: natText e.natAbs
          else '+' :: (if (natText e.natAbs).length < 2 then '0' :: natText e.natAbs
            else natText e.natAbs))) ++ ',' :: rest)
      = some (⟨sign, m, e - (tl.length : Int)⟩, ',' :: rest) := by
  have hd0 : ∀ x ∈ [d0], isDigit x = true := by
    intro x hx
    simp only [List.mem_singleton] at hx
    exact hdig x (by rw [hx]; exact List.mem_cons_self _ _)
  have hz : ¬ (1 < [d0].length ∧ [d0].head? = some '0') := by simp
  have hpoint : isDigit '.' = false := rfl
  have hexp : isDigit 'e' = false := rfl
  cases tl with
  | nil =>
    have key := parseUnsigned_eq sign [d0] [] 'e' _ _ _ e hd0 (by simp) hz hexp
      (parseFraction_none _ _ (by decide)) (parseExponent_text e rest)
    have val := Decimal.ofDigits_eq sign [] [d0] 0 (e - ((([] : List Char).length : Nat) : Int))
      m hm (by simp) hval hlast
    simp only [List.nil_append, List.replicate_zero, List.append_nil] at val
    rw [List.append_nil, val] at key
    simpa using key
  | cons t1 tl =>
    have htl : ∀ x ∈ t1 :: tl, isDigit x = true :=
      fun x hx => hdig x (List.mem_cons_of_mem _ hx)
    have key := parseUnsigned_eq sign [d0] (t1 :: tl) '.' _ _ _ e hd0 (by simp) hz hpoint
      (parseFraction_some (t1 :: tl) 'e' _ htl (by simp) hexp) (parseExponent_text e rest)
    have val := Decimal.ofDigits_eq sign [] (d0 :: t1 :: tl) 0
      (e - (((t1 :: tl).length : Nat) : Int)) m hm (by simp) hval hlast
    simp only [List.nil_append, List.replicate_zero, List.append_nil] at val
    rw [show [d0] ++ t1 :: tl = d0 :: t1 :: tl from rfl, val] at key
    simpa using key

theorem parseUnsigned_small (sign : Bool) (m : Nat) (hm : m ≠ 0) (ds : List Char)
    (hdig : ∀ c ∈ ds, isDigit c = true) (hlast : ds.getLast? ≠ some '0')
    (hval : digitsToNat ds = m) (k : Nat) (rest : List Char) :
    parseUnsigned sign (['0', '.'] ++ List.replicate k '0' ++ ds ++ ',' :: rest)
      = some (⟨sign, m, -((k + ds.length : Nat) : Int)⟩, ',' :: rest) := by
  have hne : ds ≠ [] := by
    rintro rfl; simp [digitsToNat] at hval; exact hm hval.symm
  have hfd : ∀ x ∈ List.replicate k '0' ++ ds, isDigit x = true := by
    intro x hx
    rcases List.mem_append.mp hx with hx | hx
    · rw [(List.mem_replicate.mp hx).2]; rfl
    · exact hdig x hx
  have key := parseUnsigned_eq sign ['0'] (List.replicate k '0' ++ ds) '.' _ _ _ 0
    (by intro x hx; simp only [List.mem_singleton] at hx; rw [hx]; rfl) (by simp) (by simp) rfl
    (parseFraction_some (List.replicate k '0' ++ ds) ',' rest hfd (by simp [hne]) rfl)
    (parseExponent_none ',' rest (by decide) (by decide))
  have val := Decimal.ofDigits_eq sign ('0' :: List.replicate k '0') ds 0
    (0 - ((List.replicate k '0' ++ ds).length : Int)) m hm
    (by
      intro c hc
      rcases List.mem_cons.mp hc with hc | hc
      · exact hc
      · exact (List.mem_replicate.mp hc).2)
    hval hlast
  simp only [List.replicate_zero, List.append_nil, List.cons_append] at val
  rw [show ['0'] ++ (List.replicate k '0' ++ ds) = '0' :: (List.replicate k '0' ++ ds) from rfl,
    val] at key
  simpa using key

theorem parseUnsigned_integer (sign : Bool) (m : Nat) (hm : m ≠ 0) (ds : List Char)
    (hdig : ∀ c ∈ ds, isDigit c = true) (hhead : ds.head? ≠ some '0')
    (hlast : ds.getLast? ≠ some '0') (hval : digitsToNat ds = m) (k : Nat)
    (rest : List Char) :
    parseUnsigned sign (ds ++ List.replicate k '0' ++ ',' :: rest)
      = some (⟨sign, m, (k : Int)⟩, ',' :: rest) := by
  have hne : ds ≠ [] := by
    rintro rfl; simp [digitsToNat] at hval; exact hm hval.symm
  have hid : ∀ x ∈ ds ++ List.replicate k '0', isDigit x = true := by
    intro x hx
    rcases List.mem_append.mp hx with hx | hx
    · exact hdig x hx
    · rw [(List.mem_replicate.mp hx).2]; rfl
  have hz : ¬ (1 < (ds ++ List.replicate k '0').length ∧
      (ds ++ List.replicate k '0').head? = some '0') := by
    intro h
    apply hhead
    cases ds with
    | nil => exact absurd rfl hne
    | cons a as => simpa using h.2
  have key := parseUnsigned_eq sign (ds ++ List.replicate k '0') [] ',' rest _ _ 0 hid
    (by simp [hne]) hz rfl (parseFraction_none ',' rest (by decide))
    (parseExponent_none ',' rest (by decide) (by decide))
  have val := Decimal.ofDigits_eq sign [] ds k (0 - ((([] : List Char).length : Nat) : Int)) m hm
    (by simp) hval hlast
  simp only [List.nil_append] at val
  rw [List.append_nil, val] at key
  simpa using key

theorem parseUnsigned_split (sign : Bool) (m : Nat) (hm : m ≠ 0) (ds : List Char)
    (hdig : ∀ c ∈ ds, isDigit c = true) (hhead : ds.head? ≠ some '0')
    (hlast : ds.getLast? ≠ some '0') (hval : digitsToNat ds = m) (p : Nat) (hp0 : 0 < p)
    (hp : p < ds.length) (rest : List Char) :
    parseUnsigned sign (ds.take p ++ ('.' :: ds.drop p) ++ ',' :: rest)
      = some (⟨sign, m, -((ds.length - p : Nat) : Int)⟩, ',' :: rest) := by
  have htake : ∀ x ∈ ds.take p, isDigit x = true :=
    fun x hx => hdig x (List.mem_of_mem_take hx)
  have hdrop : ∀ x ∈ ds.drop p, isDigit x = true :=
    fun x hx => hdig x (List.mem_of_mem_drop hx)
  have htne : ds.take p ≠ [] := by
    intro h
    have := congrArg List.length h
    rw [List.length_take, List.length_nil] at this
    omega
  have hdne : ds.drop p ≠ [] := by
    intro h
    have := congrArg List.length h
    rw [List.length_drop, List.length_nil] at this
    omega
  have hz : ¬ (1 < (ds.take p).length ∧ (ds.take p).head? = some '0') := by
    intro h
    apply hhead
    cases ds with
    | nil => simp at hp
    | cons a as =>
      cases p with
      | zero => omega
      | succ q => simpa using h.2
  have key := parseUnsigned_eq sign (ds.take p) (ds.drop p) '.' _ _ _ 0 htake htne hz rfl
    (parseFraction_some (ds.drop p) ',' rest hdrop hdne rfl)
    (parseExponent_none ',' rest (by decide) (by decide))
  have val := Decimal.ofDigits_eq sign [] ds 0 (0 - ((ds.drop p).length : Int)) m hm
    (by simp) hval hlast
  simp only [List.nil_append, List.replicate_zero, List.append_nil] at val
  rw [List.take_append_drop, val] at key
  simpa using key

theorem parseUnsigned_magnitudeText (m : Nat) (ex : Int) (hm : m ≠ 0) (h10 : m % 10 ≠ 0)
    (sign : Bool) (rest : List Char) :
    parseUnsigned sign (magnitudeText m ex ++ ',' :: rest)
      = some (⟨sign, m, ex⟩, ',' :: rest) := by
  have hdig := natText_digits m
  have hhead := natText_head hm
  have hlast := natText_getLast h10
  have hval := digitsToNat_natText m
  obtain ⟨d0, tl, hds⟩ : ∃ d0 tl, natText m = d0 :: tl := by
    cases h : natText m with
    | nil => exact absurd h (natText_ne_nil m)
    | cons a as => exact ⟨a, as, rfl⟩
  unfold magnitudeText formatDecimal
  simp only [Bool.false_eq_true, if_false, List.nil_append, hm]
  by_cases hA : ((natText m).length : Int) + ex - 1 < -6 ∨ 21 ≤ ((natText m).length : Int) + ex - 1
  · simp only [hA, if_true]
    rw [hds] at hdig hlast hval
    have key := parseUnsigned_scientific sign m hm d0 tl hdig hlast hval
      (((d0 :: tl).length : Int) + ex - 1) rest
    have he : ((d0 :: tl).length : Int) + ex - 1 - (tl.length : Int) = ex := by
      simp only [List.length_cons]; push_cast; ring
    rw [he] at key
    rw [hds]
    simpa using key
  · simp only [hA, if_false]
    by_cases hB : ((natText m).length : Int) + ex ≤ 0
    · simp only [hB, if_true]
      have key := parseUnsigned_small sign m hm (natText m) hdig hlast hval
        (-(((natText m).length : Int) + ex)).toNat rest
      have he : -(((-(((natText m).length : Int) + ex)).toNat + (natText m).length : Nat) : Int)
          = ex := by
        push_cast
        omega
      rw [he] at key
      exact key
    · simp only [hB, if_false]
      by_cases hC : ((natText m).length : Int) ≤ ((natText m).length : Int) + ex
      · simp only [hC, if_true]
        have key := parseUnsigned_integer sign m hm (natText m) hdig hhead hlast hval
          (((natText m).length : Int) + ex - ((natText m).length : Int)).toNat rest
        have he : (((((natText m).length : Int) + ex - ((natText m).length : Int)).toNat : Nat) : Int)
            = ex := by omega
        rw [he] at key
        exact key
      · simp only [hC, if_false]
        have hp0 : 0 < (((natText m).length : Int) + ex).toNat := by omega
        have hp : (((natText m).length : Int) + ex).toNat < (natText m).length := by omega
        have key := parseUnsigned_split sign m hm (natText m) hdig hhead hlast hval
          (((natText m).length : Int) + ex).toNat hp0 hp rest
        have he : -(((natText m).length - (((natText m).length : Int) + ex).toNat : Nat) : Int)
            = ex := by omega
        rw [he] at key
        exact key

theorem magnitudeText_head (m : Nat) (ex : Int) :
    ∃ c t, magnitudeText m ex = c :: t ∧ isDigit c = true := by
  by_cases hm : m = 0
  · subst hm
    exact ⟨'0', [], magnitudeText_zero ex, rfl⟩
  · have hdig := natText_digits m
    obtain ⟨d0, tl, hds⟩ : ∃ d0 tl, natText m = d0 :: tl := by
      cases h : natText m with
      | nil => exact absurd h (natText_ne_nil m)
      | cons a as => exact ⟨a, as, rfl⟩
    have hd0 : isDigit d0 = true := hdig d0 (by rw [hds]; exact List.mem_cons_self _ _)
    unfold magnitudeText formatDecimal
    simp only [Bool.false_eq_true, if_false, List.nil_append, hm]
    rw [hds]
    by_cases hA : ((d0 :: tl).length : Int) + ex - 1 < -6 ∨ 21 ≤ ((d0 :: tl).length : Int) + ex - 1
    · simp only [hA, if_true]
      exact ⟨d0, _, rfl, hd0⟩
    · simp only [hA, if_false]
      by_cases hB : ((d0 :: tl).length : Int) + ex ≤ 0
      · simp only [hB, if_true]
        exact ⟨'0', _, rfl, rfl⟩
      · simp only [hB, if_false]
        by_cases hC : ((d0 :: tl).length : Int) ≤ ((d0 :: tl).length : Int) + ex
        · simp only [hC, if_true]
          exact ⟨d0, _, rfl, hd0⟩
        · simp only [hC, if_false]
          have hp : 0 < (((d0 :: tl).length : Int) + ex).toNat := by omega
          obtain ⟨q, hq⟩ : ∃ q, (((d0 :: tl).length : Int) + ex).toNat = q + 1 :=
            ⟨_, (Nat.succ_pred_eq_of_pos hp).symm⟩
          rw [hq]
          exact ⟨d0, _, rfl, hd0⟩

/-- Every canonical decimal number reads back from its number text. -/
theorem parseJSON_formatDecimal (x : Decimal) (hc : x.Canonical) (fuel : Nat)
    (rest : List Char) :
    parseJSON (fuel + 1) Expect.value (formatDecimal x ++ ',' :: rest)
      = some (JVal.num x, ',' :: rest) := by
  obtain ⟨c, t, htext, hdc⟩ := magnitudeText_head x.mant x.exp
  have hu : parseUnsigned x.neg (c :: t ++ ',' :: rest)
      = some (⟨x.neg, x.mant, x.exp⟩, ',' :: rest) := by
    rw [← htext]
    by_cases hm : x.mant = 0
    · have hex := hc.1 hm
      rw [hm, hex, magnitudeText_zero]
      rfl
    · exact parseUnsigned_magnitudeText x.mant x.exp hm (hc.2 hm) x.neg rest
  have key := parseJSON_number fuel x.neg c (t ++ ',' :: rest) _ _ hdc hu
  rw [formatDecimal_eq, htext]
  simpa using key

/-! ## The nearest `float64` of a decimal number -/

theorem Decimal.den_pos (d : Decimal) : 0 < d.den := by
  unfold Decimal.den
  split_ifs
  · exact Nat.one_pos
  · positivity

theorem roundBits_scale (c a b : Nat) (hc : 0 < c) :
    roundBits (c * a) (c * b) = roundBits a b := by
  have hs : c * a * 2 ^ 1074 / (c * b) = a * 2 ^ 1074 / b := by
    rw [Nat.mul_assoc, Nat.mul_div_mul_left _ _ hc]
  unfold roundBits
  simp only [hs]
  have h1 : ∀ x y : Nat, (c * a * x < c * b * y) ↔ (a * x < b * y) := by
    intro x y
    rw [Nat.mul_assoc, Nat.mul_assoc]
    exact Nat.mul_lt_mul_left hc
  have h2 : ∀ x y : Nat, (c * b * y < c * a * x) ↔ (b * y < a * x) := by
    intro x y
    rw [Nat.mul_assoc, Nat.mul_assoc]
    exact Nat.mul_lt_mul_left hc
  simp only [Nat.mul_assoc (c * b), Nat.mul_assoc b, h1, h2]

theorem roundRatio_scale (c a b : Nat) (hc : 0 < c) :
    roundRatio (c * a) (c * b) = roundRatio a b := by
  have hs : c * a * 2 ^ 1074 / (c * b) = a * 2 ^ 1074 / b := by
    rw [Nat.mul_assoc, Nat.mul_div_mul_left _ _ hc]
  unfold roundRatio
  simp only [hs, roundBits_scale c a b hc]

theorem toFloat64_congr {d d' : Decimal} (hn : d'.neg = d.neg)
    (hm : d'.mant = 0 ↔ d.mant = 0)
    (h : roundRatio d'.num d'.den = roundRatio d.num d.den) : d'.toFloat64 = d.toFloat64 := by
  unfold Decimal.toFloat64
  rw [h, hn]
  by_cases h0 : d.mant = 0
  · rw [if_pos h0, if_pos (hm.mpr h0)]
  · rw [if_neg h0, if_neg (fun h1 => h0 (hm.mp h1))]

theorem toFloat64_strip (s : Bool) (m : Nat) (e : Int) (h : m % 10 = 0) :
    (⟨s, m / 10, e + 1⟩ : Decimal).toFloat64 = (⟨s, m, e⟩ : Decimal).toFloat64 := by
  refine @toFloat64_congr ⟨s, m, e⟩ ⟨s, m / 10, e + 1⟩ rfl ?_ ?_
  · show m / 10 = 0 ↔ m = 0
    omega
  have hm : m = 10 * (m / 10) := by omega
  by_cases he : 0 ≤ e
  · have he1 : 0 ≤ e + 1 := by omega
    have h1 : (e + 1).toNat = e.toNat + 1 := by omega
    simp only [Decimal.num, Decimal.den, he, he1, if_true, h1, pow_succ]
    congr 1
    conv_rhs => rw [hm]
    ring
  · by_cases he1 : 0 ≤ e + 1
    · have h0 : e + 1 = 0 := by omega
      have h1 : (-e).toNat = 1 := by omega
      simp only [Decimal.num, Decimal.den, he, he1, if_true, if_false, h0, h1, Int.toNat_zero,
        pow_zero, pow_one, Nat.mul_one]
      conv_rhs => rw [hm]
      have := roundRatio_scale 10 (m / 10) 1 (by decide)
      simpa using this.symm
    · have h1 : (-e).toNat = (-(e + 1)).toNat + 1 := by omega
      simp only [Decimal.num, Decimal.den, he, he1, if_false, h1, pow_succ]
      conv_rhs => rw [hm, Nat.mul_comm (10 ^ _) 10]
      exact (roundRatio_scale 10 _ _ (by decide)).symm

theorem stripZeros_toFloat64 (s : Bool) (fuel : Nat) : ∀ (m : Nat) (e : Int),
    (⟨s, (stripZeros fuel m e).1, (stripZeros fuel m e).2⟩ : Decimal).toFloat64
      = (⟨s, m, e⟩ : Decimal).toFloat64 := by
  induction fuel with
  | zero => intro m e; rfl
  | succ n ih =>
    intro m e
    unfold stripZeros
    split_ifs with h
    · rw [ih, toFloat64_strip s m e h]
    · rfl

theorem toFloat64_zero (s : Bool) (e : Int) :
    (⟨s, 0, e⟩ : Decimal).toFloat64 = some ⟨s, 0⟩ := by
  simp [Decimal.toFloat64]

theorem toFloat64_canon (d : Decimal) : d.canon.toFloat64 = d.toFloat64 := by
  unfold Decimal.canon
  split_ifs with h
  · obtain ⟨s, m, e⟩ := d
    simp only at h
    subst h
    rw [toFloat64_zero, toFloat64_zero]
  · exact stripZeros_toFloat64 d.neg d.mant d.mant d.exp

theorem canon_neg (d : Decimal) : d.canon.neg = d.neg := by
  unfold Decimal.canon
  split_ifs <;> rfl

theorem stripZeros_ne_zero (fuel : Nat) : ∀ (m : Nat) (e : Int), m ≠ 0 →
    (stripZeros fuel m e).1 ≠ 0 := by
  induction fuel with
  | zero => intro m e h; exact h
  | succ n ih =>
    intro m e h
    unfold stripZeros
    split_ifs with h10
    · exact ih _ _ (by omega)
    · exact h

theorem stripZeros_mod (fuel : Nat) : ∀ (m : Nat) (e : Int), m ≠ 0 → m ≤ fuel →
    (stripZeros fuel m e).1 % 10 ≠ 0 := by
  induction fuel with
  | zero => intro m e h hf; omega
  | succ n ih =>
    intro m e h hf
    unfold stripZeros
    split_ifs with h10
    · exact ih _ _ (by omega) (by omega)
    · exact h10

theorem canon_canonical (d : Decimal) : d.canon.Canonical := by
  unfold Decimal.canon
  split_ifs with h
  · exact ⟨fun _ => rfl, fun h0 => absurd rfl h0⟩
  · refine ⟨fun h0 => absurd h0 (stripZeros_ne_zero _ _ _ h), fun _ => ?_⟩
    exact stripZeros_mod _ _ _ h (Nat.le_refl _)

theorem halve_mul_pow (m : Nat) (hm : m < 9007199254740992) :
    ∀ (j fuel sh : Nat), j < fuel → (j = 0 ∨ 4503599627370496 ≤ m) →
      halve fuel (m * 2 ^ j) sh = (sh + j, m) := by
  intro j
  induction j with
  | zero =>
    intro fuel sh hf _
    obtain ⟨n, rfl⟩ : ∃ n, fuel = n + 1 := ⟨fuel - 1, by omega⟩
    simp [halve, hm]
  | succ j ih =>
    intro fuel sh hf hj
    obtain ⟨n, rfl⟩ : ∃ n, fuel = n + 1 := ⟨fuel - 1, by omega⟩
    have hT : 4503599627370496 ≤ m := by
      rcases hj with h | h
      · omega
      · exact h
    have hp : 0 < 2 ^ j := by positivity
    have e : m * 2 ^ (j + 1) = 2 * (m * 2 ^ j) := by rw [pow_succ]; ring
    have hge : ¬ (m * 2 ^ (j + 1) < 9007199254740992) := by
      have : m * 1 ≤ m * 2 ^ j := Nat.mul_le_mul_left m hp
      omega
    have hdiv : m * 2 ^ (j + 1) / 2 = m * 2 ^ j := by omega
    rw [halve, if_neg hge, hdiv, ih n (sh + 1) (by omega) (Or.inr hT)]
    congr 1
    omega

theorem five_pow_mul_two_pow (n : Nat) : (5 : Nat) ^ n * 2 ^ n = 10 ^ n := by
  rw [← Nat.mul_pow]

theorem mul_two_pow_lt (q sh n : Nat) (hq : q < 9007199254740992) (h : sh ≤ n) :
    q * 2 ^ sh < 2 ^ (53 + n) := by
  have e53 : (2 : Nat) ^ 53 = 9007199254740992 := by norm_num
  have h1 : (2 : Nat) ^ sh ≤ 2 ^ n := Nat.pow_le_pow_right (by decide) h
  rw [pow_add, e53]
  calc q * 2 ^ sh ≤ q * 2 ^ n := Nat.mul_le_mul_left q h1
    _ < 9007199254740992 * 2 ^ n := Nat.mul_lt_mul_of_pos_right hq (by positivity)

theorem roundRatio_exact (q sh : Nat) (hq : q < 9007199254740992)
    (hs : sh = 0 ∨ 4503599627370496 ≤ q) (hsh : sh < 2046)
    (hk : sh * 4503599627370496 + q < 9218868437227405312) :
    roundRatio (q * 2 ^ sh * 5 ^ 1074) (10 ^ 1074) = some ⟨sh * 4503599627370496 + q, hk⟩ := by
  have h10 : 0 < 10 ^ 1074 := by positivity
  have h25 : (5 : Nat) ^ 1074 * 2 ^ 1074 = 10 ^ 1074 := five_pow_mul_two_pow 1074
  have hS : q * 2 ^ sh * 5 ^ 1074 * 2 ^ 1074 / 10 ^ 1074 = q * 2 ^ sh := by
    rw [Nat.mul_assoc (q * 2 ^ sh), h25]
    exact Nat.mul_div_cancel _ h10
  have hh : halve 2046 (q * 2 ^ sh) 0 = (sh, q) := by
    rw [halve_mul_pow q hq sh 2046 0 hsh hs]
    simp
  have hlt : q * 2 ^ sh < 2 ^ 2098 := by
    have h := mul_two_pow_lt q sh 2045 hq (Nat.le_of_lt_succ hsh)
    have e : 53 + 2045 = 2098 := rfl
    rw [e] at h
    exact h
  have hr : roundBits (q * 2 ^ sh * 5 ^ 1074) (10 ^ 1074) = sh * 4503599627370496 + q := by
    unfold roundBits
    simp only [hS, hh]
    have e1 : q * 2 ^ sh * 5 ^ 1074 * 2 ^ 1075 = 10 ^ 1074 * 2 ^ sh * (2 * q) := by
      rw [← h25, show (1075 : Nat) = 1074 + 1 from rfl, pow_succ]
      ring
    have hpos : 0 < 10 ^ 1074 * 2 ^ sh := by positivity
    have hlt2 : q * 2 ^ sh * 5 ^ 1074 * 2 ^ 1075 < 10 ^ 1074 * 2 ^ sh * (2 * q + 1) := by
      rw [e1]
      exact Nat.mul_lt_mul_of_pos_left (by omega) hpos
    rw [if_pos hlt2]
  unfold roundRatio
  rw [hS, if_neg (by omega)]
  simp only [hr, hk, dif_pos]

theorem toFloat64_exact (x : Float64) (hx : x.bits.val ≠ 0) : x.exact.toFloat64 = some x := by
  obtain ⟨s, k, hk⟩ := x
  simp only at hx
  have hneg : ¬ ((0 : Int) ≤ -1074) := by decide
  have hden : (Float64.exact ⟨s, ⟨k, hk⟩⟩).den = 10 ^ 1074 := by
    show (if (0 : Int) ≤ -1074 then 1 else 10 ^ (-(-1074 : Int)).toNat) = 10 ^ 1074
    rw [if_neg hneg]
    exact congrArg (fun n => 10 ^ n) (by decide)
  have hnum : (Float64.exact ⟨s, ⟨k, hk⟩⟩).num
      = (Float64.scaled ⟨s, ⟨k, hk⟩⟩) * 5 ^ 1074 := by
    show (if (0 : Int) ≤ -1074 then _ else _) = _
    rw [if_neg hneg]
    rfl
  have hpos : (Float64.scaled ⟨s, ⟨k, hk⟩⟩) ≠ 0 := by
    unfold Float64.scaled
    simp only
    split_ifs
    · exact hx
    · exact Nat.mul_ne_zero (by omega) (pow_ne_zero _ (by decide))
  have hm : (Float64.exact ⟨s, ⟨k, hk⟩⟩).mant ≠ 0 :=
    Nat.mul_ne_zero hpos (pow_ne_zero _ (by decide))
  unfold Decimal.toFloat64
  rw [if_neg hm, hnum, hden]
  unfold Float64.scaled
  simp only
  by_cases hsub : k < 4503599627370496
  · rw [if_pos hsub]
    have key := roundRatio_exact k 0 (by omega) (Or.inl rfl) (by decide)
      (by simpa using hk)
    simp only [pow_zero, Nat.mul_one, Nat.zero_mul, Nat.zero_add] at key
    rw [key]
    rfl
  · rw [if_neg hsub]
    have hk' : (k / 4503599627370496 - 1) * 4503599627370496
        + (4503599627370496 + k % 4503599627370496) = k := by omega
    have key := roundRatio_exact (4503599627370496 + k % 4503599627370496)
      (k / 4503599627370496 - 1) (by omega) (Or.inr (by omega)) (by omega)
      (by rw [hk']; exact hk)
    rw [key]
    simp only [hk']
    rfl

theorem roundsTo_iff (x : Float64) (d : Decimal) : roundsTo x d = true ↔ d.toFloat64 = some x := by
  simp [roundsTo]

theorem shortestFrom_spec (x : Float64) (D : Nat)
    (hD : (⟨x.neg, D, -1074⟩ : Decimal).toFloat64 = some x) : ∀ p : Nat,
    (shortestFrom x D p).Canonical ∧ (shortestFrom x D p).toFloat64 = some x
      ∧ (shortestFrom x D p).neg = x.neg := by
  intro p
  induction p with
  | zero =>
    unfold shortestFrom
    exact ⟨canon_canonical _, by rw [toFloat64_canon, hD], canon_neg _⟩
  | succ p ih =>
    unfold shortestFrom
    simp only
    have clo := canon_canonical ⟨x.neg, D / 10 ^ p, (p : Int) - 1074⟩
    have chi := canon_canonical ⟨x.neg, D / 10 ^ p + 1, (p : Int) - 1074⟩
    have nlo := canon_neg ⟨x.neg, D / 10 ^ p, (p : Int) - 1074⟩
    have nhi := canon_neg ⟨x.neg, D / 10 ^ p + 1, (p : Int) - 1074⟩
    by_cases h1 : roundsTo x (Decimal.canon ⟨x.neg, D / 10 ^ p, (p : Int) - 1074⟩) = true
    · have rlo := (roundsTo_iff _ _).mp h1
      by_cases h2 : roundsTo x
          (Decimal.canon ⟨x.neg, D / 10 ^ p + 1, (p : Int) - 1074⟩) = true
      · have rhi := (roundsTo_iff _ _).mp h2
        simp only [h1, h2, Bool.and_self, if_true]
        split_ifs
        · exact ⟨clo, rlo, nlo⟩
        · exact ⟨chi, rhi, nhi⟩
        · exact ⟨clo, rlo, nlo⟩
        · exact ⟨chi, rhi, nhi⟩
      · simp only [h1, h2, Bool.and_false, if_true]
        exact ⟨clo, rlo, nlo⟩
    · by_cases h2 : roundsTo x
          (Decimal.canon ⟨x.neg, D / 10 ^ p + 1, (p : Int) - 1074⟩) = true
      · have rhi := (roundsTo_iff _ _).mp h2
        simp only [h1, h2, Bool.false_and, if_true]
        exact ⟨chi, rhi, nhi⟩
      · simp only [h1, h2, Bool.false_and]
        exact ih

theorem shortest_spec (x : Float64) :
    (shortest x).Canonical ∧ (shortest x).toFloat64 = some x ∧ (shortest x).neg = x.neg := by
  unfold shortest
  split_ifs with h
  · refine ⟨⟨fun _ => rfl, fun h0 => absurd rfl h0⟩, ?_, rfl⟩
    rw [toFloat64_zero]
    obtain ⟨s, k, hk⟩ := x
    simp only at h
    subst h
    rfl
  · exact shortestFrom_spec x _ (toFloat64_exact x h) _

/-- Every `float64` reads back from its number text. -/
theorem Float64.readsBack (x : Float64) : x.ReadsBack :=
  ⟨(shortest_spec x).2.1, fun fuel rest => parseJSON_formatDecimal _ (shortest_spec x).1 fuel rest⟩

theorem encodeChars_eq (a : Asset) :
    encodeChars a = '\x7b' :: '"' :: (escapeChars ['I', 'D'] ++ '"' :: ':' ::
      ('"' :: (escapeChars a.ID.data ++ '"' :: ',' :: '"' ::
      (escapeChars ['N', 'a', 'm', 'e'] ++ '"' :: ':' ::
      ('"' :: (escapeRunes (runes a.Name) ++ '"' :: ',' :: '"' ::
      (escapeChars ['T', 'e', 'm', 'p', 'e', 'r', 'a', 't', 'u', 'r', 'e'] ++ '"' :: ':' ::
      (formatFloat a.Temperature ++ ',' :: '"' ::
      (escapeChars ['T', 'i', 'm', 'e', 's', 't', 'a', 'm', 'p'] ++ '"' :: ':' ::
      ('"' :: (escapeChars a.Timestamp.data ++ '"' :: '\x7d' :: []))))))))))) := by
  simp [encodeChars, quote, quoteGo, escapeChars, escapeChar]

theorem decodeChars_encodeChars (a : Asset) :
    decodeChars (encodeChars a) = Except.ok { a with Name := a.Name.coerced } := by
  have h := Float64.readsBack a.Temperature
  obtain ⟨n, hn⟩ : ∃ n, (encodeChars a).length = n + 4 :=
    ⟨(encodeChars a).length - 4, by simp [encodeChars, quote, quoteGo]⟩
  unfold decodeChars
  rw [hn, encodeChars_eq]
  simp only [skipWS_cons _ _ (show isWS '\x7b' = false from rfl),
    skipWS_cons _ _ (show isWS '"' = false from rfl)]
  have hne : ('"' = '\x7d') = False := by decide
  simp only [if_true, hne, if_false]
  rw [decodeMembers_member (n + 4) (n + 3) Asset.zeroValue
      { Asset.zeroValue with ID := a.ID } ['I', 'D'] _ _ (JVal.str a.ID.data) ',' rfl
      (parseJSON_string _ _ _) rfl]
  simp only [afterMember, if_true]
  rw [decodeMembers_member (n + 4) (n + 2) { Asset.zeroValue with ID := a.ID }
      { Asset.zeroValue with ID := a.ID, Name := a.Name.coerced } ['N', 'a', 'm', 'e'] _ _
      (JVal.str a.Name.toChars) ',' rfl (parseJSON_goString _ _ _) rfl]
  simp only [afterMember, if_true]
  rw [decodeMembers_member (n + 4) (n + 1)
      { Asset.zeroValue with ID := a.ID, Name := a.Name.coerced }
      { Asset.zeroValue with ID := a.ID, Name := a.Name.coerced, Temperature := a.Temperature }
      ['T', 'e', 'm', 'p', 'e', 'r', 'a', 't', 'u', 'r', 'e'] _ _
      (JVal.num (shortest a.Temperature)) ',' rfl (h.2 _ _) (by simp [setField, h.1])]
  simp only [afterMember, if_true]
  rw [decodeMembers_member (n + 4) n
      { Asset.zeroValue with ID := a.ID, Name := a.Name.coerced, Temperature := a.Temperature }
      { a with Name := a.Name.coerced } ['T', 'i', 'm', 'e', 's', 't', 'a', 'm', 'p'] _ _
      (JVal.str a.Timestamp.data) '\x7d' rfl (parseJSON_string _ _ _) rfl]
  simp [afterMember, skipWS]

theorem Decode_Encode_coerced (a : Asset) :
    Decode (Encode a) = Except.ok { a with Name := a.Name.coerced } :=
  decodeChars_encodeChars a

theorem Decode_Encode (a : Asset) (hn : a.Name.valid = true) :
    Decode (Encode a) = Except.ok a := by
  rw [Decode_Encode_coerced a, GoString.coerced_of_valid hn]

/-! ## The world state as a map -/

theorem Store.ext {s t : Store} (h : s.entries = t.entries) : s = t := by
  cases s; cases t; simp_all

theorem lookupKV_insertKV_self (key value : String) (l : List KV) :
    lookupKV key (insertKV key value l) = some value := by
  induction l with
  | nil => simp [insertKV, lookupKV]
  | cons e rest ih =>
    unfold insertKV
    split_ifs with h1 h2
    · simp [lookupKV]
    · simp [lookupKV]
    · simp [lookupKV, h2, ih]

theorem lookupKV_insertKV_of_ne {key k : String} (h : k ≠ key) (value : String) (l : List KV) :
    lookupKV k (insertKV key value l) = lookupKV k l := by
  induction l with
  | nil => simp [insertKV, lookupKV, h]
  | cons e rest ih =>
    unfold insertKV
    split_ifs with h1 h2
    · simp [lookupKV, h]
    · simp [lookupKV, h, ← h2]
    · simp [lookupKV, ih]

theorem lookupKV_eraseKV_self (key : String) (l : List KV) :
    lookupKV key (eraseKV key l) = none := by
  induction l with
  | nil => simp [eraseKV, lookupKV]
  | cons e rest ih =>
    by_cases h : e.1 = key
    · simpa [eraseKV, h] using ih
    · have h' : ¬ key = e.1 := fun h' => h h'.symm
      simpa [eraseKV, h, lookupKV, h'] using ih

theorem lookupKV_eraseKV_of_ne {key k : String} (h : k ≠ key) (l : List KV) :
    lookupKV k (eraseKV key l) = lookupKV k l := by
  induction l with
  | nil => simp [eraseKV, lookupKV]
  | cons e rest ih =>
    by_cases h1 : e.1 = key
    · have h' : ¬ k = e.1 := fun h' => h (h'.trans h1)
      simpa [eraseKV, h1, lookupKV, h', h] using ih
    · by_cases h2 : k = e.1
      · simp [eraseKV, h1, lookupKV, h2]
      · simpa [eraseKV, h1, lookupKV, h2] using ih

theorem lookupKV_eq_none_of_lt {key : String} {l : List KV}
    (h : ∀ e ∈ l, keyLt key e.1 = true) : lookupKV key l = none := by
  induction l with
  | nil => simp [lookupKV]
  | cons e rest ih =>
    have h1 : key ≠ e.1 := ne_of_lt ((keyLt_iff _ _).mp (h e (List.mem_cons_self _ _)))
    simp [lookupKV, h1, ih (fun x hx => h x (List.mem_cons_of_mem _ hx))]

theorem lookupKV_of_mem {l : List KV} (hl : KeysAscending l) {e : KV} (he : e ∈ l) :
    lookupKV e.1 l = some e.2 := by
  induction l with
  | nil => simp at he
  | cons x rest ih =>
    have hx := (List.pairwise_cons.mp hl).1
    rcases List.mem_cons.mp he with h | h
    · simp [lookupKV, h]
    · have h1 : e.1 ≠ x.1 := ne_of_gt ((keyLt_iff _ _).mp (hx e h))
      simp [lookupKV, h1, ih (List.pairwise_cons.mp hl).2 h]

theorem mem_of_lookupKV {key value : String} {l : List KV}
    (h : lookupKV key l = some value) : (key, value) ∈ l := by
  induction l with
  | nil => simp [lookupKV] at h
  | cons x rest ih =>
    unfold lookupKV at h
    split_ifs at h with h1
    · have : x = (key, value) := by
        cases x; simp_all
      simp [this]
    · exact List.mem_cons_of_mem _ (ih h)

theorem insertKV_of_lookupKV {key value : String} {l : List KV} (hl : KeysAscending l)
    (h : lookupKV key l = some value) : insertKV key value l = l := by
  induction l with
  | nil => simp [lookupKV] at h
  | cons x rest ih =>
    have hx := (List.pairwise_cons.mp hl).1
    unfold insertKV
    split_ifs with h1 h2
    · exfalso
      have : lookupKV key (x :: rest) = none :=
        lookupKV_eq_none_of_lt (by
          intro e he
          rcases List.mem_cons.mp he with he | he
          · simpa [he] using h1
          · exact (keyLt_iff _ _).mpr
              (lt_trans ((keyLt_iff _ _).mp h1) ((keyLt_iff _ _).mp (hx e he))))
      simp [this] at h
    · have : x = (key, value) := by
        cases x; simp_all [lookupKV]
      simp [this]
    · have h3 : lookupKV key rest = some value := by
        simpa [lookupKV, h2] using h
      rw [ih (List.pairwise_cons.mp hl).2 h3]

theorem rangeKV_all (l : List KV) : rangeKV "" "" l = l := by
  simp [rangeKV]

theorem Store.get_put_self (s : Store) (key value : String) :
    (s.put key value).get key = some value :=
  lookupKV_insertKV_self key value s.entries

theorem Store.get_put_of_ne (s : Store) {key k : String} (h : k ≠ key) (value : String) :
    (s.put key value).get k = s.get k :=
  lookupKV_insertKV_of_ne h value s.entries

theorem Store.get_delete_self (s : Store) (key : String) : (s.delete key).get key = none :=
  lookupKV_eraseKV_self key s.entries

theorem Store.get_delete_of_ne (s : Store) {key k : String} (h : k ≠ key) :
    (s.delete key).get k = s.get k :=
  lookupKV_eraseKV_of_ne h s.entries

theorem Store.put_of_get {s : Store} {key value : String} (h : s.get key = some value) :
    s.put key value = s :=
  Store.ext (insertKV_of_lookupKV s.ascending h)

theorem Store.range_all (s : Store) : s.range "" "" = s.entries := rangeKV_all s.entries

theorem Store.get_of_mem (s : Store) {e : KV} (he : e ∈ s.entries) : s.get e.1 = some e.2 :=
  lookupKV_of_mem s.ascending he

/-! ## Store calls -/

theorem Stub.enter_state (ctx : Stub) (c : Call) : (ctx.enter c).2.state = ctx.state := by
  unfold Stub.enter; split <;> rfl

theorem Stub.enter_log (ctx : Stub) (c : Call) : (ctx.enter c).2.log = ctx.log ++ [c] := by
  unfold Stub.enter; split <;> rfl

theorem Stub.enter_faults (ctx : Stub) (c : Call) : (ctx.enter c).2.faults = ctx.faults.tail := by
  unfold Stub.enter; split <;> simp_all

theorem Stub.enter_of_noFaults {ctx : Stub} (h : ctx.NoFaults) (c : Call) :
    ctx.enter c = (none, ⟨ctx.state, ctx.faults.tail, ctx.log ++ [c]⟩) := by
  unfold Stub.enter
  split
  · next h0 => simp [h0]
  · next f fs h0 =>
    have : f = none := h f (by simp [h0])
    simp [h0, this]

theorem Stub.noFaults_tail {ctx : Stub} (h : ctx.NoFaults) (s : Store) (l : List Call) :
    Stub.NoFaults ⟨s, ctx.faults.tail, l⟩ := by
  intro f hf
  exact h f (List.mem_of_mem_tail hf)

theorem GetState_of_noFaults {ctx : Stub} (h : ctx.NoFaults) (key : String) :
    GetState ctx key
      = (Except.ok (ctx.state.get key),
          ⟨ctx.state, ctx.faults.tail, ctx.log ++ [Call.GetState key]⟩) := by
  simp [GetState, Stub.enter_of_noFaults h]

theorem PutState_of_noFaults {ctx : Stub} (h : ctx.NoFaults) (key value : String) :
    PutState ctx key value
      = (Except.ok (),
          ⟨ctx.state.put key value, ctx.faults.tail, ctx.log ++ [Call.PutState key value]⟩) := by
  simp [PutState, Stub.enter_of_noFaults h]

theorem DelState_of_noFaults {ctx : Stub} (h : ctx.NoFaults) (key : String) :
    DelState ctx key
      = (Except.ok (),
          ⟨ctx.state.delete key, ctx.faults.tail, ctx.log ++ [Call.DelState key]⟩) := by
  simp [DelState, Stub.enter_of_noFaults h]

theorem GetStateByRange_of_noFaults {ctx : Stub} (h : ctx.NoFaults) (startKey endKey : String) :
    GetStateByRange ctx startKey endKey
      = (Except.ok ⟨ctx.state.range startKey endKey⟩,
          ⟨ctx.state, ctx.faults.tail, ctx.log ++ [Call.GetStateByRange startKey endKey]⟩) := by
  simp [GetStateByRange, Stub.enter_of_noFaults h]

theorem Next_of_noFaults {ctx : Stub} (h : ctx.NoFaults) (kv : KV) :
    Next ctx kv = (Except.ok kv, ⟨ctx.state, ctx.faults.tail, ctx.log ++ [Call.Next]⟩) := by
  simp [Next, Stub.enter_of_noFaults h]

/-! ## The operations when no store call fails -/

theorem AssetExists_of_noFaults {ctx : Stub} (h : ctx.NoFaults) (id : String) :
    AssetExists ctx id
      = (Except.ok (ctx.state.get id).isSome,
          ⟨ctx.state, ctx.faults.tail, ctx.log ++ [Call.GetState id]⟩) := by
  simp [AssetExists, GetState_of_noFaults h]

theorem ReadAsset_of_noFaults {ctx : Stub} (h : ctx.NoFaults) (id : String) :
    (ReadAsset ctx id).1 =
      match ctx.state.get id with
      | none => Except.error ("the asset " ++ id ++ " does not exist")
      | some bytes => Decode bytes := by
  simp only [ReadAsset, GetState_of_noFaults h, jsonUnmarshal]
  cases ctx.state.get id with
  | none => rfl
  | some bytes =>
    simp only
    cases Decode bytes <;> rfl

theorem CreateAsset_of_absent {ctx : Stub} (h : ctx.NoFaults) {id : String} (name : GoString)
    (ha : ctx.state.get id = none) :
    CreateAsset ctx id name
      = (Except.ok (),
          ⟨ctx.state.put id (Encode ⟨id, name, Float64.zero, ""⟩), ctx.faults.tail.tail,
            ctx.log ++ [Call.GetState id,
              Call.PutState id (Encode ⟨id, name, Float64.zero, ""⟩)]⟩) := by
  have h1 := Stub.noFaults_tail h ctx.state (ctx.log ++ [Call.GetState id])
  simp [CreateAsset, AssetExists_of_noFaults h, ha, jsonMarshal, PutState_of_noFaults h1]

theorem CreateAsset_of_present {ctx : Stub} (h : ctx.NoFaults) {id : String} (name : GoString)
    {bytes : String} (hp : ctx.state.get id = some bytes) :
    CreateAsset ctx id name
      = (Except.error ("the asset " ++ id ++ " already exists"),
          ⟨ctx.state, ctx.faults.tail, ctx.log ++ [Call.GetState id]⟩) := by
  simp [CreateAsset, AssetExists_of_noFaults h, hp]

theorem DeleteAsset_of_present {ctx : Stub} (h : ctx.NoFaults) {id : String}
    {bytes : String} (hp : ctx.state.get id = some bytes) :
    DeleteAsset ctx id
      = (Except.ok (),
          ⟨ctx.state.delete id, ctx.faults.tail.tail,
            ctx.log ++ [Call.GetState id, Call.DelState id]⟩) := by
  have h1 := Stub.noFaults_tail h ctx.state (ctx.log ++ [Call.GetState id])
  simp [DeleteAsset, AssetExists_of_noFaults h, hp, DelState_of_noFaults h1]

theorem DeleteAsset_of_absent {ctx : Stub} (h : ctx.NoFaults) {id : String}
    (ha : ctx.state.get id = none) :
    DeleteAsset ctx id
      = (Except.error ("the asset " ++ id ++ " does not exist"),
          ⟨ctx.state, ctx.faults.tail, ctx.log ++ [Call.GetState id]⟩) := by
  simp [DeleteAsset, AssetExists_of_noFaults h, ha]

theorem Stub.noFaults_drop {ctx : Stub} (h : ctx.NoFaults) (n : Nat) (s : Store) (l : List Call) :
    Stub.NoFaults ⟨s, ctx.faults.drop n, l⟩ := by
  intro f hf
  exact h f (List.mem_of_mem_drop hf)

theorem InitLedger_loop_of_noFaults (assets : List Asset) :
    ∀ {ctx : Stub}, ctx.NoFaults →
      InitLedger.loop assets ctx
        = (Except.ok (),
            ⟨assets.foldl (fun s a => s.put a.ID (Encode a)) ctx.state,
              ctx.faults.drop assets.length,
              ctx.log ++ assets.map (fun a => Call.PutState a.ID (Encode a))⟩) := by
  induction assets with
  | nil => intro ctx _; simp [InitLedger.loop]
  | cons a rest ih =>
    intro ctx h
    have h1 := Stub.noFaults_tail h (ctx.state.put a.ID (Encode a))
      (ctx.log ++ [Call.PutState a.ID (Encode a)])
    simp [InitLedger.loop, jsonMarshal, PutState_of_noFaults h, ih h1]

theorem InitLedger_of_noFaults {ctx : Stub} (h : ctx.NoFaults) :
    InitLedger ctx
      = (Except.ok (),
            ⟨seedAssets.foldl (fun s a => s.put a.ID (Encode a)) ctx.state,
              ctx.faults.drop 3,
              ctx.log ++ seedAssets.map (fun a => Call.PutState a.ID (Encode a))⟩) :=
  InitLedger_loop_of_noFaults seedAssets h

theorem GetAllAssets_loop_of_noFaults (l : List KV) :
    ∀ {ctx : Stub} (acc assets : List Asset), ctx.NoFaults →
      List.Forall₂ (fun (e : KV) a => Decode e.2 = Except.ok a) l assets →
      GetAllAssets.loop l ctx acc
        = (Except.ok (acc ++ assets),
            ⟨ctx.state, ctx.faults.drop l.length,
              ctx.log ++ List.replicate l.length Call.Next⟩) := by
  induction l with
  | nil =>
    intro ctx acc assets _ hd
    cases hd
    simp [GetAllAssets.loop]
  | cons e rest ih =>
    intro ctx acc assets h hd
    cases hd with
    | cons h1 h2 =>
      have h3 := Stub.noFaults_tail h ctx.state (ctx.log ++ [Call.Next])
      simp [GetAllAssets.loop, Next_of_noFaults h, jsonUnmarshal, h1, ih _ _ h3 h2,
        List.replicate_succ]

theorem GetAllAssets_of_noFaults {ctx : Stub} (h : ctx.NoFaults) {assets : List Asset}
    (hd : List.Forall₂ (fun (e : KV) a => Decode e.2 = Except.ok a) ctx.state.entries assets) :
    (GetAllAssets ctx).1 = Except.ok assets := by
  have h1 := Stub.noFaults_tail h ctx.state (ctx.log ++ [Call.GetStateByRange "" ""])
  simp [GetAllAssets, GetStateByRange_of_noFaults h, Store.range_all,
    GetAllAssets_loop_of_noFaults _ [] assets h1 hd]

theorem DeleteAllAssets_loop_of_noFaults (l : List KV) :
    ∀ {ctx : Stub}, ctx.NoFaults →
      (DeleteAllAssets.loop l ctx).1 = Except.ok () ∧
      (DeleteAllAssets.loop l ctx).2.state.entries
        = ctx.state.entries.filter (fun e => decide (e.1 ∉ l.map Prod.fst)) ∧
      (DeleteAllAssets.loop l ctx).2.NoFaults := by
  induction l with
  | nil => intro ctx h; simp [DeleteAllAssets.loop, h]
  | cons e rest ih =>
    intro ctx h
    have h1 := Stub.noFaults_tail h ctx.state (ctx.log ++ [Call.Next])
    have h2 := Stub.noFaults_tail h1 (ctx.state.delete e.1)
      (ctx.log ++ [Call.Next] ++ [Call.DelState e.1])
    have := ih h2
    simp only [DeleteAllAssets.loop, Next_of_noFaults h, DelState_of_noFaults h1]
    refine ⟨this.1, ?_, this.2.2⟩
    rw [this.2.1]
    simp [Store.delete, eraseKV, List.filter_filter]
    apply List.filter_congr
    intro x _
    by_cases hx : x.1 = e.1 <;> simp [hx]

theorem DeleteAllAssets_of_noFaults {ctx : Stub} (h : ctx.NoFaults) :
    (DeleteAllAssets ctx).1 = Except.ok () ∧ (DeleteAllAssets ctx).2.state = Store.empty ∧
      (DeleteAllAssets ctx).2.NoFaults := by
  have h1 := Stub.noFaults_tail h ctx.state (ctx.log ++ [Call.GetStateByRange "" ""])
  have := DeleteAllAssets_loop_of_noFaults ctx.state.entries h1
  simp only [DeleteAllAssets, GetStateByRange_of_noFaults h, Store.range_all]
  refine ⟨this.1, ?_, this.2.2⟩
  apply Store.ext
  rw [this.2.1]
  simp [Store.empty]
  intro a b hab
  exact ⟨b, hab⟩

/-! ## Store calls under any fault plan -/

theorem GetState_cases (ctx : Stub) (key : String) :
    (∃ e ctx1, GetState ctx key = (Except.error e, ctx1) ∧ ctx1.state = ctx.state) ∨
    (∃ ctx1, GetState ctx key = (Except.ok (ctx.state.get key), ctx1) ∧
      ctx1.state = ctx.state) := by
  have hs := Stub.enter_state ctx (Call.GetState key)
  unfold GetState
  rcases h : ctx.enter (Call.GetState key) with ⟨f, ctx1⟩
  rw [h] at hs
  cases f with
  | none => exact Or.inr ⟨ctx1, by simp [← hs], hs⟩
  | some e => exact Or.inl ⟨e, ctx1, rfl, hs⟩

theorem PutState_cases (ctx : Stub) (key value : String) :
    (∃ e ctx1, PutState ctx key value = (Except.error e, ctx1) ∧ ctx1.state = ctx.state) ∨
    (∃ ctx1, PutState ctx key value = (Except.ok (), ctx1) ∧
      ctx1.state = ctx.state.put key value) := by
  have hs := Stub.enter_state ctx (Call.PutState key value)
  unfold PutState
  rcases h : ctx.enter (Call.PutState key value) with ⟨f, ctx1⟩
  rw [h] at hs
  cases f with
  | none => exact Or.inr ⟨_, rfl, by simp [← hs]⟩
  | some e => exact Or.inl ⟨e, ctx1, rfl, hs⟩

theorem DelState_cases (ctx : Stub) (key : String) :
    (∃ e ctx1, DelState ctx key = (Except.error e, ctx1) ∧ ctx1.state = ctx.state) ∨
    (∃ ctx1, DelState ctx key = (Except.ok (), ctx1) ∧
      ctx1.state = ctx.state.delete key) := by
  have hs := Stub.enter_state ctx (Call.DelState key)
  unfold DelState
  rcases h : ctx.enter (Call.DelState key) with ⟨f, ctx1⟩
  rw [h] at hs
  cases f with
  | none => exact Or.inr ⟨_, rfl, by simp [← hs]⟩
  | some e => exact Or.inl ⟨e, ctx1, rfl, hs⟩

theorem GetStateByRange_cases (ctx : Stub) (startKey endKey : String) :
    (∃ e ctx1, GetStateByRange ctx startKey endKey = (Except.error e, ctx1) ∧
      ctx1.state = ctx.state) ∨
    (∃ ctx1, GetStateByRange ctx startKey endKey
        = (Except.ok ⟨ctx.state.range startKey endKey⟩, ctx1) ∧ ctx1.state = ctx.state) := by
  have hs := Stub.enter_state ctx (Call.GetStateByRange startKey endKey)
  unfold GetStateByRange
  rcases h : ctx.enter (Call.GetStateByRange startKey endKey) with ⟨f, ctx1⟩
  rw [h] at hs
  cases f with
  | none => exact Or.inr ⟨ctx1, by simp [← hs], hs⟩
  | some e => exact Or.inl ⟨e, ctx1, rfl, hs⟩

theorem Next_cases (ctx : Stub) (kv : KV) :
    (∃ e ctx1, Next ctx kv = (Except.error e, ctx1) ∧ ctx1.state = ctx.state) ∨
    (∃ ctx1, Next ctx kv = (Except.ok kv, ctx1) ∧ ctx1.state = ctx.state) := by
  have hs := Stub.enter_state ctx Call.Next
  unfold Next
  rcases h : ctx.enter Call.Next with ⟨f, ctx1⟩
  rw [h] at hs
  cases f with
  | none => exact Or.inr ⟨ctx1, rfl, hs⟩
  | some e => exact Or.inl ⟨e, ctx1, rfl, hs⟩

/-! ## Operations that never write -/

theorem AssetExists_state (ctx : Stub) (id : String) :
    (AssetExists ctx id).2.state = ctx.state := by
  unfold AssetExists
  rcases GetState_cases ctx id with ⟨e, ctx1, h, hs⟩ | ⟨ctx1, h, hs⟩ <;> simp [h, hs]

theorem ReadAsset_state (ctx : Stub) (id : String) :
    (ReadAsset ctx id).2.state = ctx.state := by
  unfold ReadAsset
  rcases GetState_cases ctx id with ⟨e, ctx1, h, hs⟩ | ⟨ctx1, h, hs⟩
  · simp [h, hs]
  · rw [h]
    cases ctx.state.get id with
    | none => simpa using hs
    | some bytes =>
      simp only
      cases jsonUnmarshal bytes <;> simpa using hs

theorem GetAllAssets_loop_state (l : List KV) :
    ∀ (ctx : Stub) (acc : List Asset), (GetAllAssets.loop l ctx acc).2.state = ctx.state := by
  induction l with
  | nil => intro ctx acc; rfl
  | cons e rest ih =>
    intro ctx acc
    unfold GetAllAssets.loop
    rcases Next_cases ctx e with ⟨err, ctx1, h, hs⟩ | ⟨ctx1, h, hs⟩
    · simp [h, hs]
    · rw [h]
      simp only
      cases jsonUnmarshal e.2 with
      | error err => simpa using hs
      | ok a => simpa [ih] using hs

theorem GetAllAssets_state (ctx : Stub) : (GetAllAssets ctx).2.state = ctx.state := by
  unfold GetAllAssets
  rcases GetStateByRange_cases ctx "" "" with ⟨e, ctx1, h, hs⟩ | ⟨ctx1, h, hs⟩
  · simp [h, hs]
  · simp [h, hs, GetAllAssets_loop_state]

/-! ## Operations that write -/

theorem AssetExists_cases (ctx : Stub) (id : String) :
    (∃ e ctx1, AssetExists ctx id = (Except.error e, ctx1) ∧ ctx1.state = ctx.state) ∨
    (∃ ctx1, AssetExists ctx id = (Except.ok (ctx.state.get id).isSome, ctx1) ∧
      ctx1.state = ctx.state) := by
  unfold AssetExists
  rcases GetState_cases ctx id with ⟨e, ctx1, h, hs⟩ | ⟨ctx1, h, hs⟩
  · exact Or.inl ⟨"failed to read from world state: " ++ e, ctx1, by simp [h], hs⟩
  · exact Or.inr ⟨ctx1, by simp [h], hs⟩

/-- The outcomes of `CreateAsset`: an error with the store as it was, or success with
the new record written under a key that was absent. -/
theorem CreateAsset_cases (ctx : Stub) (id : String) (name : GoString) :
    (∃ e, (CreateAsset ctx id name).1 = Except.error e ∧
      (CreateAsset ctx id name).2.state = ctx.state) ∨
    ((CreateAsset ctx id name).1 = Except.ok () ∧ ctx.state.get id = none ∧
      (CreateAsset ctx id name).2.state
        = ctx.state.put id (Encode ⟨id, name, Float64.zero, ""⟩)) := by
  unfold CreateAsset
  rcases AssetExists_cases ctx id with ⟨e, ctx1, h, hs⟩ | ⟨ctx1, h, hs⟩
  · exact Or.inl ⟨e, by simp [h], by simp [h, hs]⟩
  · rw [h]
    cases hg : ctx.state.get id with
    | some bytes =>
      exact Or.inl ⟨"the asset " ++ id ++ " already exists", by simp, by simp [hs]⟩
    | none =>
      simp only [Option.isSome_none, Bool.false_eq_true, if_false, jsonMarshal]
      rcases PutState_cases ctx1 id (Encode ⟨id, name, Float64.zero, ""⟩) with
        ⟨e, ctx2, h2, hs2⟩ | ⟨ctx2, h2, hs2⟩
      · exact Or.inl ⟨e, by simp [h2], by simp [h2, hs2, hs]⟩
      · exact Or.inr ⟨by simp [h2], trivial, by simp [h2, hs2, hs]⟩

/-- The outcomes of `DeleteAsset`: an error with the store as it was, or success with
the key, which was present, removed. -/
theorem DeleteAsset_cases (ctx : Stub) (id : String) :
    (∃ e, (DeleteAsset ctx id).1 = Except.error e ∧
      (DeleteAsset ctx id).2.state = ctx.state) ∨
    ((DeleteAsset ctx id).1 = Except.ok () ∧ (ctx.state.get id).isSome = true ∧
      (DeleteAsset ctx id).2.state = ctx.state.delete id) := by
  unfold DeleteAsset
  rcases AssetExists_cases ctx id with ⟨e, ctx1, h, hs⟩ | ⟨ctx1, h, hs⟩
  · exact Or.inl ⟨e, by simp [h], by simp [h, hs]⟩
  · rw [h]
    cases hg : ctx.state.get id with
    | none => exact Or.inl ⟨"the asset " ++ id ++ " does not exist", by simp, by simp [hs]⟩
    | some bytes =>
      simp only [Option.isSome_some, Bool.not_true, Bool.false_eq_true, if_false]
      rcases DelState_cases ctx1 id with ⟨e, ctx2, h2, hs2⟩ | ⟨ctx2, h2, hs2⟩
      · exact Or.inl ⟨e, by simp [h2], by simp [h2, hs2, hs]⟩
      · exact Or.inr ⟨by simp [h2], trivial, by simp [h2, hs2, hs]⟩

/-! ## Invariant I1 -/

/-- The outcome of the loop of `InitLedger`: the records of a prefix of the list have
been written, all of them on success and not all of them on error. -/
theorem InitLedger_loop_cases (assets : List Asset) :
    ∀ ctx : Stub, ∃ k, k ≤ assets.length ∧
      (InitLedger.loop assets ctx).2.state
        = (assets.take k).foldl (fun s a => s.put a.ID (Encode a)) ctx.state ∧
      ((InitLedger.loop assets ctx).1 = Except.ok () → k = assets.length) ∧
      (∀ e, (InitLedger.loop assets ctx).1 = Except.error e → k < assets.length) := by
  induction assets with
  | nil => intro ctx; exact ⟨0, by simp [InitLedger.loop]⟩
  | cons a rest ih =>
    intro ctx
    unfold InitLedger.loop
    simp only [jsonMarshal]
    rcases PutState_cases ctx a.ID (Encode a) with ⟨e, ctx1, h, hs⟩ | ⟨ctx1, h, hs⟩
    · exact ⟨0, by simp [h, hs]⟩
    · obtain ⟨k, hk, h1, h2, h3⟩ := ih ctx1
      refine ⟨k + 1, by simpa using hk, ?_, ?_, ?_⟩
      · simp [h, h1, hs]
      · intro hok
        simp only [h] at hok
        simpa using h2 hok
      · intro e he
        simp only [h] at he
        simpa using h3 e he

theorem I1_empty : I1 Store.empty := by
  intro key bytes h
  simp [Store.get, Store.empty, lookupKV] at h

theorem I1_put {s : Store} (hs : I1 s) {key bytes : String} {a : Asset}
    (hd : Decode bytes = Except.ok a) (hid : a.ID = key) : I1 (s.put key bytes) := by
  intro k b h
  by_cases hk : k = key
  · subst hk
    rw [Store.get_put_self] at h
    cases h
    exact ⟨a, hd, hid⟩
  · rw [Store.get_put_of_ne s hk] at h
    exact hs k b h

theorem I1_delete {s : Store} (hs : I1 s) (key : String) : I1 (s.delete key) := by
  intro k b h
  by_cases hk : k = key
  · subst hk
    rw [Store.get_delete_self] at h
    cases h
  · rw [Store.get_delete_of_ne s hk] at h
    exact hs k b h

theorem I1_foldl_put (assets : List Asset) :
    ∀ s : Store, I1 s → I1 (assets.foldl (fun s a => s.put a.ID (Encode a)) s) := by
  induction assets with
  | nil => intro s hs; exact hs
  | cons a rest ih =>
    intro s hs
    simp only [List.foldl_cons]
    exact ih _ (I1_put hs (Decode_Encode_coerced a) rfl)

theorem I1_InitLedger {ctx : Stub} (h : I1 ctx.state) : I1 (InitLedger ctx).2.state := by
  obtain ⟨k, _, hs, _⟩ := InitLedger_loop_cases seedAssets ctx
  unfold InitLedger
  rw [hs]
  exact I1_foldl_put _ _ h

theorem I1_CreateAsset {ctx : Stub} (h : I1 ctx.state) (id : String) (name : GoString) :
    I1 (CreateAsset ctx id name).2.state := by
  rcases CreateAsset_cases ctx id name with ⟨e, _, hs⟩ | ⟨_, _, hs⟩
  · rw [hs]; exact h
  · rw [hs]; exact I1_put h (Decode_Encode_coerced _) rfl

theorem I1_DeleteAsset {ctx : Stub} (h : I1 ctx.state) (id : String) :
    I1 (DeleteAsset ctx id).2.state := by
  rcases DeleteAsset_cases ctx id with ⟨e, _, hs⟩ | ⟨_, _, hs⟩
  · rw [hs]; exact h
  · rw [hs]; exact I1_delete h id

theorem I1_DeleteAllAssets_loop (l : List KV) :
    ∀ ctx : Stub, I1 ctx.state → I1 (DeleteAllAssets.loop l ctx).2.state := by
  induction l with
  | nil => intro ctx h; exact h
  | cons e rest ih =>
    intro ctx h
    unfold DeleteAllAssets.loop
    rcases Next_cases ctx e with ⟨err, ctx1, h1, hs1⟩ | ⟨ctx1, h1, hs1⟩
    · simpa [h1, hs1] using h
    · rw [h1]
      simp only
      rcases DelState_cases ctx1 e.1 with ⟨err, ctx2, h2, hs2⟩ | ⟨ctx2, h2, hs2⟩
      · simpa [h2, hs2, hs1] using h
      · rw [h2]
        simp only
        apply ih
        rw [hs2, hs1]
        exact I1_delete h _

theorem I1_DeleteAllAssets {ctx : Stub} (h : I1 ctx.state) :
    I1 (DeleteAllAssets ctx).2.state := by
  unfold DeleteAllAssets
  rcases GetStateByRange_cases ctx "" "" with ⟨e, ctx1, h1, hs1⟩ | ⟨ctx1, h1, hs1⟩
  · simpa [h1, hs1] using h
  · rw [h1]
    simp only
    apply I1_DeleteAllAssets_loop
    rw [hs1]
    exact h

theorem I1_of_reachable {s : Store} (h : Reachable s) : I1 s := by
  induction h with
  | empty => exact I1_empty
  | initLedger ctx _ _ ih => exact I1_InitLedger ih
  | createAsset ctx id name _ _ ih => exact I1_CreateAsset ih id name
  | deleteAsset ctx id _ _ ih => exact I1_DeleteAsset ih id
  | deleteAllAssets ctx _ _ ih => exact I1_DeleteAllAssets ih

/-- Under I1 the entries of a store decode, one by one, into records whose ids are
the keys. -/
theorem decoded_of_I1 {s : Store} (h : I1 s) :
    ∃ assets : List Asset,
      List.Forall₂ (fun (e : KV) a => Decode e.2 = Except.ok a) s.entries assets ∧
      assets.map Asset.ID = s.keys := by
  have key : ∀ l : List KV, (∀ e ∈ l, ∃ a, Decode e.2 = Except.ok a ∧ a.ID = e.1) →
      ∃ assets : List Asset,
        List.Forall₂ (fun (e : KV) a => Decode e.2 = Except.ok a) l assets ∧
        assets.map Asset.ID = l.map Prod.fst := by
    intro l
    induction l with
    | nil => intro _; exact ⟨[], List.Forall₂.nil, rfl⟩
    | cons e rest ih =>
      intro hl
      obtain ⟨a, ha, hid⟩ := hl e (List.mem_cons_self _ _)
      obtain ⟨as, h1, h2⟩ := ih (fun x hx => hl x (List.mem_cons_of_mem _ hx))
      exact ⟨a :: as, List.Forall₂.cons ha h1, by simp [hid, h2]⟩
  exact key s.entries (fun e he => h e.1 e.2 (s.get_of_mem he))

theorem Store.keys_pairwise (s : Store) : s.keys.Pairwise (· < ·) := by
  have := s.ascending
  unfold KeysAscending at this
  unfold Store.keys
  exact List.pairwise_map.mpr (this.imp (fun h => (keyLt_iff _ _).mp h))

/-! ## The claims of the specification -/

theorem Stub.noFaults_fresh (s : Store) : (Stub.fresh s).NoFaults := by
  intro f hf
  simp [Stub.fresh] at hf

/-- C1, as the code has it: when `CreateAsset(id, name)` succeeds, `ReadAsset(id)` in a
transaction on the resulting store in which no store call fails succeeds and returns the
asset with ID `id`, Temperature 0, the empty Timestamp and, as Name, `name` with every
byte that is not part of a valid UTF-8 sequence replaced by U+FFFD; when `name` is valid
UTF-8 that is exactly the asset with ID `id` and Name `name`. -/
theorem create_then_read (ctx : Stub) (id : String) (name : GoString)
    (hok : (CreateAsset ctx id name).1 = Except.ok ())
    (ctx' : Stub) (h' : ctx'.NoFaults) (hs : ctx'.state = (CreateAsset ctx id name).2.state) :
    (ReadAsset ctx' id).1
      = Except.ok
          { ID := id, Name := name.coerced, Temperature := Float64.zero, Timestamp := "" } ∧
    (name.valid = true →
      (ReadAsset ctx' id).1
        = Except.ok { ID := id, Name := name, Temperature := Float64.zero, Timestamp := "" }) := by
  rcases CreateAsset_cases ctx id name with ⟨e, he, _⟩ | ⟨_, _, hput⟩
  · rw [hok] at he; cases he
  · rw [ReadAsset_of_noFaults h', hs, hput, Store.get_put_self]
    refine ⟨Decode_Encode_coerced _, ?_⟩
    intro hv
    exact Decode_Encode _ hv

theorem create_then_read_witness :
    (CreateAsset (Stub.fresh Store.empty) "A" "alpha").1 = Except.ok () ∧
    (GoString.ofString "alpha").valid = true ∧
    (ReadAsset (Stub.fresh (CreateAsset (Stub.fresh Store.empty) "A" "alpha").2.state) "A").1
      = Except.ok { ID := "A", Name := "alpha", Temperature := Float64.zero, Timestamp := "" } :=
  ⟨rfl, rfl, (create_then_read (Stub.fresh Store.empty) "A" "alpha" rfl _
    (Stub.noFaults_fresh _) rfl).2 rfl⟩

/-- C1, counterexample: on the empty store `CreateAsset("A", name)` with the one-byte name
`0xFF`, which is not valid UTF-8, succeeds, and `ReadAsset("A")` on the resulting store
returns an asset whose Name is the three bytes `0xEF 0xBF 0xBD` of U+FFFD, not `name`. -/
theorem create_then_read_invalid_name :
    (CreateAsset (Stub.fresh Store.empty) "A" [0xFF]).1 = Except.ok () ∧
    (ReadAsset (Stub.fresh (CreateAsset (Stub.fresh Store.empty) "A" [0xFF]).2.state) "A").1
      = Except.ok
          { ID := "A", Name := [0xEF, 0xBF, 0xBD], Temperature := Float64.zero,
            Timestamp := "" } ∧
    (ReadAsset (Stub.fresh (CreateAsset (Stub.fresh Store.empty) "A" [0xFF]).2.state) "A").1
      ≠ Except.ok { ID := "A", Name := [0xFF], Temperature := Float64.zero, Timestamp := "" } := by
  refine ⟨rfl, rfl, ?_⟩
  intro h
  have h1 : (ReadAsset (Stub.fresh (CreateAsset (Stub.fresh Store.empty) "A" [0xFF]).2.state)
      "A").1 = Except.ok ⟨"A", [0xEF, 0xBF, 0xBD], Float64.zero, ""⟩ := rfl
  rw [h1] at h
  exact absurd (congrArg Asset.Name (Except.ok.inj h)) (by decide)

theorem Store.present_iff (s : Store) (key : String) :
    s.present key = true ↔ ∃ bytes, s.get key = some bytes := by
  unfold Store.present
  exact Option.isSome_iff_exists

theorem Store.present_eq_false_iff (s : Store) (key : String) :
    s.present key = false ↔ s.get key = none := by
  unfold Store.present
  cases s.get key <;> simp

/-- C2: `CreateAsset` on an id whose key is present fails with the message
"the asset <id> already exists" and leaves the store unchanged; in particular, after
`CreateAsset(id, n1)` has succeeded, `CreateAsset(id, n2)` on the resulting store fails
with that message, the store stays what the first call left, and the value under
`id` is what the first call wrote. -/
theorem create_existing_fails :
    (∀ (ctx : Stub) (id : String) (name : GoString), ctx.NoFaults → ctx.state.present id = true →
      (CreateAsset ctx id name).1 = Except.error ("the asset " ++ id ++ " already exists") ∧
      (CreateAsset ctx id name).2.state = ctx.state) ∧
    (∀ (ctx : Stub) (id : String) (n1 n2 : GoString) (ctx' : Stub),
      (CreateAsset ctx id n1).1 = Except.ok () → ctx'.NoFaults →
      ctx'.state = (CreateAsset ctx id n1).2.state →
      (CreateAsset ctx' id n2).1 = Except.error ("the asset " ++ id ++ " already exists") ∧
      (CreateAsset ctx' id n2).2.state = (CreateAsset ctx id n1).2.state ∧
      (CreateAsset ctx' id n2).2.state.get id
        = some (Encode { ID := id, Name := n1, Temperature := Float64.zero, Timestamp := "" })) := by
  have general : ∀ (ctx : Stub) (id : String) (name : GoString), ctx.NoFaults → ctx.state.present id = true →
      (CreateAsset ctx id name).1 = Except.error ("the asset " ++ id ++ " already exists") ∧
      (CreateAsset ctx id name).2.state = ctx.state := by
    intro ctx id name h hp
    obtain ⟨bytes, hb⟩ := (Store.present_iff _ _).mp hp
    rw [CreateAsset_of_present h name hb]
    exact ⟨rfl, rfl⟩
  refine ⟨general, ?_⟩
  intro ctx id n1 n2 ctx' hok h' hs
  rcases CreateAsset_cases ctx id n1 with ⟨e, he, _⟩ | ⟨_, _, hput⟩
  · rw [hok] at he; cases he
  · have hg : ctx'.state.get id
        = some (Encode { ID := id, Name := n1, Temperature := Float64.zero, Timestamp := "" }) := by
      rw [hs, hput, Store.get_put_self]
    obtain ⟨h1, h2⟩ := general ctx' id n2 h' ((Store.present_iff _ _).mpr ⟨_, hg⟩)
    exact ⟨h1, by rw [h2, hs], by rw [h2, hg]⟩

theorem create_existing_fails_witness :
    (CreateAsset (Stub.fresh Store.empty) "A" "alpha").1 = Except.ok () ∧
    (CreateAsset (Stub.fresh (CreateAsset (Stub.fresh Store.empty) "A" "alpha").2.state)
        "A" "beta").1 = Except.error "the asset A already exists" ∧
    (CreateAsset (Stub.fresh (CreateAsset (Stub.fresh Store.empty) "A" "alpha").2.state)
        "A" "beta").2.state = (CreateAsset (Stub.fresh Store.empty) "A" "alpha").2.state ∧
    (CreateAsset (Stub.fresh (CreateAsset (Stub.fresh Store.empty) "A" "alpha").2.state)
        "A" "beta").2.state.get "A"
      = some (Encode { ID := "A", Name := "alpha", Temperature := Float64.zero, Timestamp := "" }) :=
  ⟨rfl, create_existing_fails.2 (Stub.fresh Store.empty) "A" "alpha" "beta"
    (Stub.fresh (CreateAsset (Stub.fresh Store.empty) "A" "alpha").2.state) rfl
    (Stub.noFaults_fresh _) rfl⟩

/-- C3: on a present key, when no store call fails, `DeleteAsset(id)` succeeds, and on the
resulting store `AssetExists(id)` returns false and `ReadAsset(id)` fails with
"the asset <id> does not exist". -/
theorem delete_then_absent (ctx : Stub) (id : String) (h : ctx.NoFaults)
    (hp : ctx.state.present id = true) :
    (DeleteAsset ctx id).1 = Except.ok () ∧
    ∀ ctx' : Stub, ctx'.NoFaults → ctx'.state = (DeleteAsset ctx id).2.state →
      (AssetExists ctx' id).1 = Except.ok false ∧
      (ReadAsset ctx' id).1 = Except.error ("the asset " ++ id ++ " does not exist") := by
  obtain ⟨bytes, hb⟩ := (Store.present_iff _ _).mp hp
  rw [DeleteAsset_of_present h hb]
  refine ⟨rfl, ?_⟩
  intro ctx' h' hs
  have hg : ctx'.state.get id = none := by
    rw [hs]; exact Store.get_delete_self _ _
  rw [AssetExists_of_noFaults h', ReadAsset_of_noFaults h', hg]
  exact ⟨rfl, rfl⟩

theorem delete_then_absent_witness :
    (Stub.fresh (CreateAsset (Stub.fresh Store.empty) "B" "b").2.state).state.present "B" = true ∧
    (DeleteAsset (Stub.fresh (CreateAsset (Stub.fresh Store.empty) "B" "b").2.state) "B").1
      = Except.ok () ∧
    (AssetExists (DeleteAsset (Stub.fresh (CreateAsset (Stub.fresh Store.empty) "B" "b").2.state)
      "B").2 "B").1 = Except.ok false ∧
    (ReadAsset (DeleteAsset (Stub.fresh (CreateAsset (Stub.fresh Store.empty) "B" "b").2.state)
      "B").2 "B").1 = Except.error "the asset B does not exist" :=
  ⟨rfl,
    (delete_then_absent (Stub.fresh (CreateAsset (Stub.fresh Store.empty) "B" "b").2.state) "B"
      (Stub.noFaults_fresh _) rfl).1,
    (delete_then_absent (Stub.fresh (CreateAsset (Stub.fresh Store.empty) "B" "b").2.state) "B"
      (Stub.noFaults_fresh _) rfl).2 _ (by decide) rfl⟩

/-- C4: on an absent key, when no store call fails, `DeleteAsset(id)` fails with
"the asset <id> does not exist", the store is unchanged, and the only store call made
is the `GetState` of the existence check: no delete is issued. -/
theorem delete_absent_fails (ctx : Stub) (id : String) (h : ctx.NoFaults)
    (ha : ctx.state.present id = false) :
    (DeleteAsset ctx id).1 = Except.error ("the asset " ++ id ++ " does not exist") ∧
    (DeleteAsset ctx id).2.state = ctx.state ∧
    (DeleteAsset ctx id).2.log = ctx.log ++ [Call.GetState id] := by
  rw [DeleteAsset_of_absent h ((Store.present_eq_false_iff _ _).mp ha)]
  exact ⟨rfl, rfl, rfl⟩

theorem delete_absent_fails_witness :
    (DeleteAsset (Stub.fresh Store.empty) "absent").1
      = Except.error "the asset absent does not exist" ∧
    (DeleteAsset (Stub.fresh Store.empty) "absent").2.state = Store.empty ∧
    (DeleteAsset (Stub.fresh Store.empty) "absent").2.log = [Call.GetState "absent"] :=
  delete_absent_fails (Stub.fresh Store.empty) "absent" (Stub.noFaults_fresh _) rfl

/-- C5: on every store reachable from the empty store by `InitLedger`, `CreateAsset`,
`DeleteAsset` and `DeleteAllAssets` calls, when no store call fails, `GetAllAssets`
succeeds, the ids of the returned records ascend strictly in lexicographic order, and
there are as many records as keys present in the store. -/
theorem getAll_sorted_complete (ctx : Stub) (hr : Reachable ctx.state) (h : ctx.NoFaults) :
    ∃ assets : List Asset, (GetAllAssets ctx).1 = Except.ok assets ∧
      (assets.map Asset.ID).Pairwise (· < ·) ∧
      assets.length = ctx.state.keys.length := by
  obtain ⟨assets, hd, hid⟩ := decoded_of_I1 (I1_of_reachable hr)
  refine ⟨assets, GetAllAssets_of_noFaults h hd, ?_, ?_⟩
  · rw [hid]; exact Store.keys_pairwise _
  · rw [← hid, List.length_map]

theorem getAll_sorted_complete_witness :
    ∃ assets : List Asset,
      (GetAllAssets (Stub.fresh
        (CreateAsset (Stub.fresh (CreateAsset (Stub.fresh Store.empty) "Y" "y").2.state)
          "X" "x").2.state)).1 = Except.ok assets ∧
      (assets.map Asset.ID).Pairwise (· < ·) ∧
      assets.length = (Stub.fresh
        (CreateAsset (Stub.fresh (CreateAsset (Stub.fresh Store.empty) "Y" "y").2.state)
          "X" "x").2.state).state.keys.length :=
  getAll_sorted_complete _
    (Reachable.createAsset (Stub.fresh (CreateAsset (Stub.fresh Store.empty) "Y" "y").2.state)
      "X" "x"
      (Reachable.createAsset (Stub.fresh Store.empty) "Y" "y" Reachable.empty
        (Stub.noFaults_fresh _))
      (Stub.noFaults_fresh _))
    (Stub.noFaults_fresh _)

/-- C6: when no store call fails, `DeleteAllAssets` succeeds and leaves no key present,
and `GetAllAssets` on the resulting store succeeds and returns the empty sequence. -/
theorem deleteAll_then_getAll (ctx : Stub) (h : ctx.NoFaults) :
    (DeleteAllAssets ctx).1 = Except.ok () ∧
    (∀ key, (DeleteAllAssets ctx).2.state.present key = false) ∧
    ∀ ctx' : Stub, ctx'.NoFaults → ctx'.state = (DeleteAllAssets ctx).2.state →
      (GetAllAssets ctx').1 = Except.ok [] := by
  obtain ⟨h1, h2, _⟩ := DeleteAllAssets_of_noFaults h
  refine ⟨h1, ?_, ?_⟩
  · intro key; rw [h2]; rfl
  · intro ctx' h' hs
    apply GetAllAssets_of_noFaults h'
    rw [hs, h2]
    exact List.Forall₂.nil

theorem deleteAll_then_getAll_witness :
    (DeleteAllAssets (InitLedger (Stub.fresh Store.empty)).2).1 = Except.ok () ∧
    (∀ key, (DeleteAllAssets (InitLedger (Stub.fresh Store.empty)).2).2.state.present key
      = false) ∧
    (GetAllAssets (DeleteAllAssets (InitLedger (Stub.fresh Store.empty)).2).2).1
      = Except.ok [] :=
  ⟨(deleteAll_then_getAll (InitLedger (Stub.fresh Store.empty)).2 (by decide)).1,
    (deleteAll_then_getAll (InitLedger (Stub.fresh Store.empty)).2 (by decide)).2.1,
    (deleteAll_then_getAll (InitLedger (Stub.fresh Store.empty)).2 (by decide)).2.2 _
      (by decide) rfl⟩

/-- C7: invariant I1 (the bytes under every present key decode into an `Asset` whose `ID`
is the key) holds for the empty store, is preserved by `InitLedger`, `CreateAsset`,
`DeleteAsset` and `DeleteAllAssets` (whether or not the call succeeds), and therefore
holds for every reachable store. -/
theorem I1_preserved :
    I1 Store.empty ∧
    (∀ ctx : Stub, I1 ctx.state → I1 (InitLedger ctx).2.state) ∧
    (∀ (ctx : Stub) (id : String) (name : GoString), I1 ctx.state → I1 (CreateAsset ctx id name).2.state) ∧
    (∀ (ctx : Stub) (id : String), I1 ctx.state → I1 (DeleteAsset ctx id).2.state) ∧
    (∀ ctx : Stub, I1 ctx.state → I1 (DeleteAllAssets ctx).2.state) ∧
    (∀ s : Store, Reachable s → I1 s) :=
  ⟨I1_empty, fun _ h => I1_InitLedger h, fun _ id name h => I1_CreateAsset h id name,
    fun _ id h => I1_DeleteAsset h id, fun _ h => I1_DeleteAllAssets h,
    fun _ h => I1_of_reachable h⟩

theorem I1_preserved_witness :
    I1 (Stub.fresh Store.empty).state ∧
    I1 (CreateAsset (InitLedger (Stub.fresh Store.empty)).2 "A" "alpha").2.state :=
  ⟨I1_preserved.1,
    I1_preserved.2.2.1 (InitLedger (Stub.fresh Store.empty)).2 "A" "alpha"
      (I1_preserved.2.1 (Stub.fresh Store.empty) I1_preserved.1)⟩

/-- C8, as the code has it: when `CreateAsset` or `DeleteAsset` returns an error the store
is what it was before the call, `ReadAsset`, `AssetExists` and `GetAllAssets` never change
the store, whatever store calls fail; `InitLedger`, like `DeleteAllAssets`, is not atomic:
when it returns an error the store holds, on top of its former content, the seed records
written before the failing `Put`, fewer than three of them. -/
theorem error_leaves_store :
    (∀ (ctx : Stub) (id : String) (name : GoString) (e : String), (CreateAsset ctx id name).1 = Except.error e →
      (CreateAsset ctx id name).2.state = ctx.state) ∧
    (∀ (ctx : Stub) (id e : String), (DeleteAsset ctx id).1 = Except.error e →
      (DeleteAsset ctx id).2.state = ctx.state) ∧
    (∀ (ctx : Stub) (id : String), (ReadAsset ctx id).2.state = ctx.state) ∧
    (∀ (ctx : Stub) (id : String), (AssetExists ctx id).2.state = ctx.state) ∧
    (∀ ctx : Stub, (GetAllAssets ctx).2.state = ctx.state) ∧
    (∀ (ctx : Stub) (e : String), (InitLedger ctx).1 = Except.error e →
      ∃ k, k < 3 ∧ (InitLedger ctx).2.state
        = (seedAssets.take k).foldl (fun s a => s.put a.ID (Encode a)) ctx.state) := by
  refine ⟨?_, ?_, ReadAsset_state, AssetExists_state, GetAllAssets_state, ?_⟩
  · intro ctx id name e he
    rcases CreateAsset_cases ctx id name with ⟨_, _, hs⟩ | ⟨hok, _, _⟩
    · exact hs
    · rw [hok] at he; cases he
  · intro ctx id e he
    rcases DeleteAsset_cases ctx id with ⟨_, _, hs⟩ | ⟨hok, _, _⟩
    · exact hs
    · rw [hok] at he; cases he
  · intro ctx e he
    obtain ⟨k, _, hs, _, hlt⟩ := InitLedger_loop_cases seedAssets ctx
    exact ⟨k, hlt e he, hs⟩

theorem error_leaves_store_witness :
    (CreateAsset ⟨Store.empty, [none, some "boom"], []⟩ "A" "alpha").1 = Except.error "boom" ∧
    (CreateAsset ⟨Store.empty, [none, some "boom"], []⟩ "A" "alpha").2.state = Store.empty :=
  ⟨rfl, error_leaves_store.1 ⟨Store.empty, [none, some "boom"], []⟩ "A" "alpha" "boom" rfl⟩

/-- C8, counterexample: on the empty store, when the second `Put` of `InitLedger` fails,
`InitLedger` returns an error and yet the store has changed: `Sensor1` has been written. -/
theorem initLedger_not_atomic :
    (InitLedger ⟨Store.empty, [none, some "boom"], []⟩).1
      = Except.error "failed to put to world state. boom" ∧
    (InitLedger ⟨Store.empty, [none, some "boom"], []⟩).2.state.keys = ["Sensor1"] ∧
    (InitLedger ⟨Store.empty, [none, some "boom"], []⟩).2.state
      ≠ (⟨Store.empty, [none, some "boom"], []⟩ : Stub).state :=
  ⟨rfl, rfl, fun h => absurd (congrArg Store.keys h) (by decide)⟩

theorem seed_entries :
    (seedAssets.foldl (fun s a => s.put a.ID (Encode a)) Store.empty).entries
      = seedAssets.map (fun a => (a.ID, Encode a)) := rfl

/-- C9: on the empty store, when no store call fails, `InitLedger` succeeds and
`GetAllAssets` on the resulting store returns exactly the three seeded records, in the
order Sensor1, Sensor2, Sensor3 (temperatures 25.5, 28.0 and 24.8). -/
theorem initLedger_then_getAll (ctx : Stub) (he : ctx.state = Store.empty) (h : ctx.NoFaults) :
    (InitLedger ctx).1 = Except.ok () ∧
    ∀ ctx' : Stub, ctx'.NoFaults → ctx'.state = (InitLedger ctx).2.state →
      (GetAllAssets ctx').1 = Except.ok
        [ { ID := "Sensor1", Name := "Sensor 1", Temperature := Float64.ofConst 255 (-1),
            Timestamp := "2024-04-26T10:00:00Z" },
          { ID := "Sensor2", Name := "Sensor 2", Temperature := Float64.ofConst 28 0,
            Timestamp := "2024-04-26T10:01:00Z" },
          { ID := "Sensor3", Name := "Sensor 3", Temperature := Float64.ofConst 248 (-1),
            Timestamp := "2024-04-26T10:02:00Z" } ] := by
  rw [InitLedger_of_noFaults h]
  refine ⟨rfl, ?_⟩
  intro ctx' h' hs
  apply GetAllAssets_of_noFaults h'
  rw [hs, he]
  simp only [seed_entries]
  refine List.Forall₂.cons ?_ (List.Forall₂.cons ?_ (List.Forall₂.cons ?_ List.Forall₂.nil))
  · exact Decode_Encode _ rfl
  · exact Decode_Encode _ rfl
  · exact Decode_Encode _ rfl

theorem initLedger_then_getAll_witness :
    (InitLedger (Stub.fresh Store.empty)).1 = Except.ok () ∧
    (GetAllAssets (InitLedger (Stub.fresh Store.empty)).2).1 = Except.ok
        [ { ID := "Sensor1", Name := "Sensor 1", Temperature := Float64.ofConst 255 (-1),
            Timestamp := "2024-04-26T10:00:00Z" },
          { ID := "Sensor2", Name := "Sensor 2", Temperature := Float64.ofConst 28 0,
            Timestamp := "2024-04-26T10:01:00Z" },
          { ID := "Sensor3", Name := "Sensor 3", Temperature := Float64.ofConst 248 (-1),
            Timestamp := "2024-04-26T10:02:00Z" } ] :=
  ⟨(initLedger_then_getAll (Stub.fresh Store.empty) rfl (Stub.noFaults_fresh _)).1,
    (initLedger_then_getAll (Stub.fresh Store.empty) rfl (Stub.noFaults_fresh _)).2 _
      (by decide) rfl⟩

theorem seed_puts_idempotent (s : Store) :
    seedAssets.foldl (fun s a => s.put a.ID (Encode a))
        (seedAssets.foldl (fun s a => s.put a.ID (Encode a)) s)
      = seedAssets.foldl (fun s a => s.put a.ID (Encode a)) s := by
  simp only [seedAssets, List.foldl_cons, List.foldl_nil]
  have n12 : ("Sensor1" : String) ≠ "Sensor2" := by decide
  have n13 : ("Sensor1" : String) ≠ "Sensor3" := by decide
  have n23 : ("Sensor2" : String) ≠ "Sensor3" := by decide
  rw [@Store.put_of_get _ "Sensor1" _
      (by rw [Store.get_put_of_ne _ n13, Store.get_put_of_ne _ n12, Store.get_put_self]),
    @Store.put_of_get _ "Sensor2" _ (by rw [Store.get_put_of_ne _ n23, Store.get_put_self]),
    @Store.put_of_get _ "Sensor3" _ (Store.get_put_self _ _ _)]

/-- C10: on every store, when no store call fails, `InitLedger` succeeds, the store calls
it makes are exactly the three `Put` calls of the seed records (no read, hence no
existence check), and running `InitLedger` again on the resulting store succeeds and
leaves exactly the store that the first run produced. -/
theorem initLedger_idempotent (ctx : Stub) (h : ctx.NoFaults) :
    (InitLedger ctx).1 = Except.ok () ∧
    (InitLedger ctx).2.log
      = ctx.log ++ seedAssets.map (fun a => Call.PutState a.ID (Encode a)) ∧
    ∀ ctx' : Stub, ctx'.NoFaults → ctx'.state = (InitLedger ctx).2.state →
      (InitLedger ctx').1 = Except.ok () ∧
      (InitLedger ctx').2.state = (InitLedger ctx).2.state := by
  rw [InitLedger_of_noFaults h]
  refine ⟨rfl, rfl, ?_⟩
  intro ctx' h' hs
  rw [InitLedger_of_noFaults h']
  refine ⟨rfl, ?_⟩
  simp only at hs ⊢
  rw [hs]
  exact seed_puts_idempotent _

theorem initLedger_idempotent_witness :
    (InitLedger (Stub.fresh (CreateAsset (Stub.fresh Store.empty) "Sensor2" "old").2.state)).1
      = Except.ok () ∧
    (InitLedger (InitLedger
      (Stub.fresh (CreateAsset (Stub.fresh Store.empty) "Sensor2" "old").2.state)).2).2.state
      = (InitLedger
        (Stub.fresh (CreateAsset (Stub.fresh Store.empty) "Sensor2" "old").2.state)).2.state :=
  ⟨(initLedger_idempotent _ (Stub.noFaults_fresh _)).1,
    ((initLedger_idempotent
      (Stub.fresh (CreateAsset (Stub.fresh Store.empty) "Sensor2" "old").2.state)
      (Stub.noFaults_fresh _)).2.2 _ (by decide) rfl).2⟩

/-! ## Further lemmas on the store, the decoder and the fault plan -/

theorem eraseKV_cons_of_ne {key : String} {x : KV} (h : x.1 ≠ key) (rest : List KV) :
    eraseKV key (x :: rest) = x :: eraseKV key rest := by
  simp [eraseKV, h]

theorem eraseKV_cons_of_eq {key : String} {x : KV} (h : x.1 = key) (rest : List KV) :
    eraseKV key (x :: rest) = eraseKV key rest := by
  simp [eraseKV, h]

theorem eraseKV_of_lookupKV_none {key : String} {l : List KV}
    (h : lookupKV key l = none) : eraseKV key l = l := by
  induction l with
  | nil => simp [eraseKV]
  | cons x rest ih =>
    have h1 : key ≠ x.1 := by
      intro h1; simp [lookupKV, h1] at h
    have h2 : lookupKV key rest = none := by simpa [lookupKV, h1] using h
    rw [eraseKV_cons_of_ne (fun h' => h1 h'.symm), ih h2]

theorem eraseKV_insertKV (key value : String) (l : List KV) :
    eraseKV key (insertKV key value l) = eraseKV key l := by
  induction l with
  | nil => simp [insertKV, eraseKV]
  | cons x rest ih =>
    unfold insertKV
    split_ifs with h1 h2
    · exact eraseKV_cons_of_eq (x := (key, value)) rfl _
    · rw [eraseKV_cons_of_eq (x := (key, value)) rfl, eraseKV_cons_of_eq h2.symm]
    · rw [eraseKV_cons_of_ne (fun h' => h2 h'.symm), eraseKV_cons_of_ne (fun h' => h2 h'.symm), ih]

theorem Store.delete_put_of_absent {s : Store} {key : String} (value : String)
    (h : s.get key = none) : (s.put key value).delete key = s :=
  Store.ext (by
    show eraseKV key (insertKV key value s.entries) = s.entries
    rw [eraseKV_insertKV, eraseKV_of_lookupKV_none h])

/-- A key that `DeleteAllAssets` leaves in the store holds what it held. -/
theorem DeleteAllAssets_loop_get (l : List KV) :
    ∀ (ctx : Stub) (key : String),
      (DeleteAllAssets.loop l ctx).2.state.get key = none ∨
      (DeleteAllAssets.loop l ctx).2.state.get key = ctx.state.get key := by
  induction l with
  | nil => intro ctx key; exact Or.inr rfl
  | cons e rest ih =>
    intro ctx key
    unfold DeleteAllAssets.loop
    rcases Next_cases ctx e with ⟨err, ctx1, h1, hs1⟩ | ⟨ctx1, h1, hs1⟩
    · exact Or.inr (by simp [h1, hs1])
    · rw [h1]
      simp only
      rcases DelState_cases ctx1 e.1 with ⟨err, ctx2, h2, hs2⟩ | ⟨ctx2, h2, hs2⟩
      · exact Or.inr (by simp [h2, hs2, hs1])
      · rw [h2]
        simp only
        rcases ih ctx2 key with h | h
        · exact Or.inl h
        · rw [h, hs2, hs1]
          by_cases hk : key = e.1
          · subst hk; exact Or.inl (Store.get_delete_self _ _)
          · exact Or.inr (Store.get_delete_of_ne _ hk)

theorem DeleteAllAssets_get (ctx : Stub) (key : String) :
    (DeleteAllAssets ctx).2.state.get key = none ∨
    (DeleteAllAssets ctx).2.state.get key = ctx.state.get key := by
  unfold DeleteAllAssets
  rcases GetStateByRange_cases ctx "" "" with ⟨e, ctx1, h1, hs1⟩ | ⟨ctx1, h1, hs1⟩
  · exact Or.inr (by simp [h1, hs1])
  · rw [h1]
    simp only
    rcases DeleteAllAssets_loop_get (ctx.state.range "" "") ctx1 key with h | h
    · exact Or.inl h
    · exact Or.inr (by rw [h, hs1])

theorem Stub.enter_of_fault {ctx : Stub} {e : String} {fs : List (Option String)}
    (h : ctx.faults = some e :: fs) (c : Call) :
    ctx.enter c = (some e, ⟨ctx.state, fs, ctx.log ++ [c]⟩) := by
  simp [Stub.enter, h]

theorem Stub.enter_of_pass {ctx : Stub} {fs : List (Option String)}
    (h : ctx.faults = none :: fs) (c : Call) :
    ctx.enter c = (none, ⟨ctx.state, fs, ctx.log ++ [c]⟩) := by
  simp [Stub.enter, h]

theorem setField_error {a : Asset} {key : List Char} {v : JVal} {e : String}
    (h : setField a key v = Except.error e) : e ∈ decodeErrors := by
  unfold setField at h
  split_ifs at h <;> (try split at h) <;> (try split at h) <;>
    first
    | (cases h; simp [decodeErrors])
    | cases h

theorem decodeMembers_error (vfuel : Nat) :
    ∀ (fuel : Nat) (a : Asset) (cs : List Char) (e : String),
      decodeMembers vfuel fuel a cs = Except.error e → e ∈ decodeErrors := by
  intro fuel
  induction fuel with
  | zero =>
    intro a cs e h
    simp only [decodeMembers] at h
    cases h; simp [decodeErrors]
  | succ n ih =>
    intro a cs e h
    have hs : syntaxError ∈ decodeErrors := by simp [decodeErrors]
    simp only [decodeMembers] at h
    split at h
    · cases h; exact hs
    · split_ifs at h
      · split at h
        · cases h; exact hs
        · split at h
          · cases h; exact hs
          · split_ifs at h
            · split at h
              · cases h; exact hs
              · split at h
                · next e' he => cases h; exact setField_error he
                · split at h
                  · cases h; exact hs
                  · split_ifs at h
                    all_goals first | exact ih _ _ _ h | (cases h; exact hs)
            · cases h; exact hs
      · cases h; exact hs

theorem Decode_error {bytes e : String} (h : Decode bytes = Except.error e) :
    e ∈ decodeErrors := by
  unfold Decode decodeChars at h
  split at h
  · cases h; simp [decodeErrors]
  · split_ifs at h
    · split at h
      · cases h; simp [decodeErrors]
      · split_ifs at h
        all_goals
          first
          | exact decodeMembers_error _ _ _ _ _ h
          | (cases h; simp [decodeErrors])
    · cases h; simp [decodeErrors]

theorem notFound_not_decodeError (id : String) :
    "the asset " ++ id ++ " does not exist" ∉ decodeErrors := by
  intro h
  have hd : ∀ e ∈ decodeErrors, e.data.head? ≠ some 't' := by decide
  exact hd _ h (by simp [String.data_append])

/-! ## The claims of the specification, continued -/

/-- C11: `CreateAsset`, `ReadAsset`, `AssetExists`, `DeleteAsset`, `DeleteAllAssets` and
`GetAllAssets` never change the bytes of a key in place: whatever store calls fail, a key
that is present before and after the operation holds the same bytes after it as
before. -/
theorem no_update_in_place (ctx : Stub) (key before after : String)
    (hb : ctx.state.get key = some before) :
    (∀ id name, (CreateAsset ctx id name).2.state.get key = some after → after = before) ∧
    (∀ id, (ReadAsset ctx id).2.state.get key = some after → after = before) ∧
    (∀ id, (AssetExists ctx id).2.state.get key = some after → after = before) ∧
    (∀ id, (DeleteAsset ctx id).2.state.get key = some after → after = before) ∧
    ((DeleteAllAssets ctx).2.state.get key = some after → after = before) ∧
    ((GetAllAssets ctx).2.state.get key = some after → after = before) := by
  have same : ∀ s : Store, s = ctx.state → s.get key = some after → after = before := by
    intro s hs ha
    rw [hs, hb] at ha
    exact (Option.some.inj ha).symm
  refine ⟨?_, fun id => same _ (ReadAsset_state ctx id),
    fun id => same _ (AssetExists_state ctx id), ?_, ?_, same _ (GetAllAssets_state ctx)⟩
  · intro id name ha
    rcases CreateAsset_cases ctx id name with ⟨_, _, hs⟩ | ⟨_, hn, hs⟩
    · exact same _ hs ha
    · have hk : key ≠ id := by
        rintro rfl; rw [hn] at hb; cases hb
      rw [hs, Store.get_put_of_ne _ hk] at ha
      exact same _ rfl ha
  · intro id ha
    rcases DeleteAsset_cases ctx id with ⟨_, _, hs⟩ | ⟨_, _, hs⟩
    · exact same _ hs ha
    · have hk : key ≠ id := by
        rintro rfl; rw [hs, Store.get_delete_self] at ha; cases ha
      rw [hs, Store.get_delete_of_ne _ hk] at ha
      exact same _ rfl ha
  · intro ha
    rcases DeleteAllAssets_get ctx key with h | h
    · rw [h] at ha; cases ha
    · rw [h] at ha; exact same _ rfl ha

theorem no_update_in_place_witness :
    (Stub.fresh (InitLedger (Stub.fresh Store.empty)).2.state).state.get "Sensor1"
      = some (Encode ⟨"Sensor1", "Sensor 1", Float64.ofConst 255 (-1), "2024-04-26T10:00:00Z"⟩) ∧
    (DeleteAsset (Stub.fresh (InitLedger (Stub.fresh Store.empty)).2.state)
        "Sensor2").2.state.get "Sensor1"
      = some (Encode ⟨"Sensor1", "Sensor 1", Float64.ofConst 255 (-1), "2024-04-26T10:00:00Z"⟩) ∧
    Encode ⟨"Sensor1", "Sensor 1", Float64.ofConst 255 (-1), "2024-04-26T10:00:00Z"⟩
      = Encode ⟨"Sensor1", "Sensor 1", Float64.ofConst 255 (-1), "2024-04-26T10:00:00Z"⟩ :=
  ⟨rfl, rfl, (no_update_in_place (Stub.fresh (InitLedger (Stub.fresh Store.empty)).2.state)
    "Sensor1" _ _ rfl).2.2.2.1 "Sensor2" rfl⟩

theorem GetState_of_fault {ctx : Stub} {e : String} {fs : List (Option String)}
    (h : ctx.faults = some e :: fs) (key : String) :
    GetState ctx key = (Except.error e, ⟨ctx.state, fs, ctx.log ++ [Call.GetState key]⟩) := by
  simp [GetState, Stub.enter_of_fault h]

/-- C13: when no store call fails, `ReadAsset(id)` fails with "the asset <id> does not
exist" exactly when the key is absent, and on a present key it returns what `Decode` gives
on the stored bytes, the record or the decoder's error unwrapped. When the `Get` of the
store fails with error `e`, `ReadAsset` and `AssetExists` return the error
"failed to read from world state: " followed by `e`. -/
theorem readAsset_outcome :
    (∀ (ctx : Stub) (id : String), ctx.NoFaults →
      ((ReadAsset ctx id).1 = Except.error ("the asset " ++ id ++ " does not exist") ↔
        ctx.state.get id = none) ∧
      (∀ bytes, ctx.state.get id = some bytes → (ReadAsset ctx id).1 = Decode bytes)) ∧
    (∀ (ctx : Stub) (id e : String) (fs : List (Option String)), ctx.faults = some e :: fs →
      (ReadAsset ctx id).1 = Except.error ("failed to read from world state: " ++ e) ∧
      (AssetExists ctx id).1 = Except.error ("failed to read from world state: " ++ e)) := by
  constructor
  · intro ctx id h
    rw [ReadAsset_of_noFaults h]
    constructor
    · cases hg : ctx.state.get id with
      | none => simp
      | some bytes =>
        simp only [reduceCtorEq, iff_false]
        intro hd
        exact notFound_not_decodeError id (Decode_error hd)
    · intro bytes hb
      rw [hb]
  · intro ctx id e fs h
    simp [ReadAsset, AssetExists, GetState_of_fault h]

theorem readAsset_outcome_witness :
    ((ReadAsset (Stub.fresh (Store.empty.put "K" "not json")) "absent").1
        = Except.error "the asset absent does not exist" ↔
      (Stub.fresh (Store.empty.put "K" "not json")).state.get "absent" = none) ∧
    (ReadAsset (Stub.fresh (Store.empty.put "K" "not json")) "K").1 = Decode "not json" ∧
    (ReadAsset ⟨Store.empty, [some "ledger down"], []⟩ "K").1
      = Except.error "failed to read from world state: ledger down" ∧
    (AssetExists ⟨Store.empty, [some "ledger down"], []⟩ "K").1
      = Except.error "failed to read from world state: ledger down" :=
  ⟨(readAsset_outcome.1 (Stub.fresh (Store.empty.put "K" "not json")) "absent"
      (by decide)).1,
    (readAsset_outcome.1 (Stub.fresh (Store.empty.put "K" "not json")) "K"
      (by decide)).2 "not json" rfl,
    readAsset_outcome.2 ⟨Store.empty, [some "ledger down"], []⟩ "K" "ledger down" [] rfl⟩

/-- C14: when no store call fails, `AssetExists(id)` succeeds and returns true exactly
when the key is present, whatever bytes the key holds (empty or undecodable bytes
included); hence `CreateAsset(id, name)` succeeds exactly when `id` is absent and
`DeleteAsset(id)` succeeds exactly when `id` is present. -/
theorem assetExists_presence (ctx : Stub) (id : String) (h : ctx.NoFaults) :
    (AssetExists ctx id).1 = Except.ok (ctx.state.present id) ∧
    (∀ name, (CreateAsset ctx id name).1 = Except.ok () ↔ ctx.state.present id = false) ∧
    ((DeleteAsset ctx id).1 = Except.ok () ↔ ctx.state.present id = true) := by
  refine ⟨by rw [AssetExists_of_noFaults h]; rfl, ?_, ?_⟩
  · intro name
    cases hg : ctx.state.get id with
    | none =>
      rw [CreateAsset_of_absent h name hg]
      simp [Store.present, hg]
    | some bytes =>
      rw [CreateAsset_of_present h name hg]
      simp [Store.present, hg]
  · cases hg : ctx.state.get id with
    | none =>
      rw [DeleteAsset_of_absent h hg]
      simp [Store.present, hg]
    | some bytes =>
      rw [DeleteAsset_of_present h hg]
      simp [Store.present, hg]

theorem assetExists_presence_witness :
    (Store.empty.put "K" "").present "K" = true ∧
    (AssetExists (Stub.fresh (Store.empty.put "K" "")) "K").1 = Except.ok true ∧
    (CreateAsset (Stub.fresh (Store.empty.put "K" "")) "K" "name").1
      = Except.error "the asset K already exists" ∧
    (DeleteAsset (Stub.fresh (Store.empty.put "K" "")) "K").1 = Except.ok () :=
  ⟨rfl, (assetExists_presence (Stub.fresh (Store.empty.put "K" "")) "K" (by decide)).1, rfl,
    (assetExists_presence (Stub.fresh (Store.empty.put "K" "")) "K" (by decide)).2.2.mpr rfl⟩

/-- The keys of the seed records. -/
theorem seed_ids : seedAssets.map Asset.ID = ["Sensor1", "Sensor2", "Sensor3"] := rfl

theorem get_foldl_put_of_not_mem (assets : List Asset) (key : String)
    (hk : key ∉ assets.map Asset.ID) :
    ∀ s : Store, (assets.foldl (fun s a => s.put a.ID (Encode a)) s).get key = s.get key := by
  induction assets with
  | nil => intro s; rfl
  | cons a rest ih =>
    intro s
    simp only [List.map_cons, List.mem_cons, not_or] at hk
    simp only [List.foldl_cons]
    rw [ih hk.2, Store.get_put_of_ne _ hk.1]

/-- C19: whatever store calls fail and whether the call succeeds or not,
`CreateAsset(id, name)` and `DeleteAsset(id)` leave every key other than `id` as it was,
present with the same bytes or absent, and `InitLedger` leaves every key other than
"Sensor1", "Sensor2" and "Sensor3" as it was. -/
theorem frame_of_writes (ctx : Stub) (key : String) :
    (∀ id name, key ≠ id → (CreateAsset ctx id name).2.state.get key = ctx.state.get key) ∧
    (∀ id, key ≠ id → (DeleteAsset ctx id).2.state.get key = ctx.state.get key) ∧
    (key ≠ "Sensor1" → key ≠ "Sensor2" → key ≠ "Sensor3" →
      (InitLedger ctx).2.state.get key = ctx.state.get key) := by
  refine ⟨?_, ?_, ?_⟩
  · intro id name hk
    rcases CreateAsset_cases ctx id name with ⟨_, _, hs⟩ | ⟨_, _, hs⟩
    · rw [hs]
    · rw [hs, Store.get_put_of_ne _ hk]
  · intro id hk
    rcases DeleteAsset_cases ctx id with ⟨_, _, hs⟩ | ⟨_, _, hs⟩
    · rw [hs]
    · rw [hs, Store.get_delete_of_ne _ hk]
  · intro h1 h2 h3
    obtain ⟨k, _, hs, _⟩ := InitLedger_loop_cases seedAssets ctx
    unfold InitLedger
    rw [hs]
    apply get_foldl_put_of_not_mem
    intro hm
    have hm' : key ∈ seedAssets.map Asset.ID := by
      rw [List.map_take] at hm
      exact List.mem_of_mem_take hm
    rw [seed_ids] at hm'
    simp at hm'
    rcases hm' with h | h | h
    · exact h1 h
    · exact h2 h
    · exact h3 h

theorem frame_of_writes_witness :
    (CreateAsset (Stub.fresh (InitLedger (Stub.fresh Store.empty)).2.state)
        "A" "alpha").2.state.get "Sensor1"
      = (Stub.fresh (InitLedger (Stub.fresh Store.empty)).2.state).state.get "Sensor1" ∧
    (InitLedger (CreateAsset (Stub.fresh Store.empty) "A" "alpha").2).2.state.get "A"
      = (CreateAsset (Stub.fresh Store.empty) "A" "alpha").2.state.get "A" :=
  ⟨(frame_of_writes (Stub.fresh (InitLedger (Stub.fresh Store.empty)).2.state) "Sensor1").1
      "A" "alpha" (by decide),
    (frame_of_writes (CreateAsset (Stub.fresh Store.empty) "A" "alpha").2 "A").2.2
      (by decide) (by decide) (by decide)⟩

/-- C20: on a store where `id` is absent, when no store call fails, `CreateAsset(id, name)`
followed by `DeleteAsset(id)` both succeed and the resulting store equals the original
one: the same keys with the same bytes. -/
theorem create_then_delete (ctx : Stub) (id : String) (name : GoString) (h : ctx.NoFaults)
    (ha : ctx.state.present id = false) :
    (CreateAsset ctx id name).1 = Except.ok () ∧
    ∀ ctx' : Stub, ctx'.NoFaults → ctx'.state = (CreateAsset ctx id name).2.state →
      (DeleteAsset ctx' id).1 = Except.ok () ∧ (DeleteAsset ctx' id).2.state = ctx.state := by
  have hg := (Store.present_eq_false_iff _ _).mp ha
  rw [CreateAsset_of_absent h name hg]
  refine ⟨rfl, ?_⟩
  intro ctx' h' hs
  simp only at hs
  have hp : ctx'.state.get id
      = some (Encode { ID := id, Name := name, Temperature := Float64.zero, Timestamp := "" }) := by
    rw [hs, Store.get_put_self]
  rw [DeleteAsset_of_present h' hp]
  exact ⟨rfl, by simp only; rw [hs]; exact Store.delete_put_of_absent _ hg⟩

theorem create_then_delete_witness :
    (Stub.fresh (InitLedger (Stub.fresh Store.empty)).2.state).state.present "A" = false ∧
    (CreateAsset (Stub.fresh (InitLedger (Stub.fresh Store.empty)).2.state) "A" "alpha").1
      = Except.ok () ∧
    (DeleteAsset (CreateAsset (Stub.fresh (InitLedger (Stub.fresh Store.empty)).2.state)
      "A" "alpha").2 "A").1 = Except.ok () ∧
    (DeleteAsset (CreateAsset (Stub.fresh (InitLedger (Stub.fresh Store.empty)).2.state)
      "A" "alpha").2 "A").2.state = (InitLedger (Stub.fresh Store.empty)).2.state :=
  ⟨rfl,
    (create_then_delete (Stub.fresh (InitLedger (Stub.fresh Store.empty)).2.state) "A" "alpha"
      (by decide) rfl).1,
    (create_then_delete (Stub.fresh (InitLedger (Stub.fresh Store.empty)).2.state) "A" "alpha"
      (by decide) rfl).2 _ (by decide) rfl⟩

theorem PutState_of_fault {ctx : Stub} {e : String} {fs : List (Option String)}
    (h : ctx.faults = some e :: fs) (key value : String) :
    PutState ctx key value
      = (Except.error e, ⟨ctx.state, fs, ctx.log ++ [Call.PutState key value]⟩) := by
  simp [PutState, Stub.enter_of_fault h]

theorem PutState_of_pass {ctx : Stub} {fs : List (Option String)}
    (h : ctx.faults = none :: fs) (key value : String) :
    PutState ctx key value
      = (Except.ok (), ⟨ctx.state.put key value, fs, ctx.log ++ [Call.PutState key value]⟩) := by
  simp [PutState, Stub.enter_of_pass h]

theorem DelState_of_fault {ctx : Stub} {e : String} {fs : List (Option String)}
    (h : ctx.faults = some e :: fs) (key : String) :
    DelState ctx key = (Except.error e, ⟨ctx.state, fs, ctx.log ++ [Call.DelState key]⟩) := by
  simp [DelState, Stub.enter_of_fault h]

theorem DelState_of_pass {ctx : Stub} {fs : List (Option String)}
    (h : ctx.faults = none :: fs) (key : String) :
    DelState ctx key
      = (Except.ok (), ⟨ctx.state.delete key, fs, ctx.log ++ [Call.DelState key]⟩) := by
  simp [DelState, Stub.enter_of_pass h]

theorem Next_of_pass {ctx : Stub} {fs : List (Option String)}
    (h : ctx.faults = none :: fs) (kv : KV) :
    Next ctx kv = (Except.ok kv, ⟨ctx.state, fs, ctx.log ++ [Call.Next]⟩) := by
  simp [Next, Stub.enter_of_pass h]

theorem GetStateByRange_of_pass {ctx : Stub} {fs : List (Option String)}
    (h : ctx.faults = none :: fs) (startKey endKey : String) :
    GetStateByRange ctx startKey endKey
      = (Except.ok ⟨ctx.state.range startKey endKey⟩,
          ⟨ctx.state, fs, ctx.log ++ [Call.GetStateByRange startKey endKey]⟩) := by
  simp [GetStateByRange, Stub.enter_of_pass h]

/-- The loop of `InitLedger` when its `Put` number `j + 1` is the first store call to
fail. -/
theorem InitLedger_loop_of_fault (assets : List Asset) :
    ∀ (ctx : Stub) (j : Nat) (e : String) (fs : List (Option String)),
      j < assets.length → ctx.faults = List.replicate j none ++ some e :: fs →
      InitLedger.loop assets ctx
        = (Except.error ("failed to put to world state. " ++ e),
            ⟨(assets.take j).foldl (fun s a => s.put a.ID (Encode a)) ctx.state, fs,
              ctx.log ++ (assets.take (j + 1)).map (fun a => Call.PutState a.ID (Encode a))⟩) := by
  induction assets with
  | nil => intro ctx j e fs hj; simp at hj
  | cons a rest ih =>
    intro ctx j e fs hj hf
    cases j with
    | zero =>
      simp only [List.replicate_zero, List.nil_append] at hf
      simp [InitLedger.loop, jsonMarshal, PutState_of_fault hf]
    | succ j =>
      simp only [List.replicate_succ, List.cons_append] at hf
      have hj' : j < rest.length := by simpa using hj
      simp only [InitLedger.loop, jsonMarshal, PutState_of_pass hf]
      rw [ih _ j e fs hj' rfl]
      simp

/-- The loop of `InitLedger` when none of its `Put` calls is planned to fail. -/
theorem InitLedger_loop_of_pass (assets : List Asset) :
    ∀ ctx : Stub, (∀ f ∈ ctx.faults.take assets.length, f = none) →
      (InitLedger.loop assets ctx).1 = Except.ok () ∧
      (InitLedger.loop assets ctx).2.state
        = assets.foldl (fun s a => s.put a.ID (Encode a)) ctx.state ∧
      (InitLedger.loop assets ctx).2.log
        = ctx.log ++ assets.map (fun a => Call.PutState a.ID (Encode a)) := by
  induction assets with
  | nil => intro ctx _; simp [InitLedger.loop]
  | cons a rest ih =>
    intro ctx hp
    cases hf : ctx.faults with
    | nil =>
      have hn : ctx.NoFaults := by
        intro f hm; rw [hf] at hm; simp at hm
      rw [InitLedger_loop_of_noFaults _ hn]
      exact ⟨rfl, rfl, rfl⟩
    | cons f fs =>
      have h0 : f = none := hp f (by simp [hf])
      subst h0
      simp only [InitLedger.loop, jsonMarshal, PutState_of_pass hf]
      obtain ⟨h1, h2, h3⟩ := ih ⟨ctx.state.put a.ID (Encode a), fs,
        ctx.log ++ [Call.PutState a.ID (Encode a)]⟩
        (fun g hg => hp g (by rw [hf]; simp [hg]))
      exact ⟨h1, by rw [h2]; rfl, by rw [h3]; simp⟩

/-- C16: `InitLedger` writes the seed records with `Put` in the order Sensor1, Sensor2,
Sensor3 and stops at the first failing `Put`. When `Put` number `j + 1` (with `j` in 0..2)
is the first store call to fail, with error `e`, `InitLedger` returns the error
"failed to put to world state. " followed by `e`, exactly the first `j` seed records have
been written, and the calls made are the first `j + 1` `Put` calls and no other. When
none of the three `Put` calls fails it returns success with the three records written. -/
theorem initLedger_first_error (ctx : Stub) :
    (∀ (j : Nat) (e : String) (fs : List (Option String)), j < 3 →
      ctx.faults = List.replicate j none ++ some e :: fs →
      (InitLedger ctx).1 = Except.error ("failed to put to world state. " ++ e) ∧
      (InitLedger ctx).2.state
        = (seedAssets.take j).foldl (fun s a => s.put a.ID (Encode a)) ctx.state ∧
      (InitLedger ctx).2.log
        = ctx.log ++ (seedAssets.take (j + 1)).map (fun a => Call.PutState a.ID (Encode a))) ∧
    ((∀ f ∈ ctx.faults.take 3, f = none) →
      (InitLedger ctx).1 = Except.ok () ∧
      (InitLedger ctx).2.state
        = seedAssets.foldl (fun s a => s.put a.ID (Encode a)) ctx.state ∧
      (InitLedger ctx).2.log
        = ctx.log ++ seedAssets.map (fun a => Call.PutState a.ID (Encode a))) := by
  constructor
  · intro j e fs hj hf
    unfold InitLedger
    rw [InitLedger_loop_of_fault seedAssets ctx j e fs hj hf]
    exact ⟨rfl, rfl, rfl⟩
  · intro hp
    exact InitLedger_loop_of_pass seedAssets ctx hp

theorem initLedger_first_error_witness :
    (InitLedger ⟨Store.empty, [none, none, some "disk full"], []⟩).1
      = Except.error "failed to put to world state. disk full" ∧
    (InitLedger ⟨Store.empty, [none, none, some "disk full"], []⟩).2.state.keys
      = ["Sensor1", "Sensor2"] ∧
    (InitLedger ⟨Store.empty, [none, none, some "disk full"], []⟩).2.log
      = ([] : List Call) ++
        (seedAssets.take 3).map (fun a => Call.PutState a.ID (Encode a)) :=
  ⟨((initLedger_first_error ⟨Store.empty, [none, none, some "disk full"], []⟩).1
      2 "disk full" [] (by decide) rfl).1,
    congrArg Store.keys ((initLedger_first_error
      ⟨Store.empty, [none, none, some "disk full"], []⟩).1 2 "disk full" [] (by decide) rfl).2.1,
    ((initLedger_first_error ⟨Store.empty, [none, none, some "disk full"], []⟩).1
      2 "disk full" [] (by decide) rfl).2.2⟩

theorem eraseKV_head {x : KV} {rest : List KV} (h : KeysAscending (x :: rest)) :
    eraseKV x.1 (x :: rest) = rest := by
  rw [eraseKV_cons_of_eq rfl]
  apply eraseKV_of_lookupKV_none
  apply lookupKV_eq_none_of_lt
  exact (List.pairwise_cons.mp h).1

/-- The loop of `DeleteAllAssets` on the entries of the store, when the delete of entry
number `j + 1` is the first store call to fail. -/
theorem DeleteAllAssets_loop_of_fault (l : List KV) :
    ∀ (ctx : Stub) (j : Nat) (e : String) (fs : List (Option String)),
      j < l.length → ctx.state.entries = l →
      ctx.faults = List.replicate (2 * j + 1) none ++ some e :: fs →
      (DeleteAllAssets.loop l ctx).1 = Except.error e ∧
      (DeleteAllAssets.loop l ctx).2.state.entries = l.drop j ∧
      (DeleteAllAssets.loop l ctx).2.log = ctx.log ++ deleteCallsOf ((l.take (j + 1)).map Prod.fst) := by
  induction l with
  | nil => intro ctx j e fs hj; simp at hj
  | cons x rest ih =>
    intro ctx j e fs hj hs hf
    cases j with
    | zero =>
      have hf' : ctx.faults = none :: some e :: fs := by simpa using hf
      simp only [DeleteAllAssets.loop, Next_of_pass hf']
      rw [@DelState_of_fault ⟨ctx.state, some e :: fs, ctx.log ++ [Call.Next]⟩ e fs rfl]
      simp [hs, deleteCallsOf]
    | succ j =>
      have hf' : ctx.faults
          = none :: none :: (List.replicate (2 * j + 1) none ++ some e :: fs) := by
        rw [hf]
        have : 2 * (j + 1) + 1 = (2 * j + 1) + 1 + 1 := by ring
        rw [this, List.replicate_succ, List.replicate_succ]
        rfl
      have hj' : j < rest.length := by simpa using hj
      simp only [DeleteAllAssets.loop, Next_of_pass hf']
      rw [@DelState_of_pass ⟨ctx.state,
        none :: (List.replicate (2 * j + 1) none ++ some e :: fs), ctx.log ++ [Call.Next]⟩ _ rfl]
      have hasc : KeysAscending (x :: rest) := hs ▸ ctx.state.ascending
      have hent : (ctx.state.delete x.1).entries = rest := by
        show eraseKV x.1 ctx.state.entries = rest
        rw [hs]; exact eraseKV_head hasc
      obtain ⟨h1, h2, h3⟩ := ih ⟨ctx.state.delete x.1,
        List.replicate (2 * j + 1) none ++ some e :: fs,
        ctx.log ++ [Call.Next] ++ [Call.DelState x.1]⟩ j e fs hj' hent rfl
      refine ⟨h1, ?_, ?_⟩
      · rw [h2]; rfl
      · rw [h3]; simp [deleteCallsOf]

/-- C17: `DeleteAllAssets` deletes the keys of the scan snapshot in ascending order and
returns the first error. When the delete of key number `j + 1` in that order is the first
store call to fail, with error `e`, `DeleteAllAssets` returns `e` unwrapped, the `j` keys
before it are absent afterwards, key number `j + 1` and the later ones are still present
with their bytes unchanged, and the calls made are the range scan, then a `Next` and a
delete for each of the first `j + 1` keys in ascending order. -/
theorem deleteAll_first_error (ctx : Stub) (j : Nat) (e : String) (fs : List (Option String))
    (hj : j < ctx.state.entries.length)
    (hf : ctx.faults = List.replicate (2 * j + 2) none ++ some e :: fs) :
    (DeleteAllAssets ctx).1 = Except.error e ∧
    (DeleteAllAssets ctx).2.state.entries = ctx.state.entries.drop j ∧
    (∀ x ∈ ctx.state.entries.take j, (DeleteAllAssets ctx).2.state.present x.1 = false) ∧
    (∀ x ∈ ctx.state.entries.drop j, (DeleteAllAssets ctx).2.state.get x.1 = some x.2) ∧
    (DeleteAllAssets ctx).2.log
      = ctx.log ++ Call.GetStateByRange "" "" :: deleteCallsOf (ctx.state.keys.take (j + 1)) := by
  have hf' : ctx.faults = none :: (List.replicate (2 * j + 1) none ++ some e :: fs) := by
    rw [hf, List.replicate_succ]; rfl
  obtain ⟨h1, h2, h3⟩ := DeleteAllAssets_loop_of_fault ctx.state.entries
    ⟨ctx.state, List.replicate (2 * j + 1) none ++ some e :: fs,
      ctx.log ++ [Call.GetStateByRange "" ""]⟩ j e fs hj rfl rfl
  have hrun : DeleteAllAssets ctx = DeleteAllAssets.loop ctx.state.entries
      ⟨ctx.state, List.replicate (2 * j + 1) none ++ some e :: fs,
        ctx.log ++ [Call.GetStateByRange "" ""]⟩ := by
    simp [DeleteAllAssets, GetStateByRange_of_pass hf', Store.range_all]
  rw [hrun]
  refine ⟨h1, h2, ?_, ?_, by rw [h3]; simp [Store.keys, List.map_take]⟩
  · intro x hx
    rw [Store.present_eq_false_iff]
    show lookupKV x.1 _ = none
    rw [h2]
    apply lookupKV_eq_none_of_lt
    intro y hy
    have hasc := ctx.state.ascending
    unfold KeysAscending at hasc
    rw [← List.take_append_drop j ctx.state.entries, List.pairwise_append] at hasc
    exact hasc.2.2 x hx y hy
  · intro x hx
    show lookupKV x.1 _ = some x.2
    rw [h2]
    exact lookupKV_of_mem (List.Pairwise.sublist (List.drop_sublist _ _) ctx.state.ascending) hx

theorem deleteAll_first_error_witness :
    (DeleteAllAssets ⟨(InitLedger (Stub.fresh Store.empty)).2.state,
        [none, none, none, none, some "rejected"], []⟩).1 = Except.error "rejected" ∧
    (DeleteAllAssets ⟨(InitLedger (Stub.fresh Store.empty)).2.state,
        [none, none, none, none, some "rejected"], []⟩).2.state.keys = ["Sensor2", "Sensor3"] :=
  ⟨(deleteAll_first_error ⟨(InitLedger (Stub.fresh Store.empty)).2.state,
        [none, none, none, none, some "rejected"], []⟩ 1 "rejected" [] (by decide) rfl).1,
    congrArg (List.map Prod.fst) (deleteAll_first_error
      ⟨(InitLedger (Stub.fresh Store.empty)).2.state,
        [none, none, none, none, some "rejected"], []⟩ 1 "rejected" [] (by decide) rfl).2.1⟩

theorem DeleteAllAssets_loop_log (l : List KV) :
    ∀ {ctx : Stub}, ctx.NoFaults →
      (DeleteAllAssets.loop l ctx).2.log = ctx.log ++ deleteCallsOf (l.map Prod.fst) := by
  induction l with
  | nil => intro ctx _; simp [DeleteAllAssets.loop, deleteCallsOf]
  | cons e rest ih =>
    intro ctx h
    have h1 := Stub.noFaults_tail h ctx.state (ctx.log ++ [Call.Next])
    have h2 := Stub.noFaults_tail h1 (ctx.state.delete e.1)
      (ctx.log ++ [Call.Next] ++ [Call.DelState e.1])
    simp only [DeleteAllAssets.loop, Next_of_noFaults h, DelState_of_noFaults h1]
    rw [ih h2]
    simp [deleteCallsOf]

/-- C12: `DeleteAllAssets` never decodes a value. On every store, whatever bytes its keys
hold, when no store call fails it succeeds and removes every key, and the calls it makes
are the range scan, then a `Next` and a delete per key: they are determined by the keys
alone, so two stores with the same keys give the same result and the same calls. -/
theorem deleteAll_keys_only (ctx : Stub) (h : ctx.NoFaults) :
    (DeleteAllAssets ctx).1 = Except.ok () ∧
    (DeleteAllAssets ctx).2.state = Store.empty ∧
    (DeleteAllAssets ctx).2.log
      = ctx.log ++ Call.GetStateByRange "" "" :: deleteCallsOf ctx.state.keys ∧
    ∀ ctx' : Stub, ctx'.NoFaults → ctx'.state.keys = ctx.state.keys → ctx'.log = ctx.log →
      (DeleteAllAssets ctx').1 = (DeleteAllAssets ctx).1 ∧
      (DeleteAllAssets ctx').2.state = (DeleteAllAssets ctx).2.state ∧
      (DeleteAllAssets ctx').2.log = (DeleteAllAssets ctx).2.log := by
  have main : ∀ c : Stub, c.NoFaults →
      (DeleteAllAssets c).1 = Except.ok () ∧
      (DeleteAllAssets c).2.state = Store.empty ∧
      (DeleteAllAssets c).2.log
        = c.log ++ Call.GetStateByRange "" "" :: deleteCallsOf c.state.keys := by
    intro c hc
    obtain ⟨h1, h2, _⟩ := DeleteAllAssets_of_noFaults hc
    refine ⟨h1, h2, ?_⟩
    have hc1 := Stub.noFaults_tail hc c.state (c.log ++ [Call.GetStateByRange "" ""])
    simp only [DeleteAllAssets, GetStateByRange_of_noFaults hc, Store.range_all]
    rw [DeleteAllAssets_loop_log _ hc1]
    simp [Store.keys]
  obtain ⟨h1, h2, h3⟩ := main ctx h
  refine ⟨h1, h2, h3, ?_⟩
  intro ctx' h' hk hl
  obtain ⟨g1, g2, g3⟩ := main ctx' h'
  exact ⟨by rw [g1, h1], by rw [g2, h2], by rw [g3, h3, hk, hl]⟩

theorem deleteAll_keys_only_witness :
    (DeleteAllAssets (Stub.fresh ((Store.empty.put "K" "not json").put "L" ""))).1
      = Except.ok () ∧
    (DeleteAllAssets (Stub.fresh ((Store.empty.put "K" "not json").put "L" ""))).2.state
      = Store.empty ∧
    (DeleteAllAssets (Stub.fresh ((Store.empty.put "K" "not json").put "L" ""))).2.log
      = [Call.GetStateByRange "" "", Call.Next, Call.DelState "K", Call.Next,
          Call.DelState "L"] :=
  ⟨(deleteAll_keys_only (Stub.fresh ((Store.empty.put "K" "not json").put "L" ""))
      (by decide)).1,
    (deleteAll_keys_only (Stub.fresh ((Store.empty.put "K" "not json").put "L" ""))
      (by decide)).2.1,
    (deleteAll_keys_only (Stub.fresh ((Store.empty.put "K" "not json").put "L" ""))
      (by decide)).2.2.1⟩

theorem GetAllAssets_loop_eq_decodeEach (l : List KV) :
    ∀ {ctx : Stub} (acc : List Asset), ctx.NoFaults →
      (GetAllAssets.loop l ctx acc).1
        = match decodeEach l with
          | Except.error err => Except.error err
          | Except.ok assets => Except.ok (acc ++ assets) := by
  induction l with
  | nil => intro ctx acc _; simp [GetAllAssets.loop, decodeEach]
  | cons e rest ih =>
    intro ctx acc h
    have h1 := Stub.noFaults_tail h ctx.state (ctx.log ++ [Call.Next])
    simp only [GetAllAssets.loop, Next_of_noFaults h, jsonUnmarshal, decodeEach]
    cases hd : Decode e.2 with
    | error err => rfl
    | ok asset =>
      simp only
      rw [ih _ h1]
      cases decodeEach rest with
      | error err => rfl
      | ok assets => simp

theorem GetAllAssets_eq_decodeEach {ctx : Stub} (h : ctx.NoFaults) :
    (GetAllAssets ctx).1 = decodeEach ctx.state.entries := by
  have h1 := Stub.noFaults_tail h ctx.state (ctx.log ++ [Call.GetStateByRange "" ""])
  simp only [GetAllAssets, GetStateByRange_of_noFaults h, Store.range_all]
  rw [GetAllAssets_loop_eq_decodeEach _ [] h1]
  cases decodeEach ctx.state.entries <;> simp

theorem readEach_eq_decodeEach (s : Store) (l : List KV)
    (hl : ∀ e ∈ l, s.get e.1 = some e.2) :
    readEach s (l.map Prod.fst) = decodeEach l := by
  induction l with
  | nil => rfl
  | cons e rest ih =>
    have he := hl e (List.mem_cons_self _ _)
    have hr := ih (fun x hx => hl x (List.mem_cons_of_mem _ hx))
    simp only [List.map_cons, readEach, decodeEach]
    rw [ReadAsset_of_noFaults (Stub.noFaults_fresh s)]
    simp only [Stub.fresh, he, hr]

theorem decodeEach_ok_iff (l : List KV) :
    (∃ assets, decodeEach l = Except.ok assets) ↔ ∀ e ∈ l, ∃ a, Decode e.2 = Except.ok a := by
  induction l with
  | nil => simp [decodeEach]
  | cons e rest ih =>
    simp only [decodeEach, List.mem_cons, forall_eq_or_imp]
    cases hd : Decode e.2 with
    | error err => simp
    | ok asset =>
      simp only [Except.ok.injEq, exists_eq', true_and]
      rw [← ih]
      cases decodeEach rest with
      | error err => simp
      | ok assets => simp

theorem decodeEach_error (l : List KV) (err : String) (h : decodeEach l = Except.error err) :
    ∃ e ∈ l, Decode e.2 = Except.error err := by
  induction l with
  | nil => simp [decodeEach] at h
  | cons e rest ih =>
    simp only [decodeEach] at h
    cases hd : Decode e.2 with
    | error err' =>
      rw [hd] at h
      simp only [Except.error.injEq] at h
      exact ⟨e, List.mem_cons_self _ _, by rw [hd, h]⟩
    | ok asset =>
      rw [hd] at h
      simp only at h
      cases hr : decodeEach rest with
      | error err' =>
        rw [hr] at h
        simp only [Except.error.injEq] at h
        obtain ⟨x, hx, hxe⟩ := ih (by rw [hr, h])
        exact ⟨x, List.mem_cons_of_mem _ hx, hxe⟩
      | ok assets => rw [hr] at h; cases h

theorem readEach_ok (s : Store) (keys : List String) (assets : List Asset)
    (h : readEach s keys = Except.ok assets) :
    keys.map (fun key => (ReadAsset (Stub.fresh s) key).1) = assets.map Except.ok := by
  induction keys generalizing assets with
  | nil => simp only [readEach, Except.ok.injEq] at h; subst h; rfl
  | cons key rest ih =>
    simp only [readEach] at h
    cases hr : (ReadAsset (Stub.fresh s) key).1 with
    | error err => rw [hr] at h; cases h
    | ok asset =>
      rw [hr] at h
      simp only at h
      cases hrest : readEach s rest with
      | error err => rw [hrest] at h; cases h
      | ok as =>
        rw [hrest] at h
        simp only [Except.ok.injEq] at h
        subst h
        simp [hr, ih as hrest]

/-- C18: when no store call fails, `GetAllAssets` returns what applying `ReadAsset` to the
present keys in ascending order returns (`readEach`): it succeeds exactly when the bytes
under every present key decode, its records are then, position by position, those that
`ReadAsset` returns for the keys in ascending order, and otherwise it returns the decoding
error of a stored value and no records. -/
theorem getAll_agrees_with_read (ctx : Stub) (h : ctx.NoFaults) :
    (GetAllAssets ctx).1 = readEach ctx.state ctx.state.keys ∧
    ((∃ assets, (GetAllAssets ctx).1 = Except.ok assets) ↔
      ∀ key bytes, ctx.state.get key = some bytes → ∃ a, Decode bytes = Except.ok a) ∧
    (∀ assets, (GetAllAssets ctx).1 = Except.ok assets →
      ctx.state.keys.map (fun key => (ReadAsset (Stub.fresh ctx.state) key).1)
        = assets.map Except.ok) ∧
    (∀ key bytes e, ctx.state.get key = some bytes → Decode bytes = Except.error e →
      ∃ err, (GetAllAssets ctx).1 = Except.error err ∧
        ∃ key' bytes', ctx.state.get key' = some bytes' ∧
          Decode bytes' = Except.error err) := by
  have hread : (GetAllAssets ctx).1 = readEach ctx.state ctx.state.keys := by
    rw [GetAllAssets_eq_decodeEach h]
    exact (readEach_eq_decodeEach ctx.state ctx.state.entries
      (fun e he => ctx.state.get_of_mem he)).symm
  refine ⟨hread, ?_, ?_, ?_⟩
  · rw [GetAllAssets_eq_decodeEach h, decodeEach_ok_iff]
    constructor
    · intro hall key bytes hg
      exact hall (key, bytes) (mem_of_lookupKV hg)
    · intro hall e he
      exact hall e.1 e.2 (ctx.state.get_of_mem he)
  · intro assets hok
    exact readEach_ok _ _ _ (hread ▸ hok)
  · intro key bytes e hg hd
    cases hres : decodeEach ctx.state.entries with
    | ok assets =>
      obtain ⟨a, ha⟩ := (decodeEach_ok_iff _).mp ⟨assets, hres⟩ (key, bytes) (mem_of_lookupKV hg)
      rw [hd] at ha; cases ha
    | error err =>
      obtain ⟨x, hx, hxe⟩ := decodeEach_error _ _ hres
      exact ⟨err, by rw [GetAllAssets_eq_decodeEach h, hres], x.1, x.2,
        ctx.state.get_of_mem hx, hxe⟩

theorem getAll_agrees_with_read_witness :
    (GetAllAssets (Stub.fresh (InitLedger (Stub.fresh Store.empty)).2.state)).1
      = readEach (InitLedger (Stub.fresh Store.empty)).2.state
          ["Sensor1", "Sensor2", "Sensor3"] ∧
    (GetAllAssets (Stub.fresh ((InitLedger (Stub.fresh Store.empty)).2.state.put
        "Sensor2" "not json"))).1
      = Except.error "json: cannot unmarshal into Go value of type chaincode.Asset" := by
  refine ⟨(getAll_agrees_with_read (Stub.fresh (InitLedger (Stub.fresh Store.empty)).2.state)
      (by decide)).1, ?_⟩
  rw [GetAllAssets_eq_decodeEach (by decide)]
  have he : (Stub.fresh ((InitLedger (Stub.fresh Store.empty)).2.state.put
      "Sensor2" "not json")).state.entries
      = [("Sensor1", Encode (seedAssets.get ⟨0, by decide⟩)), ("Sensor2", "not json"),
         ("Sensor3", Encode (seedAssets.get ⟨2, by decide⟩))] := rfl
  rw [he]
  simp only [decodeEach]
  rw [Decode_Encode (seedAssets.get ⟨0, by decide⟩) rfl]
  rfl

/-! ## The codec round trip -/

/-- The temperatures of the sample assets are the `float64` numbers nearest to 25.5, 28
and 24.8, here with their bits, and the encoder writes them as `25.5`, `28` and
`24.8`. -/
theorem seed_temperatures :
    Float64.ofConst 255 (-1) = ⟨false, 0x4039800000000000⟩ ∧
    Float64.ofConst 28 0 = ⟨false, 0x403C000000000000⟩ ∧
    Float64.ofConst 248 (-1) = ⟨false, 0x4038CCCCCCCCCCCD⟩ ∧
    formatFloat (Float64.ofConst 255 (-1)) = ['2', '5', '.', '5'] ∧
    formatFloat (Float64.ofConst 28 0) = ['2', '8'] ∧
    formatFloat (Float64.ofConst 248 (-1)) = ['2', '4', '.', '8'] := by
  decide!

/-- The encoder's number text on some `float64` numbers, given by their bits: 0.1 + 0.2,
one third, `2^53`, `1e21`, `1e23`, `1e-7`, the least positive number, the greatest finite
number and minus zero. -/
theorem formatFloat_examples :
    formatFloat ⟨false, 0x3FD3333333333334⟩ = "0.30000000000000004".data ∧
    formatFloat ⟨false, 0x3FD5555555555555⟩ = "0.3333333333333333".data ∧
    formatFloat ⟨false, 0x4340000000000000⟩ = "9007199254740992".data ∧
    formatFloat ⟨false, 0x444B1AE4D6E2EF50⟩ = "1e+21".data ∧
    formatFloat ⟨false, 0x44B52D02C7E14AF6⟩ = "1e+23".data ∧
    formatFloat ⟨false, 0x3E7AD7F29ABCAF48⟩ = "1e-7".data ∧
    formatFloat ⟨false, 1⟩ = "5e-324".data ∧
    formatFloat ⟨false, 0x7FEFFFFFFFFFFFFF⟩ = "1.7976931348623157e+308".data ∧
    formatFloat ⟨true, 0⟩ = "-0".data := by
  decide!

/-- The decoder's reading of some number texts: halfway between `2^53` and the next
`float64` the even one is taken, a number below half the least positive one becomes zero,
and a number that rounds to `2^1024` is beyond the range. -/
theorem toFloat64_examples :
    (⟨false, 9007199254740993, 0⟩ : Decimal).toFloat64 = some ⟨false, 0x4340000000000000⟩ ∧
    (⟨false, 9007199254740995, 0⟩ : Decimal).toFloat64 = some ⟨false, 0x4340000000000002⟩ ∧
    (⟨false, 1, -400⟩ : Decimal).toFloat64 = some ⟨false, 0⟩ ∧
    (⟨false, 3, -324⟩ : Decimal).toFloat64 = some ⟨false, 1⟩ ∧
    (⟨false, 17976931348623158, 292⟩ : Decimal).toFloat64
      = some ⟨false, 0x7FEFFFFFFFFFFFFF⟩ ∧
    (⟨false, 17976931348623159, 292⟩ : Decimal).toFloat64 = none := by
  decide!

/-- C15, as the code has it: marshalling an `Asset` never fails (its `Temperature` is
finite), and for every `Asset` whose `Name` is valid UTF-8 (its `ID` and `Timestamp` are
valid UTF-8 texts) unmarshalling the marshalled bytes succeeds and gives back the asset,
all four fields, so that marshalling the decoded value reproduces the original bytes.
For any `Name`, unmarshalling gives the asset with every invalid byte of `Name` replaced
by U+FFFD. -/
theorem codec_round_trip (a : Asset) :
    jsonMarshal a = Except.ok (Encode a) ∧
    Decode (Encode a) = Except.ok { a with Name := a.Name.coerced } ∧
    (a.Name.valid = true →
      jsonUnmarshal (Encode a) = Except.ok a ∧
      Decode (Encode a) = Except.ok a ∧
      ∀ b, Decode (Encode a) = Except.ok b → Encode b = Encode a) := by
  refine ⟨rfl, Decode_Encode_coerced a, ?_⟩
  intro hn
  have h := Decode_Encode a hn
  refine ⟨h, h, ?_⟩
  intro b hb
  rw [h] at hb
  cases hb
  rfl

theorem codec_round_trip_witness :
    (GoString.ofString "Sensor & Co").valid = true ∧
    Decode (Encode ⟨"a\"b\\c<d>\n", "Sensor & Co", Float64.ofConst 248 (-1), ""⟩)
      = Except.ok ⟨"a\"b\\c<d>\n", "Sensor & Co", Float64.ofConst 248 (-1), ""⟩ :=
  ⟨rfl,
    ((codec_round_trip ⟨"a\"b\\c<d>\n", "Sensor & Co", Float64.ofConst 248 (-1), ""⟩).2.2
      rfl).2.1⟩

/-- C15, counterexample: the asset with ID `A`, Temperature 0, the empty Timestamp and the
one-byte Name `0xFF`, which is not valid UTF-8. Unmarshalling its marshalled bytes gives
an asset whose Name is the three bytes of U+FFFD, not the asset itself, and marshalling
that asset gives other bytes than the original ones. -/
theorem codec_round_trip_invalid_name :
    Decode (Encode ⟨"A", [0xFF], Float64.zero, ""⟩)
      = Except.ok ⟨"A", [0xEF, 0xBF, 0xBD], Float64.zero, ""⟩ ∧
    Decode (Encode ⟨"A", [0xFF], Float64.zero, ""⟩)
      ≠ Except.ok ⟨"A", [0xFF], Float64.zero, ""⟩ ∧
    Encode ⟨"A", [0xEF, 0xBF, 0xBD], Float64.zero, ""⟩
      ≠ Encode ⟨"A", [0xFF], Float64.zero, ""⟩ := by
  have h1 : Decode (Encode ⟨"A", [0xFF], Float64.zero, ""⟩)
      = Except.ok ⟨"A", [0xEF, 0xBF, 0xBD], Float64.zero, ""⟩ := rfl
  refine ⟨h1, ?_, ?_⟩
  · intro h
    rw [h1] at h
    exact absurd (congrArg Asset.Name (Except.ok.inj h)) (by decide)
  · intro h
    exact absurd (congrArg String.data h) (by decide)

end Chaincode
